import Mathlib

/-!
Verification development for the `ai-edit` unified-diff engine.

A text buffer is modelled as a `List Char`.  The development embeds, from the
repository sources:

* Python `str.splitlines` (keepends and terminator-stripped variants),
  `str.count`, `str.replace` for the line-ending patterns, as used by
  `ai_edit/utils/diff.py` and `ai_edit/core/file_manager.py`;
* `FileManager._detect_line_ending` and `FileManager._preserve_formatting`
  from `ai_edit/core/file_manager.py`;
* `_UNIFIED_HUNK_RE`, `_copy_until`, `apply_diff` and `generate_diff` from
  `ai_edit/utils/diff.py`, the latter including the parts of CPython's
  `difflib` (`SequenceMatcher` and `unified_diff`) that `generate_diff`
  invokes.
-/

namespace AiEdit

/-- Shorthand turning a string literal into the `List Char` text model. -/
def toL (s : String) : List Char := s.toList

/-- Characters at which Python `str.splitlines` breaks a line: `\n`, `\r`
(with `\r\n` counting as a single break), `\v`, `\f`, `\x1c`, `\x1d`,
`\x1e`, `\x85`, `\u2028` (line separator), `\u2029` (paragraph separator). -/
def isLineSep (c : Char) : Bool :=
  c = '\n' || c = '\r' || c = '\x0b' || c = '\x0c' || c = '\x1c' ||
  c = '\x1d' || c = '\x1e' || c = '\x85' || c = '\u2028' || c = '\u2029'

/-- Worker for `pySplitlines`; `acc` holds the reversed content of the line
being scanned.  A `\r` immediately followed by `\n` is one terminator. -/
def pySplitlinesAux : List Char → List Char → List (List Char)
  | [], acc => if acc = [] then [] else [acc.reverse]
  | c :: rest, acc =>
    match rest with
    | d :: rest2 =>
      if c = '\r' ∧ d = '\n' then (acc.reverse ++ ['\r', '\n']) :: pySplitlinesAux rest2 []
      else if isLineSep c then (acc.reverse ++ [c]) :: pySplitlinesAux (d :: rest2) []
      else pySplitlinesAux (d :: rest2) (c :: acc)
    | [] =>
      if isLineSep c then (acc.reverse ++ [c]) :: pySplitlinesAux [] []
      else pySplitlinesAux [] (c :: acc)

/-- Python `s.splitlines(keepends=True)`: each returned line retains its
terminator; a final unterminated line is returned without one. -/
def pySplitlines (s : List Char) : List (List Char) := pySplitlinesAux s []

/-- Drop the line terminator from one line produced by `pySplitlines`. -/
def stripEol (l : List Char) : List Char :=
  if l.reverse.take 2 = ['\n', '\r'] then l.dropLast.dropLast
  else if (l.getLast?.map isLineSep).getD false then l.dropLast
  else l

/-- Python `s.splitlines()` (keepends=False), as used on the diff text in
`apply_diff`. -/
def pySplitlinesStrip (s : List Char) : List (List Char) :=
  (pySplitlines s).map stripEol

/-- Python `text.count "\r\n"`: occurrences of the pattern scanning left to
right (the pattern cannot overlap itself). -/
def countCRLF : List Char → Nat
  | [] => 0
  | c :: rest =>
    match rest with
    | d :: rest2 => if c = '\r' ∧ d = '\n' then countCRLF rest2 + 1 else countCRLF (d :: rest2)
    | [] => 0

/-- Python `text.count "\n"`: number of `\n` characters. -/
def countLF : List Char → Nat
  | [] => 0
  | c :: rest => (if c = '\n' then 1 else 0) + countLF rest

/-- Python `updated.replace "\r\n" "\n"` (left-to-right, non-overlapping). -/
def replaceCRLFwithLF : List Char → List Char
  | [] => []
  | c :: rest =>
    match rest with
    | d :: rest2 =>
      if c = '\r' ∧ d = '\n' then '\n' :: replaceCRLFwithLF rest2
      else c :: replaceCRLFwithLF (d :: rest2)
    | [] => [c]

/-- Python `normalised.replace "\n" "\r\n"`. -/
def replaceLFwithCRLF : List Char → List Char
  | [] => []
  | c :: rest =>
    if c = '\n' then '\r' :: '\n' :: replaceLFwithCRLF rest
    else c :: replaceLFwithCRLF rest

/-- Embeds `FileManager._detect_line_ending`: count CRLF occurrences, count
raw LF occurrences minus the CRLF ones, and choose CRLF only when strictly
more frequent.  The subtraction is carried out on integers exactly as in the
source (it is in fact never negative). -/
def detectLineEnding (text : List Char) : List Char :=
  let crlf : Int := countCRLF text
  let lf : Int := countLF text - crlf
  if lf < crlf then ['\r', '\n'] else ['\n']

/-- Python `s.endswith t` on the text model. -/
def pyEndsWith (s t : List Char) : Bool :=
  (s.reverse.take t.length) = t.reverse

/-- Embeds `FileManager._preserve_formatting`: inherit `original`'s dominant
line-ending style and its trailing-newline presence.  Empty originals pass
`updated` through untouched. -/
def preserveFormatting (original updated : List Char) : List Char :=
  if original = [] then updated
  else
    let ending := detectLineEnding original
    let norm0 := replaceCRLFwithLF updated
    let norm := if ending = ['\r', '\n'] then replaceLFwithCRLF norm0 else norm0
    let origTrail := pyEndsWith original ending
    let updTrail := pyEndsWith norm ending
    if origTrail && !updTrail then norm ++ ending
    else if !origTrail && updTrail then norm.take (norm.length - ending.length)
    else norm

/-- Formalises "uses `\r\n` throughout": every `\r` opens a `\r\n` pair and
every `\n` closes one. -/
def crlfUniform : List Char → Bool
  | [] => true
  | c :: rest =>
    if c = '\n' then false
    else if c = '\r' then
      match rest with
      | d :: rest2 => if d = '\n' then crlfUniform rest2 else false
      | [] => false
    else crlfUniform rest

/-- Formalises "no lone carriage returns": every `\r` is the start of a
`\r\n` pair. -/
def noLoneCR : List Char → Bool
  | [] => true
  | c :: rest =>
    if c = '\r' then
      match rest with
      | d :: rest2 => if d = '\n' then noLoneCR rest2 else false
      | [] => false
    else noLoneCR rest

/-- Failure modes of `apply_diff`.  The first four correspond to the
`ValueError`s raised explicitly in `ai_edit/utils/diff.py`; `indexError`
models the uncaught `IndexError` that `src[current_index]` in `_copy_until`
raises when the index is past the end of the list. -/
inductive PatchErr where
  | unexpectedContent
  | malformedHunkHeader
  | contextOutOfRange
  | unknownDiffMark
  | indexError
  deriving DecidableEq, Repr

instance {ε γ : Type} [DecidableEq ε] [DecidableEq γ] : DecidableEq (Except ε γ) := fun x y =>
  match x, y with
  | .ok a, .ok b =>
    if h : a = b then isTrue (by rw [h]) else isFalse (fun hc => h (by injection hc))
  | .error a, .error b =>
    if h : a = b then isTrue (by rw [h]) else isFalse (fun hc => h (by injection hc))
  | .ok _, .error _ => isFalse (fun hc => Except.noConfusion hc)
  | .error _, .ok _ => isFalse (fun hc => Except.noConfusion hc)

/-- Python regex `\d` restricted to ASCII decimal digits.  The source pattern
matches the full Unicode `Nd` category; every digit the surrounding code ever
produces or consumes is ASCII. -/
def isPyDigit (c : Char) : Bool := c.isDigit

/-- The character class Python's `re` module matches for `\s` in a `str`
pattern (Unicode whitespace plus the `\x1c`-`\x1f` separators). -/
def isPySpace (c : Char) : Bool :=
  c = ' ' || c = '\t' || c = '\n' || c = '\x0b' || c = '\x0c' || c = '\r' ||
  c = '\x1c' || c = '\x1d' || c = '\x1e' || c = '\x1f' || c = '\x85' ||
  c = '\xa0' || c = '\u1680' || ('\u2000' ≤ c && c ≤ '\u200a') ||
  c = '\u2028' || c = '\u2029' || c = '\u202f' || c = '\u205f' || c = '\u3000'

/-- Greedy `\d+`-style scan: the longest digit prefix and the remainder. -/
def takeDigits : List Char → List Char × List Char
  | [] => ([], [])
  | c :: rest =>
    if isPyDigit c then
      let (ds, r) := takeDigits rest
      (c :: ds, r)
    else ([], c :: rest)

/-- Value of a digit string, as Python `int` reads the regex groups. -/
def digitsToNat (ds : List Char) : Nat :=
  ds.foldl (fun a c => a * 10 + (c.toNat - 48)) 0

/-- The optional `(?:,(\d+))?` group: consumed only when a comma directly
followed by at least one digit is present. -/
def parseOptCount : List Char → Option Nat × List Char
  | [] => (none, [])
  | c :: rest =>
    if c = ',' then
      let (ds, r) := takeDigits rest
      if ds = [] then (none, c :: rest) else (some (digitsToNat ds), r)
    else (none, c :: rest)

/-- One `-(\\d+)(?:,(\\d+))?`-style number group: a mandatory digit run and
the optional comma count. -/
def parseHunkNum (l : List Char) : Option ((Nat × Option Nat) × List Char) :=
  let (ds, r1) := takeDigits l
  if ds = [] then none
  else
    let (oc, r2) := parseOptCount r1
    some ((digitsToNat ds, oc), r2)

/-- Embeds `_UNIFIED_HUNK_RE.match`: the verbose pattern
`@@\\s-(\\d+)(?:,(\\d+))?\\s\\+(\\d+)(?:,(\\d+))?\\s@@` anchored at the start of
the line, trailing content ignored.  Returns
(origStart, origCount?, modStart, modCount?) on success. -/
def matchUnifiedHunk (l : List Char) : Option (Nat × Option Nat × Nat × Option Nat) :=
  match l with
  | c1 :: c2 :: c3 :: r0 =>
    if c1 = '@' ∧ c2 = '@' ∧ isPySpace c3 then
      match r0 with
      | c4 :: r1 =>
        if c4 = '-' then
          match parseHunkNum r1 with
          | some ((os, oc), r2) =>
            (match r2 with
            | c5 :: r3 =>
              if isPySpace c5 then
                match r3 with
                | c6 :: r4 =>
                  if c6 = '+' then
                    match parseHunkNum r4 with
                    | some ((ms, mc), r5) =>
                      (match r5 with
                      | c7 :: r6 =>
                        if isPySpace c7 then
                          match r6 with
                          | c8 :: c9 :: _ =>
                            if c8 = '@' ∧ c9 = '@' then some (os, oc, ms, mc) else none
                          | _ => none
                        else none
                      | [] => none)
                    | none => none
                  else none
                | [] => none
              else none
            | [] => none)
          | none => none
        else none
      | [] => none
    else none
  | _ => none

/-- Embeds the loop of `_copy_until`: copy `steps` unchanged lines from
`src` starting at `currentIndex` onto `dst`.  The Python loop indexes `src`
without a bounds check, so running past the end is an `IndexError`. -/
def copyUntilGo (src : List (List Char)) :
    Nat → List (List Char) → Nat → Except PatchErr (List (List Char) × Nat)
  | 0, dst, currentIndex => .ok (dst, currentIndex)
  | steps + 1, dst, currentIndex =>
    match src.get? currentIndex with
    | some l => copyUntilGo src steps (dst ++ [l]) (currentIndex + 1)
    | none => .error .indexError

/-- Wrapper giving `_copy_until` its source signature: the remaining
iteration count of the `while current_index < start_index` loop is exactly
`(startIndex - currentIndex).toNat`. -/
def copyUntil (src dst : List (List Char)) (startIndex : Int) (currentIndex : Nat) :
    Except PatchErr (List (List Char) × Nat) :=
  copyUntilGo src (startIndex - currentIndex).toNat dst currentIndex

/-- Python `line.startswith "@@"`. -/
def startsHunkMarker (l : List Char) : Bool := l.take 2 = ['@', '@']

/-- The main loop of `apply_diff` over the header-stripped diff lines.  Once
the first line has been checked to be a hunk marker, every later `@@` line
opens a new hunk and every other line is a hunk-body line, so the two nested
`while` loops of the source collapse into this single pass.  State:
remaining diff lines, the cursor into `origLines`, and the patched lines
accumulated so far; the base case appends the remainder of the original. -/
def applyBody (origLines : List (List Char)) :
    List (List Char) → Nat → List (List Char) → Except PatchErr (List (List Char))
  | [], origIndex, patched => .ok (patched ++ origLines.drop origIndex)
  | line :: rest, origIndex, patched =>
    if startsHunkMarker line then
      match matchUnifiedHunk line with
      | none => .error .malformedHunkHeader
      | some (origStart, _, _, _) =>
        match copyUntil origLines patched ((origStart : Int) - 1) origIndex with
        | .error e => .error e
        | .ok (patched1, origIndex1) => applyBody origLines rest origIndex1 patched1
    else if line = [] then applyBody origLines rest origIndex patched
    else if line.head? = some ' ' then
      if h : origIndex < origLines.length then
        applyBody origLines rest (origIndex + 1) (patched ++ [origLines.get ⟨origIndex, h⟩])
      else .error .contextOutOfRange
    else if line.head? = some '-' then applyBody origLines rest (origIndex + 1) patched
    else if line.head? = some '+' then
      applyBody origLines rest origIndex
        (patched ++ [line.drop 1 ++ (if pyEndsWith line ['\n'] then [] else ['\n'])])
    else .error .unknownDiffMark

/-- Python `line.startswith "---" or line.startswith "+++"`, the condition of
the header-skipping loop in `apply_diff`. -/
def isFileHeaderLine (l : List Char) : Bool :=
  l.take 3 = ['-', '-', '-'] || l.take 3 = ['+', '+', '+']

/-- Embeds `apply_diff`: split the original keeping terminators, split the
diff dropping them, skip leading `---`/`+++` file headers, require a hunk
marker on the first remaining line, then run the hunk loop and join the
patched lines back into a single text. -/
def applyDiff (original diff : List Char) : Except PatchErr (List Char) :=
  let origLines := pySplitlines original
  let diffLines := (pySplitlinesStrip diff).dropWhile isFileHeaderLine
  match diffLines with
  | [] => .ok (List.flatten origLines)
  | line :: _ =>
    if startsHunkMarker line then
      (applyBody origLines diffLines 0 []).map List.flatten
    else .error .unexpectedContent

/-! The slice of CPython `difflib` that `generate_diff` exercises:
`SequenceMatcher(None, a, b)` with `get_matching_blocks`, `get_opcodes`,
`get_grouped_opcodes`, and the `unified_diff` renderer.  The sequence
elements are kept generic (`generate_diff` instantiates them with the
keepends lines of the two texts). -/

section SequenceMatcher

variable {α : Type} [DecidableEq α]

/-- The `b2j` mapping built by `SequenceMatcher` for `isjunk=None`: the
ascending list of indices at which `x` occurs in `b`, emptied for "popular"
elements by the autojunk heuristic once `b` has at least 200 elements. -/
def b2j (b : List α) (x : α) : List Nat :=
  let idxs := (List.range b.length).filter (fun j => b.get? j = some x)
  if 200 ≤ b.length ∧ b.length / 100 + 1 < idxs.length then [] else idxs

/-- The index list as the inner loop of `find_longest_match` consumes it:
`continue` skips `j < blo`, `break` stops at the first `j ≥ bhi`. -/
def flmJs (blo bhi : Nat) : List Nat → List Nat
  | [] => []
  | j :: t =>
    if j < blo then flmJs blo bhi t
    else if bhi ≤ j then []
    else j :: flmJs blo bhi t

/-- One row of the `find_longest_match` dynamic program: for each place `j`
where `a[i]` occurs in `b`, the diagonal run length `k` extends the previous
row's entry at `j - 1` (`j2len.get(j-1, 0) + 1`), and the best triple
`(besti, bestj, bestsize)` is replaced whenever `k` is strictly larger. -/
def flmInner (j2lenPrev : Nat → Nat) (i : Nat) :
    List Nat → (Nat → Nat) → Nat × Nat × Nat → (Nat → Nat) × (Nat × Nat × Nat)
  | [], newj2len, best => (newj2len, best)
  | j :: js, newj2len, best =>
    let k := (if j = 0 then 0 else j2lenPrev (j - 1)) + 1
    let newj2len1 : Nat → Nat := fun x => if x = j then k else newj2len x
    let best1 := if best.2.2 < k then (i + 1 - k, j + 1 - k, k) else best
    flmInner j2lenPrev i js newj2len1 best1

/-- The outer `for i in range(alo, ahi)` loop of `find_longest_match`,
threading the previous row's `j2len` table and the best match so far.  An
out-of-range row index contributes no occurrences (unreachable from
`get_matching_blocks`, whose rectangles stay within the sequences). -/
def flmRows (a : List α) (b2jf : α → List Nat) (blo bhi : Nat) :
    List Nat → (Nat → Nat) → Nat × Nat × Nat → Nat × Nat × Nat
  | [], _, best => best
  | i :: is, j2len, best =>
    let js := match a.get? i with
      | some x => flmJs blo bhi (b2jf x)
      | none => []
    let r := flmInner j2len i js (fun _ => 0) best
    flmRows a b2jf blo bhi is r.1 r.2

/-- The first post-loop widening of `find_longest_match` (its junk set is
empty for `isjunk=None`, so the remaining two widening loops never fire):
extend the match to the left while the preceding elements agree.  The
in-range conjunct guards the list lookup that Python performs bare. -/
def extendLeftGo (a b : List α) (alo blo : Nat) :
    Nat → Nat → Nat → Nat → Nat × Nat × Nat
  | 0, besti, bestj, bestsize => (besti, bestj, bestsize)
  | steps + 1, besti, bestj, bestsize =>
    if alo < besti ∧ blo < bestj ∧ besti - 1 < a.length ∧
        a.get? (besti - 1) = b.get? (bestj - 1) then
      extendLeftGo a b alo blo steps (besti - 1) (bestj - 1) (bestsize + 1)
    else (besti, bestj, bestsize)

/-- Entry point for the leftward widening: `besti` itself bounds the number
of single-step decrements the loop can make. -/
def extendLeft (a b : List α) (alo blo : Nat) (besti bestj bestsize : Nat) :
    Nat × Nat × Nat :=
  extendLeftGo a b alo blo besti besti bestj bestsize

/-- The matching rightward widening loop of `find_longest_match`. -/
def extendRightGo (a b : List α) (ahi bhi : Nat) (besti bestj : Nat) :
    Nat → Nat → Nat
  | 0, bestsize => bestsize
  | steps + 1, bestsize =>
    if besti + bestsize < ahi ∧ bestj + bestsize < bhi ∧
        besti + bestsize < a.length ∧
        a.get? (besti + bestsize) = b.get? (bestj + bestsize) then
      extendRightGo a b ahi bhi besti bestj steps (bestsize + 1)
    else bestsize

/-- Entry point for the rightward widening: the loop's guard keeps
`bestsize` below `ahi`, so `ahi` steps always suffice. -/
def extendRight (a b : List α) (ahi bhi : Nat) (besti bestj : Nat) (bestsize : Nat) : Nat :=
  extendRightGo a b ahi bhi besti bestj ahi bestsize

/-- Embeds `SequenceMatcher.find_longest_match` on the rectangle
`[alo, ahi) × [blo, bhi)`. -/
def findLongestMatch (a b : List α) (alo ahi blo bhi : Nat) : Nat × Nat × Nat :=
  let best := flmRows a (b2j b) blo bhi (List.range' alo (ahi - alo)) (fun _ => 0) (alo, blo, 0)
  let left := extendLeft a b alo blo best.1 best.2.1 best.2.2
  (left.1, left.2.1, extendRight a b ahi bhi left.1 left.2.1 left.2.2)

/-- The work-stack loop of `get_matching_blocks`: pop a rectangle, find its
longest match, and when non-empty record it and push the rectangles to its
lower left and upper right.  `fuel` bounds the iteration count; the caller
passes a bound the loop can never exhaust, since each iteration strictly
decreases the total rectangle size doubled plus the stack length. -/
def gmbLoop (a b : List α) :
    Nat → List (Nat × Nat × Nat × Nat) → List (Nat × Nat × Nat) → List (Nat × Nat × Nat)
  | _, [], acc => acc
  | 0, _, acc => acc
  | fuel + 1, (alo, ahi, blo, bhi) :: queue, acc =>
    let m := findLongestMatch a b alo ahi blo bhi
    let i := m.1
    let j := m.2.1
    let k := m.2.2
    if k = 0 then gmbLoop a b fuel queue acc
    else
      let q2 := if i + k < ahi ∧ j + k < bhi then [(i + k, ahi, j + k, bhi)] else []
      let q1 := if alo < i ∧ blo < j then [(alo, i, blo, j)] else []
      gmbLoop a b fuel (q2 ++ q1 ++ queue) (acc ++ [(i, j, k)])

/-- Lexicographic order on match triples: the order `matching_blocks.sort()`
establishes. -/
def matchLE (x y : Nat × Nat × Nat) : Prop :=
  x.1 < y.1 ∨ (x.1 = y.1 ∧ (x.2.1 < y.2.1 ∨ (x.2.1 = y.2.1 ∧ x.2.2 ≤ y.2.2)))

instance : DecidableRel matchLE := fun x y => by
  unfold matchLE
  infer_instance

instance : IsTotal (Nat × Nat × Nat) matchLE :=
  ⟨fun x y => by unfold matchLE; omega⟩

instance : IsTrans (Nat × Nat × Nat) matchLE :=
  ⟨fun x y z hxy hyz => by unfold matchLE at *; omega⟩

/-- The adjacency-collapsing pass at the end of `get_matching_blocks`:
matches that touch end to start in both sequences are merged into one. -/
def mergeAdj : Nat → Nat → Nat → List (Nat × Nat × Nat) → List (Nat × Nat × Nat)
  | i1, j1, k1, [] => if k1 ≠ 0 then [(i1, j1, k1)] else []
  | i1, j1, k1, (i2, j2, k2) :: t =>
    if i1 + k1 = i2 ∧ j1 + k1 = j2 then mergeAdj i1 j1 (k1 + k2) t
    else (if k1 ≠ 0 then [(i1, j1, k1)] else []) ++ mergeAdj i2 j2 k2 t

/-- Embeds `SequenceMatcher.get_matching_blocks`: recursively collected
matches, sorted, adjacency-merged, with the terminating sentinel
`(len(a), len(b), 0)` appended. -/
def getMatchingBlocks (a b : List α) : List (Nat × Nat × Nat) :=
  let mb := List.insertionSort matchLE
    (gmbLoop a b (2 * a.length + 1) [(0, a.length, 0, b.length)] [])
  mergeAdj 0 0 0 mb ++ [(a.length, b.length, 0)]

/-- Opcode tags of `SequenceMatcher.get_opcodes`. -/
inductive DTag where
  | replace
  | delete
  | insert
  | equal
  deriving DecidableEq, Repr

/-- One `(tag, i1, i2, j1, j2)` opcode. -/
structure Opcode where
  tag : DTag
  i1 : Nat
  i2 : Nat
  j1 : Nat
  j2 : Nat
  deriving DecidableEq, Repr

/-- The loop body of `get_opcodes` over the matching blocks: the gap before
each block becomes a `replace`/`delete`/`insert` opcode and a non-trivial
block becomes an `equal` opcode. -/
def opcodesLoop : Nat → Nat → List (Nat × Nat × Nat) → List Opcode
  | _, _, [] => []
  | i, j, (ai, bj, size) :: t =>
    let tagged : List Opcode :=
      if i < ai ∧ j < bj then [⟨.replace, i, ai, j, bj⟩]
      else if i < ai then [⟨.delete, i, ai, j, bj⟩]
      else if j < bj then [⟨.insert, i, ai, j, bj⟩]
      else []
    let eqs : List Opcode := if size ≠ 0 then [⟨.equal, ai, ai + size, bj, bj + size⟩] else []
    tagged ++ eqs ++ opcodesLoop (ai + size) (bj + size) t

/-- Embeds `SequenceMatcher.get_opcodes`. -/
def getOpcodes (a b : List α) : List Opcode := opcodesLoop 0 0 (getMatchingBlocks a b)

/-- The initial trimming of `get_grouped_opcodes`: a leading `equal` opcode
is cut down to its last `n` lines of context. -/
def trimFirstOpcode (n : Nat) : List Opcode → List Opcode
  | [] => []
  | o :: t =>
    if o.tag = .equal then
      ⟨o.tag, max o.i1 (o.i2 - n), o.i2, max o.j1 (o.j2 - n), o.j2⟩ :: t
    else o :: t

/-- The twin trimming: a trailing `equal` opcode keeps its first `n` lines. -/
def trimLastOpcode (n : Nat) : List Opcode → List Opcode
  | [] => []
  | [o] =>
    if o.tag = .equal then
      [⟨o.tag, o.i1, min o.i2 (o.i1 + n), o.j1, min o.j2 (o.j1 + n)⟩]
    else [o]
  | o :: t => o :: trimLastOpcode n t

/-- Recognises the `len(group) == 1 and group[0][0] == 'equal'` guard that
suppresses a final context-only group. -/
def isSingleEqual : List Opcode → Bool
  | [o] => o.tag = .equal
  | _ => false

/-- The grouping loop of `get_grouped_opcodes`: an `equal` opcode wider than
`2 n` closes the current group (keeping `n` lines of trailing context) and
opens the next one (keeping `n` lines of leading context). -/
def ggoLoop (n : Nat) : List Opcode → List Opcode → List (List Opcode)
  | group, [] => if group ≠ [] ∧ isSingleEqual group = false then [group] else []
  | group, o :: t =>
    if o.tag = .equal ∧ 2 * n < o.i2 - o.i1 then
      (group ++ [⟨o.tag, o.i1, min o.i2 (o.i1 + n), o.j1, min o.j2 (o.j1 + n)⟩]) ::
        ggoLoop n [⟨o.tag, max o.i1 (o.i2 - n), o.i2, max o.j1 (o.j2 - n), o.j2⟩] t
    else ggoLoop n (group ++ [o]) t

/-- Embeds `SequenceMatcher.get_grouped_opcodes` (context size `n`),
including the placeholder opcode substituted when there are no opcodes at
all (both sequences empty). -/
def getGroupedOpcodes (a b : List α) (n : Nat) : List (List Opcode) :=
  let codes0 := getOpcodes a b
  let codes1 := if codes0 = [] then [⟨.equal, 0, 1, 0, 1⟩] else codes0
  ggoLoop n [] (trimLastOpcode n (trimFirstOpcode n codes1))

/-- The elements of `a` starting at `i` agree with those of `b` starting at
`j` for `k` positions (all of them in range). -/
def MatchAt (a b : List α) (i j k : Nat) : Prop :=
  ∀ m, m < k → ∃ x, a.get? (i + m) = some x ∧ b.get? (j + m) = some x

/-- Soundness of a matching-block list relative to the positions `pi, pj`
already consumed: blocks appear in order, stay within bounds, and relate
genuinely equal stretches. -/
def BlocksOK (a b : List α) : Nat → Nat → List (Nat × Nat × Nat) → Prop
  | _, _, [] => True
  | pi, pj, (i, j, k) :: t =>
    pi ≤ i ∧ pj ≤ j ∧ i + k ≤ a.length ∧ j + k ≤ b.length ∧ MatchAt a b i j k ∧
      BlocksOK a b (i + k) (j + k) t

/-- A contiguous opcode segment from `(i, j)` to `(ei, ej)`: opcode starts
join up, ranges stay within bounds, `equal` opcodes relate genuinely equal
slices of the same width, `delete` opcodes consume nothing of `b` and
`insert` opcodes nothing of `a`. -/
def OpsSeg (a b : List α) : Nat → Nat → Nat → Nat → List Opcode → Prop
  | i, j, ei, ej, [] => i = ei ∧ j = ej
  | i, j, ei, ej, o :: rest =>
    o.i1 = i ∧ o.j1 = j ∧ i ≤ o.i2 ∧ j ≤ o.j2 ∧ o.i2 ≤ a.length ∧ o.j2 ≤ b.length ∧
      (o.tag = .equal → o.i2 - o.i1 = o.j2 - o.j1 ∧ MatchAt a b o.i1 o.j1 (o.i2 - o.i1)) ∧
      (o.tag = .delete → o.j1 = o.j2) ∧
      (o.tag = .insert → o.i1 = o.i2) ∧
      OpsSeg a b o.i2 o.j2 ei ej rest

/-- Soundness of an opcode-group list relative to the cursor `(ci, cj)`:
each group is a valid opcode segment, the stretches skipped between
groups (and after the last one) are genuinely equal in `a` and `b`, and a
group consuming nothing of `a` starts exactly at the cursor. -/
def GroupsOK (a b : List α) : Nat → Nat → List (List Opcode) → Prop
  | ci, cj, [] =>
    ci ≤ a.length ∧ cj ≤ b.length ∧ a.length - ci = b.length - cj ∧
      MatchAt a b ci cj (a.length - ci)
  | ci, cj, g :: gs => ∃ si sj ei ej,
    ci ≤ si ∧ cj ≤ sj ∧ si - ci = sj - cj ∧ MatchAt a b ci cj (si - ci) ∧
      g ≠ [] ∧ OpsSeg a b si sj ei ej g ∧ (si = ei → ci = si) ∧ GroupsOK a b ei ej gs

/-- One rectangle or block footprint `(alo, ahi, blo, bhi)` lies entirely
before another in both sequences. -/
def RectLe (r s : Nat × Nat × Nat × Nat) : Prop :=
  r.2.1 ≤ s.1 ∧ r.2.2.2 ≤ s.2.2.1

/-- Two footprints are comparable: one lies wholly before the other. -/
def RectComp (r s : Nat × Nat × Nat × Nat) : Prop := RectLe r s ∨ RectLe s r

/-- Containment of footprints. -/
def RectIn (r s : Nat × Nat × Nat × Nat) : Prop :=
  s.1 ≤ r.1 ∧ r.2.1 ≤ s.2.1 ∧ s.2.2.1 ≤ r.2.2.1 ∧ r.2.2.2 ≤ s.2.2.2

/-- The footprint of a matching block `(i, j, k)`. -/
def blockRect (x : Nat × Nat × Nat) : Nat × Nat × Nat × Nat :=
  (x.1, x.1 + x.2.2, x.2.1, x.2.1 + x.2.2)

/-- One match ends (in both sequences) no later than another starts. -/
def EndLe (x y : Nat × Nat × Nat) : Prop :=
  x.1 + x.2.2 ≤ y.1 ∧ x.2.1 + x.2.2 ≤ y.2.1

/-- Ordering skeleton of a block list: every block starts at or after the
running pair of positions, which each block then advances past its end. -/
def MChain : Nat → Nat → List (Nat × Nat × Nat) → Prop
  | _, _, [] => True
  | ci, cj, (i, j, k) :: t => ci ≤ i ∧ cj ≤ j ∧ MChain (i + k) (j + k) t

/-- Validity of a `j2len` table as the previous-row table when processing
row `i`: a nonzero entry at `j` records a genuine diagonal run of that
length ending at `(i - 1, j)`, staying inside `[alo, ·] × [blo, bhi)`. -/
def J2Prev (a b : List α) (alo blo bhi i : Nat) (t : Nat → Nat) : Prop :=
  ∀ j, 1 ≤ t j → blo + t j ≤ j + 1 ∧ alo + t j ≤ i ∧ j < bhi ∧
    MatchAt a b (i - t j) (j + 1 - t j) (t j)

/-- Validity of the best-match triple: when non-trivial it is a genuine
in-bounds match, and when trivial it still sits at `(alo, blo)` as
initialised. -/
def BestInv (a b : List α) (alo blo ahi bhi : Nat) (best : Nat × Nat × Nat) : Prop :=
  (1 ≤ best.2.2 → alo ≤ best.1 ∧ blo ≤ best.2.1 ∧ best.1 + best.2.2 ≤ ahi ∧
    best.2.1 + best.2.2 ≤ bhi ∧ MatchAt a b best.1 best.2.1 best.2.2) ∧
  (best.2.2 = 0 → best.1 = alo ∧ best.2.1 = blo)

/-- In the self comparison `SequenceMatcher(None, a, a)`, row `r` of the
dynamic program has an occurrence hit at column `j`: `j` lies in the
(autojunk-filtered) occurrence list of the row's element. -/
def selfHit (a : List α) (r j : Nat) : Bool :=
  match a.get? r with
  | some x => decide (j ∈ b2j a x)
  | none => false

/-- The exact `j2len` table value at row `r`, column `j`, for the self
comparison: the diagonal-run recurrence the dynamic program computes. -/
def selfRun (a : List α) : Nat → Nat → Nat
  | 0, j => if selfHit a 0 j then 1 else 0
  | r + 1, j =>
    if selfHit a (r + 1) j then (if j = 0 then 0 else selfRun a r (j - 1)) + 1
    else 0

/-- The `j2len` table as it stands on entry to row `i` of the self
comparison: all zeros before the first row, the previous row's runs
afterwards. -/
def selfRow (a : List α) : Nat → Nat → Nat
  | 0, _ => 0
  | r + 1, j => selfRun a r j

end SequenceMatcher

/-- Decimal rendering worker; the first argument bounds the recursion depth
(dividing by ten at each step, `n` steps are always enough for `n`). -/
def natToCharsGo : Nat → Nat → List Char
  | 0, n => [Char.ofNat (48 + n % 10)]
  | steps + 1, n =>
    if n < 10 then [Char.ofNat (48 + n)]
    else natToCharsGo steps (n / 10) ++ [Char.ofNat (48 + n % 10)]

/-- Decimal rendering of a line number, as Python `str` formats an `int`. -/
def natToChars (n : Nat) : List Char :=
  natToCharsGo n n

/-- Embeds `difflib._format_range_unified`: `start+1` alone for a length-1
range, `start,0` for an empty range, `start+1,length` otherwise. -/
def formatRangeUnified (start stop : Nat) : List Char :=
  let beginning := start + 1
  let length := stop - start
  if length = 1 then natToChars beginning
  else natToChars (if length = 0 then beginning - 1 else beginning) ++ ',' :: natToChars length

/-- The per-opcode line rendering of `unified_diff`: context lines prefixed
with a space, removals with `-`, additions with `+` (a `replace` emits its
removals before its additions). -/
def renderOpcode (a b : List (List Char)) (o : Opcode) : List (List Char) :=
  match o.tag with
  | .equal => ((a.drop o.i1).take (o.i2 - o.i1)).map (fun l => ' ' :: l)
  | .delete => ((a.drop o.i1).take (o.i2 - o.i1)).map (fun l => '-' :: l)
  | .insert => ((b.drop o.j1).take (o.j2 - o.j1)).map (fun l => '+' :: l)
  | .replace =>
    ((a.drop o.i1).take (o.i2 - o.i1)).map (fun l => '-' :: l) ++
      ((b.drop o.j1).take (o.j2 - o.j1)).map (fun l => '+' :: l)

/-- One hunk of `unified_diff`: the `@@ -r1 +r2 @@` header derived from the
group's first and last opcodes, followed by the rendered opcode lines. -/
def renderGroup (a b : List (List Char)) (g : List Opcode) : List (List Char) :=
  let first := g.head?.getD ⟨.equal, 0, 0, 0, 0⟩
  let last := g.getLast?.getD ⟨.equal, 0, 0, 0, 0⟩
  (toL "@@ -" ++ formatRangeUnified first.i1 last.i2 ++
      toL " +" ++ formatRangeUnified first.j1 last.j2 ++ toL " @@") ::
    (g.map (renderOpcode a b)).flatten

/-- Embeds `difflib.unified_diff(a, b, fromfile="original",
tofile="modified", lineterm="")` collected into a list: the `---`/`+++`
header pair is produced before the first hunk, so it appears exactly when
there is at least one group. -/
def unifiedDiffLines (a b : List (List Char)) : List (List Char) :=
  let groups := getGroupedOpcodes a b 3
  if groups = [] then []
  else toL "--- original" :: toL "+++ modified" :: (groups.map (renderGroup a b)).flatten

/-- Embeds `generate_diff`: split both texts keeping terminators, run the
unified-diff generator, join its lines with `\n`, and append a final
newline unless both inputs were empty. -/
def generateDiff (original modified : List Char) : List Char :=
  let ol := pySplitlines original
  let ml := pySplitlines modified
  List.intercalate ['\n'] (unifiedDiffLines ol ml) ++
    (if ol ≠ [] ∨ ml ≠ [] then ['\n'] else [])

/-- No line-separator characters occur in `c` (the shape of line contents
produced by the splitter). -/
def sepFree (c : List Char) : Prop := ∀ ch ∈ c, isLineSep ch = false

/-- Decidable check that every line of `s` is terminated by exactly `\n`:
the line ends with `\n` and its terminator is not the two-character
`\r\n`. -/
def lfTerminatedB (s : List Char) : Bool :=
  (pySplitlines s).all fun l =>
    l.getLast? = some '\n' && !(l.dropLast.getLast? = some '\r')

/-- The `"\n".join(lines) + "\n"` layout of a rendered nonempty diff,
viewed as a concatenation of newline-terminated chunks. -/
def chunksOf (es : List (List Char)) : List Char :=
  (es.map (fun e => e ++ ['\n'])).flatten

/-- Shape of one keepends line: separator-free content followed by one of
the possible terminators (none for a final unterminated line, a single
separator other than `\r`, a lone `\r`, or the two-character `\r\n`). -/
def LineShape (l : List Char) : Prop :=
  ∃ q, sepFree q ∧ (l = q ∨
    (∃ t, isLineSep t = true ∧ t ≠ '\r' ∧ l = q ++ [t]) ∨
    l = q ++ ['\r'] ∨ l = q ++ ['\r', '\n'])

/-- The stripped diff lines that one rendered line contributes once the
`\n`-joined diff text is split again by `apply_diff`. -/
def lineChunks (p : List Char) : List (List Char) :=
  pySplitlinesStrip (p ++ ['\n'])

/-! Basic lemmas about the line splitter. -/

theorem pySplitlinesAux_flatten (s acc : List Char) :
    (pySplitlinesAux s acc).flatten = acc.reverse ++ s := by
  induction s, acc using pySplitlinesAux.induct with
  | case1 => simp [pySplitlinesAux]
  | case2 acc hacc => simp [pySplitlinesAux, hacc]
  | case3 c acc d rest2 hcd ih =>
    obtain ⟨rfl, rfl⟩ := hcd
    simp [pySplitlinesAux, ih]
  | case4 c acc d rest2 hcd hsep ih =>
    simp [pySplitlinesAux, hcd, hsep, ih]
  | case5 c acc d rest2 hcd hsep ih =>
    simp [pySplitlinesAux, hcd, hsep, ih]
  | case6 c acc hsep ih =>
    simp [pySplitlinesAux, hsep, ih]
  | case7 c acc hsep ih =>
    simp [pySplitlinesAux, hsep, ih]

/-- Joining the keepends lines reconstructs the text. -/
theorem pySplitlines_flatten (s : List Char) : (pySplitlines s).flatten = s := by
  simpa using pySplitlinesAux_flatten s []

/-- The keepends splitter is injective (two texts with the same lines are
equal). -/
theorem pySplitlines_injective {s t : List Char}
    (h : pySplitlines s = pySplitlines t) : s = t := by
  have := pySplitlines_flatten s
  rw [h, pySplitlines_flatten] at this
  exact this.symm

/-! Claim C9: a diff with no lines besides `---`/`+++` headers applies as
the identity. -/

/-- C9: for every original string, applying an empty diff, or a diff whose
lines all start with `---` or `+++`, returns the original unchanged. -/
theorem applyDiff_headers_only (original diff : List Char)
    (h : ∀ l ∈ pySplitlinesStrip diff, isFileHeaderLine l) :
    applyDiff original diff = .ok original := by
  have hdrop : (pySplitlinesStrip diff).dropWhile isFileHeaderLine = [] := by
    rw [List.dropWhile_eq_nil_iff]
    exact h
  unfold applyDiff
  rw [hdrop]
  simp [pySplitlines_flatten]

theorem applyDiff_headers_only_witness :
    (∀ l ∈ pySplitlinesStrip (toL "--- a\n+++ b\n"), isFileHeaderLine l) ∧
      applyDiff (toL "x\ny") (toL "--- a\n+++ b\n") = .ok (toL "x\ny") :=
  ⟨by decide, applyDiff_headers_only (toL "x\ny") (toL "--- a\n+++ b\n") (by decide)⟩

/-! Claim C7: an empty line inside a hunk body is skipped outright. -/

/-- C7: inside a hunk body, an empty diff line produces no output, does not
move the cursor over the original lines, and raises no error: the loop state
is carried to the remaining lines untouched. -/
theorem applyBody_blank_skipped (origLines rest : List (List Char)) (origIndex : Nat)
    (patched : List (List Char)) :
    applyBody origLines ([] :: rest) origIndex patched =
      applyBody origLines rest origIndex patched := by
  simp [applyBody, startsHunkMarker]

/-! Claim C10: a removal line is an unchecked cursor increment, harmless
even past the end of the original. -/

/-- C10: a removal line in a hunk body never fails, even with the cursor at
or past the end of the original lines: it only increments the cursor, and
the final copy of the original's remainder yields nothing once the cursor
is beyond the end, leaving the accumulated output as the result. -/
theorem applyBody_removal_unchecked (origLines line rest origIndex patched) (hline : line.head? = some '-')
    (hpast : origLines.length ≤ origIndex) :
    applyBody origLines (line :: rest) origIndex patched =
        applyBody origLines rest (origIndex + 1) patched ∧
      applyBody origLines ([] : List (List Char)) origIndex patched = .ok patched := by
  obtain ⟨t, rfl⟩ : ∃ t, line = '-' :: t := by
    cases line with
    | nil => simp at hline
    | cons c t => exact ⟨t, by simpa using congrArg (fun o => o.elim ('-' :: t) (fun c => c :: t)) hline⟩
  constructor
  · simp [applyBody, startsHunkMarker]
  · simp [applyBody, List.drop_eq_nil_of_le hpast]

theorem applyBody_removal_unchecked_witness :
    ((toL "-gone").head? = some '-' ∧ (pySplitlines (toL "x\n")).length ≤ 5) ∧
      (applyBody (pySplitlines (toL "x\n")) [toL "-gone"] 5 [toL "y\n"] =
          applyBody (pySplitlines (toL "x\n")) [] 6 [toL "y\n"] ∧
        applyBody (pySplitlines (toL "x\n")) [] 5 [toL "y\n"] = .ok [toL "y\n"]) :=
  ⟨by decide,
    applyBody_removal_unchecked (pySplitlines (toL "x\n")) (toL "-gone") [] 5 [toL "y\n"]
      (by decide) (by decide)⟩

/-! Claim C2: a hunk start past the end of the original.  The spec promises
`PatchError("context out of range")`, and `apply_diff`'s docstring promises
`ValueError`, but `_copy_until` indexes `src[current_index]` unguarded, so
the interpreter raises an `IndexError` instead. -/

/-- C2: on an original with no lines and a hunk header `@@ -2 +2 @@`
(`origStart = 2 > len+1 = 1`), the copy loop reads past the end of the
original and fails with the uncaught `IndexError`, not with the documented
`ValueError("Diff context out of range")`. -/
theorem applyDiff_copy_overrun_index_error :
    applyDiff [] (toL "@@ -2 +2 @@") = .error .indexError ∧
      Except.error PatchErr.indexError ≠
        (Except.error PatchErr.contextOutOfRange : Except PatchErr (List Char)) := by
  constructor
  · decide
  · decide

/-! Claim C3: the hunk-header grammar.  The regex `\d+` accepts `0`, so a
header with `origStart = 0` (or `modStart = 0`) is not malformed: the claim's
"positive (nonzero)" requirement fails on the code. -/

/-- C3 (counterexample): the header `@@ -0 +0 @@` has `origStart = 0`, yet
`apply_diff` accepts the diff and returns the original unchanged instead of
raising `MalformedHunkHeader`. -/
theorem applyDiff_zero_start_accepted :
    applyDiff (toL "x\n") (toL "@@ -0 +0 @@") = .ok (toL "x\n") ∧
      matchUnifiedHunk (toL "@@ -0 +0 @@") ≠ none := by
  constructor
  · decide
  · decide

/-- C3 (amended): a line starting with `@@` where a hunk header is expected
is accepted only if it matches the grammar
`@@ -<origStart>[,<origCount>] +<modStart>[,<modCount>] @@` with `origStart`
and `modStart` nonnegative integers (zero included, per the regex `\d+`);
any `@@` line failing that grammar makes the applier fail with
`MalformedHunkHeader`. -/
theorem applyBody_malformed_header (origLines : List (List Char)) (line : List Char)
    (rest : List (List Char)) (origIndex : Nat) (patched : List (List Char))
    (hat : startsHunkMarker line = true) (hbad : matchUnifiedHunk line = none) :
    applyBody origLines (line :: rest) origIndex patched = .error .malformedHunkHeader ∧
      matchUnifiedHunk (toL "@@ -0 +0 @@") = some (0, none, 0, none) := by
  refine ⟨?_, by decide⟩
  simp [applyBody, hat, hbad]

theorem applyBody_malformed_header_witness :
    (startsHunkMarker (toL "@@ bogus @@") = true ∧
        matchUnifiedHunk (toL "@@ bogus @@") = none) ∧
      applyBody [] [toL "@@ bogus @@"] 0 [] = .error .malformedHunkHeader ∧
        matchUnifiedHunk (toL "@@ -0 +0 @@") = some (0, none, 0, none) :=
  ⟨⟨by decide, by decide⟩,
    applyBody_malformed_header [] (toL "@@ bogus @@") [] 0 [] (by decide) (by decide)⟩

/-! Claim C6: anything other than a hunk marker right after the skipped
file headers is `UnexpectedContent`. -/

/-- C6: for every original text, if after dropping the leading `---`/`+++`
lines the first remaining diff line does not start with `@@`, `apply_diff`
fails with `UnexpectedContent`. -/
theorem applyDiff_unexpected_content (original diff : List Char) (l : List Char)
    (rest : List (List Char))
    (hsplit : (pySplitlinesStrip diff).dropWhile isFileHeaderLine = l :: rest)
    (hnot : startsHunkMarker l = false) :
    applyDiff original diff = .error .unexpectedContent := by
  unfold applyDiff
  rw [hsplit]
  simp [hnot]

theorem applyDiff_unexpected_content_witness :
    ((pySplitlinesStrip (toL "--- a\n+++ b\nhello")).dropWhile isFileHeaderLine =
        [toL "hello"] ∧
      startsHunkMarker (toL "hello") = false) ∧
      applyDiff (toL "x\n") (toL "--- a\n+++ b\nhello") = .error .unexpectedContent :=
  ⟨⟨by decide, by decide⟩,
    applyDiff_unexpected_content (toL "x\n") (toL "--- a\n+++ b\nhello") (toL "hello") []
      (by decide) (by decide)⟩

/-! Claim C5: line-ending detection and CRLF restoration.  The claim's
"in particular" instance: a CRLF-dominant original and an LF-only updated
text reconcile to a uniformly CRLF text. -/

@[simp] theorem crlfUniform_lf_cons (rest : List Char) : crlfUniform ('\n' :: rest) = false := by
  rw [crlfUniform.eq_def]; simp

@[simp] theorem crlfUniform_crlf_cons (rest : List Char) :
    crlfUniform ('\r' :: '\n' :: rest) = crlfUniform rest := by
  rw [crlfUniform.eq_def]; simp

theorem crlfUniform_cons_ne (c : Char) (rest : List Char) (hn : c ≠ '\n') (hr : c ≠ '\r') :
    crlfUniform (c :: rest) = crlfUniform rest := by
  rw [crlfUniform.eq_def]; simp [hn, hr]

theorem crlfUniform_cr_cons_ne (d : Char) (rest2 : List Char) (hd : d ≠ '\n') :
    crlfUniform ('\r' :: d :: rest2) = false := by
  rw [crlfUniform.eq_def]; simp [hd]

theorem replaceCRLFwithLF_no_cr {s : List Char} (h : '\r' ∉ s) :
    replaceCRLFwithLF s = s := by
  induction s using replaceCRLFwithLF.induct with
  | case1 => rfl
  | case2 c d rest2 hcd ih => exact absurd (show ('\r' : Char) ∈ c :: d :: rest2 by simp [hcd.1]) h
  | case3 c d rest2 hcd ih =>
    rw [replaceCRLFwithLF.eq_def]
    simp only [if_neg hcd]
    rw [ih (fun hm => h (List.mem_cons_of_mem c hm))]
  | case4 c => rfl

theorem crlfUniform_replaceLFwithCRLF {s : List Char} (h : '\r' ∉ s) :
    crlfUniform (replaceLFwithCRLF s) = true := by
  induction s with
  | nil => rfl
  | cons c rest ih =>
    have hcr : c ≠ '\r' := fun hc => h (hc ▸ List.mem_cons_self _ _)
    have hrest : '\r' ∉ rest := fun hm => h (List.mem_cons_of_mem c hm)
    by_cases hn : c = '\n'
    · subst hn
      rw [replaceLFwithCRLF.eq_def]
      simp only [if_pos rfl, crlfUniform_crlf_cons]
      exact ih hrest
    · rw [replaceLFwithCRLF.eq_def]
      simp only [if_neg hn]
      rw [crlfUniform_cons_ne c _ hn hcr]
      exact ih hrest

theorem crlfUniform_append {s t : List Char} (hs : crlfUniform s = true)
    (ht : crlfUniform t = true) : crlfUniform (s ++ t) = true := by
  induction s using crlfUniform.induct with
  | case1 => simpa using ht
  | case2 rest => simp at hs
  | case3 rest2 hne ih =>
    rw [crlfUniform_crlf_cons] at hs
    rw [List.cons_append, List.cons_append, crlfUniform_crlf_cons]
    exact ih hs
  | case4 d rest2 hd hne =>
    rw [crlfUniform_cr_cons_ne d rest2 hd] at hs
    simp at hs
  | case5 hne =>
    have : crlfUniform ['\r'] = false := by decide
    rw [this] at hs
    simp at hs
  | case6 c rest hn hr ih =>
    rw [crlfUniform_cons_ne c rest hn hr] at hs
    rw [List.cons_append, crlfUniform_cons_ne c _ hn hr]
    exact ih hs

theorem crlfUniform_of_append_crlf {w : List Char}
    (h : crlfUniform (w ++ ['\r', '\n']) = true) : crlfUniform w = true := by
  induction w using crlfUniform.induct with
  | case1 => rfl
  | case2 rest => simp at h
  | case3 rest2 hne ih =>
    rw [List.cons_append, List.cons_append, crlfUniform_crlf_cons] at h
    rw [crlfUniform_crlf_cons]
    exact ih h
  | case4 d rest2 hd hne =>
    rw [List.cons_append, List.cons_append, crlfUniform_cr_cons_ne d _ hd] at h
    simp at h
  | case5 hne =>
    rw [show (['\r'] ++ ['\r', '\n'] : List Char) = '\r' :: '\r' :: ['\n'] from rfl,
      crlfUniform_cr_cons_ne _ _ (by decide)] at h
    simp at h
  | case6 c rest hn hr ih =>
    rw [List.cons_append, crlfUniform_cons_ne c _ hn hr] at h
    rw [crlfUniform_cons_ne c rest hn hr]
    exact ih h

theorem pyEndsWith_iff (s t : List Char) : pyEndsWith s t = true ↔ ∃ w, s = w ++ t := by
  simp only [pyEndsWith, decide_eq_true_eq]
  constructor
  · intro h
    refine ⟨(s.reverse.drop t.length).reverse, ?_⟩
    have h1 := List.take_append_drop t.length s.reverse
    rw [h] at h1
    have h2 := congrArg List.reverse h1
    simpa using h2.symm
  · rintro ⟨w, rfl⟩
    rw [List.reverse_append]
    exact List.take_left' (by simp)

theorem preserveFormatting_crlf_uniform (original updated : List Char)
    (h0 : original ≠ [])
    (hdom : (countLF original : Int) - countCRLF original < countCRLF original)
    (hnoCR : '\r' ∉ updated) :
    detectLineEnding original = ['\r', '\n'] ∧
      crlfUniform (preserveFormatting original updated) = true := by
  have hdet : detectLineEnding original = ['\r', '\n'] := by
    unfold detectLineEnding
    rw [if_pos hdom]
  refine ⟨hdet, ?_⟩
  have hnorm := replaceCRLFwithLF_no_cr hnoCR
  have huni : crlfUniform (replaceLFwithCRLF updated) = true :=
    crlfUniform_replaceLFwithCRLF hnoCR
  by_cases htrail : pyEndsWith original ['\r', '\n'] = true
  · by_cases hupd : pyEndsWith (replaceLFwithCRLF updated) ['\r', '\n'] = true
    · simp [preserveFormatting, h0, hdet, hnorm, htrail, hupd, huni]
    · rw [Bool.not_eq_true] at hupd
      simp [preserveFormatting, h0, hdet, hnorm, htrail, hupd]
      exact crlfUniform_append huni (by decide)
  · rw [Bool.not_eq_true] at htrail
    by_cases hupd : pyEndsWith (replaceLFwithCRLF updated) ['\r', '\n'] = true
    · obtain ⟨w, hw⟩ := (pyEndsWith_iff _ _).mp hupd
      simp [preserveFormatting, h0, hdet, hnorm, htrail, hupd, hw]
      have hself : pyEndsWith (w ++ ['\r', '\n']) ['\r', '\n'] = true :=
        (pyEndsWith_iff _ _).mpr ⟨w, rfl⟩
      rw [if_pos hself]
      exact crlfUniform_of_append_crlf (hw ▸ huni)
    · rw [Bool.not_eq_true] at hupd
      simp [preserveFormatting, h0, hdet, hnorm, htrail, hupd, huni]

theorem preserveFormatting_crlf_uniform_witness :
    (toL "x\r\ny\r\n" ≠ [] ∧
        (countLF (toL "x\r\ny\r\n") : Int) - countCRLF (toL "x\r\ny\r\n") <
          countCRLF (toL "x\r\ny\r\n") ∧
        '\r' ∉ toL "p\nq\n") ∧
      detectLineEnding (toL "x\r\ny\r\n") = ['\r', '\n'] ∧
        crlfUniform (preserveFormatting (toL "x\r\ny\r\n") (toL "p\nq\n")) = true :=
  ⟨⟨by decide, by decide, by decide⟩,
    preserveFormatting_crlf_uniform (toL "x\r\ny\r\n") (toL "p\nq\n")
      (by decide) (by decide) (by decide)⟩

/-! Claim C8: idempotence of the formatting pass. -/

@[simp] theorem noLoneCR_crlf_cons (rest : List Char) :
    noLoneCR ('\r' :: '\n' :: rest) = noLoneCR rest := by
  rw [noLoneCR.eq_def]; simp

theorem noLoneCR_cons_ne (c : Char) (rest : List Char) (hr : c ≠ '\r') :
    noLoneCR (c :: rest) = noLoneCR rest := by
  rw [noLoneCR.eq_def]; simp [hr]

@[simp] theorem replaceCRLFwithLF_nil : replaceCRLFwithLF [] = [] := rfl

@[simp] theorem replaceCRLFwithLF_crlf_cons (rest : List Char) :
    replaceCRLFwithLF ('\r' :: '\n' :: rest) = '\n' :: replaceCRLFwithLF rest := by
  rw [replaceCRLFwithLF.eq_def]; simp

theorem replaceCRLFwithLF_cons_ne (c : Char) (x : List Char) (hr : c ≠ '\r') :
    replaceCRLFwithLF (c :: x) = c :: replaceCRLFwithLF x := by
  cases x with
  | nil => rfl
  | cons d x2 =>
    rw [replaceCRLFwithLF.eq_def]
    simp
    intro hc _
    exact absurd hc hr

@[simp] theorem replaceLFwithCRLF_lf_cons (rest : List Char) :
    replaceLFwithCRLF ('\n' :: rest) = '\r' :: '\n' :: replaceLFwithCRLF rest := by
  rw [replaceLFwithCRLF.eq_def]; simp

theorem replaceLFwithCRLF_cons_ne (c : Char) (rest : List Char) (hn : c ≠ '\n') :
    replaceLFwithCRLF (c :: rest) = c :: replaceLFwithCRLF rest := by
  rw [replaceLFwithCRLF.eq_def]; simp [hn]

theorem no_cr_replaceCRLFwithLF {s : List Char} (h : noLoneCR s = true) :
    '\r' ∉ replaceCRLFwithLF s := by
  induction s using replaceCRLFwithLF.induct with
  | case1 => simp [replaceCRLFwithLF]
  | case2 c d rest2 hcd ih =>
    obtain ⟨rfl, rfl⟩ := hcd
    rw [noLoneCR_crlf_cons] at h
    rw [replaceCRLFwithLF_crlf_cons]
    intro hm
    rcases List.mem_cons.mp hm with h1 | h1
    · exact absurd h1 (by decide)
    · exact ih h h1
  | case3 c d rest2 hcd ih =>
    have hcr : c ≠ '\r' := by
      intro hc
      subst hc
      have hd : d ≠ '\n' := fun hd => hcd ⟨rfl, hd⟩
      rw [noLoneCR.eq_def] at h
      simp [hd] at h
    rw [noLoneCR_cons_ne c _ hcr] at h
    rw [replaceCRLFwithLF_cons_ne c _ hcr]
    intro hm
    rcases List.mem_cons.mp hm with h1 | h1
    · exact hcr h1.symm
    · exact ih h h1
  | case4 c =>
    have hcr : c ≠ '\r' := by
      intro hc
      subst hc
      rw [noLoneCR.eq_def] at h
      simp at h
    simp only [replaceCRLFwithLF, List.mem_singleton]
    exact fun hc => hcr hc.symm

theorem replaceCRLFwithLF_append_no_cr {s : List Char} (t : List Char) (h : '\r' ∉ s) :
    replaceCRLFwithLF (s ++ t) = s ++ replaceCRLFwithLF t := by
  induction s with
  | nil => rfl
  | cons c u ih =>
    have hcr : c ≠ '\r' := fun hc => h (hc ▸ List.mem_cons_self _ _)
    rw [List.cons_append, replaceCRLFwithLF_cons_ne c _ hcr,
      ih (fun hm => h (List.mem_cons_of_mem c hm)), List.cons_append]

theorem replaceLFwithCRLF_append (s t : List Char) :
    replaceLFwithCRLF (s ++ t) = replaceLFwithCRLF s ++ replaceLFwithCRLF t := by
  induction s with
  | nil => rfl
  | cons c u ih =>
    by_cases hn : c = '\n'
    · subst hn
      rw [List.cons_append, replaceLFwithCRLF_lf_cons, replaceLFwithCRLF_lf_cons, ih]
      rfl
    · rw [List.cons_append, replaceLFwithCRLF_cons_ne c _ hn, replaceLFwithCRLF_cons_ne c _ hn,
        ih, List.cons_append]

theorem replaceCRLFwithLF_replaceLFwithCRLF {w : List Char} (t : List Char) (h : '\r' ∉ w) :
    replaceCRLFwithLF (replaceLFwithCRLF w ++ t) = w ++ replaceCRLFwithLF t := by
  induction w with
  | nil => rfl
  | cons c u ih =>
    have hcr : c ≠ '\r' := fun hc => h (hc ▸ List.mem_cons_self _ _)
    have hu : '\r' ∉ u := fun hm => h (List.mem_cons_of_mem c hm)
    by_cases hn : c = '\n'
    · subst hn
      rw [replaceLFwithCRLF_lf_cons, List.cons_append, List.cons_append,
        replaceCRLFwithLF_crlf_cons, ih hu]
      rfl
    · rw [replaceLFwithCRLF_cons_ne c _ hn, List.cons_append,
        replaceCRLFwithLF_cons_ne c _ hcr, ih hu, List.cons_append]

theorem pyEndsWith_append_self (x e : List Char) : pyEndsWith (x ++ e) e = true :=
  (pyEndsWith_iff _ _).mpr ⟨x, rfl⟩

theorem detectLineEnding_cases (X : List Char) :
    detectLineEnding X = ['\r', '\n'] ∨ detectLineEnding X = ['\n'] := by
  by_cases h : (countLF X : Int) - countCRLF X < countCRLF X
  · left; unfold detectLineEnding; rw [if_pos h]
  · right; unfold detectLineEnding; rw [if_neg h]


/-- C8 (amended): the formatting pass is idempotent in its second argument
provided Y has no carriage return outside a CRLF pair and X (when nonempty)
ends with its detected line ending.  Without those provisos it fails: a
trailing-newline strip can strip again on the second pass, and a lone `\r`
adjacent to a CRLF can collapse further. -/
theorem preserveFormatting_idem (X Y : List Char)
    (hY : noLoneCR Y = true)
    (hX : X = [] ∨ pyEndsWith X (detectLineEnding X) = true) :
    preserveFormatting X (preserveFormatting X Y) = preserveFormatting X Y := by
  rcases eq_or_ne X [] with rfl | hne
  · simp [preserveFormatting]
  have hXe := hX.resolve_left hne
  have hw : '\r' ∉ replaceCRLFwithLF Y := no_cr_replaceCRLFwithLF hY
  rcases detectLineEnding_cases X with hdet | hdet
  · rw [hdet] at hXe
    set w := replaceCRLFwithLF Y with hwdef
    by_cases hupd : pyEndsWith (replaceLFwithCRLF w) ['\r', '\n'] = true
    · have hz : preserveFormatting X Y = replaceLFwithCRLF w := by
        simp [preserveFormatting, hne, hdet, hXe, hupd, ← hwdef]
      rw [hz]
      have hNZ : replaceCRLFwithLF (replaceLFwithCRLF w) = w := by
        have h2 := replaceCRLFwithLF_replaceLFwithCRLF (w := w) [] hw
        simpa using h2
      simp [preserveFormatting, hne, hdet, hNZ, hXe, hupd]
    · have hz : preserveFormatting X Y = replaceLFwithCRLF w ++ ['\r', '\n'] := by
        simp [preserveFormatting, hne, hdet, hXe, hupd, ← hwdef]
      rw [hz]
      have hNZ : replaceCRLFwithLF (replaceLFwithCRLF w ++ ['\r', '\n']) = w ++ ['\n'] := by
        have h2 := replaceCRLFwithLF_replaceLFwithCRLF (w := w) ['\r', '\n'] hw
        simpa using h2
      have hRZ : replaceLFwithCRLF (w ++ ['\n']) = replaceLFwithCRLF w ++ ['\r', '\n'] := by
        rw [replaceLFwithCRLF_append]
        rfl
      have hupd2 : pyEndsWith (replaceLFwithCRLF w ++ ['\r', '\n']) ['\r', '\n'] = true :=
        pyEndsWith_append_self _ _
      simp [preserveFormatting, hne, hdet, hNZ, hRZ, hXe, hupd2]
  · rw [hdet] at hXe
    set w := replaceCRLFwithLF Y with hwdef
    by_cases hupd : pyEndsWith w ['\n'] = true
    · have hz : preserveFormatting X Y = w := by
        simp [preserveFormatting, hne, hdet, hXe, hupd, ← hwdef]
      rw [hz]
      have hNZ : replaceCRLFwithLF w = w := replaceCRLFwithLF_no_cr hw
      simp [preserveFormatting, hne, hdet, hNZ, hXe, hupd]
    · have hz : preserveFormatting X Y = w ++ ['\n'] := by
        simp [preserveFormatting, hne, hdet, hXe, hupd, ← hwdef]
      rw [hz]
      have hNZ : replaceCRLFwithLF (w ++ ['\n']) = w ++ ['\n'] := by
        apply replaceCRLFwithLF_no_cr
        intro hm
        rcases List.mem_append.mp hm with h1 | h1
        · exact hw h1
        · simp at h1
      have hupd2 : pyEndsWith (w ++ ['\n']) ['\n'] = true := pyEndsWith_append_self _ _
      simp [preserveFormatting, hne, hdet, hNZ, hXe, hupd2]


/-- C8 (counterexample): with X = "a" (no trailing terminator) and
Y = "b\n\n", the first reconciliation strips one trailing newline and the
second pass strips another, so reconcile(X, reconcile(X, Y)) = "b" while
reconcile(X, Y) = "b\n": idempotence fails as stated. -/
theorem preserveFormatting_not_idem :
    preserveFormatting (toL "a") (preserveFormatting (toL "a") (toL "b\n\n")) ≠
      preserveFormatting (toL "a") (toL "b\n\n") := by
  decide

theorem preserveFormatting_idem_witness :
    (noLoneCR (toL "p\r\nq") = true ∧
        (toL "x\n" = [] ∨ pyEndsWith (toL "x\n") (detectLineEnding (toL "x\n")) = true)) ∧
      preserveFormatting (toL "x\n") (preserveFormatting (toL "x\n") (toL "p\r\nq")) =
        preserveFormatting (toL "x\n") (toL "p\r\nq") :=
  ⟨⟨by decide, Or.inr (by decide)⟩,
    preserveFormatting_idem (toL "x\n") (toL "p\r\nq") (by decide) (Or.inr (by decide))⟩

/-! Soundness of `find_longest_match`. -/

section FlmSoundProofs

variable {α : Type}

theorem b2j_mem [DecidableEq α] {b : List α} {x : α} {j : Nat} (h : j ∈ b2j b x) :
    b.get? j = some x := by
  simp only [b2j] at h
  split at h
  · simp at h
  · simpa using (List.mem_filter.mp h).2

theorem flmJs_mem {blo bhi j : Nat} :
    ∀ {l : List Nat}, j ∈ flmJs blo bhi l → j ∈ l ∧ blo ≤ j ∧ j < bhi := by
  intro l
  induction l with
  | nil => simp [flmJs]
  | cons x t ih =>
    intro h
    rw [show flmJs blo bhi (x :: t) =
        (if x < blo then flmJs blo bhi t else if bhi ≤ x then [] else x :: flmJs blo bhi t)
      from rfl] at h
    by_cases h1 : x < blo
    · rw [if_pos h1] at h
      have h2 := ih h
      exact ⟨List.mem_cons_of_mem x h2.1, h2.2⟩
    · rw [if_neg h1] at h
      by_cases h2 : bhi ≤ x
      · rw [if_pos h2] at h
        simp at h
      · rw [if_neg h2] at h
        rcases List.mem_cons.mp h with rfl | hm
        · exact ⟨List.mem_cons_self _ _, by omega, by omega⟩
        · have h3 := ih hm
          exact ⟨List.mem_cons_of_mem x h3.1, h3.2⟩

theorem flmInner_cons (prev : Nat → Nat) (i j : Nat) (js : List Nat) (newt : Nat → Nat)
    (best : Nat × Nat × Nat) :
    flmInner prev i (j :: js) newt best =
      flmInner prev i js
        (fun y => if y = j then (if j = 0 then 0 else prev (j - 1)) + 1 else newt y)
        (if best.2.2 < (if j = 0 then 0 else prev (j - 1)) + 1 then
          (i + 1 - ((if j = 0 then 0 else prev (j - 1)) + 1),
            j + 1 - ((if j = 0 then 0 else prev (j - 1)) + 1),
            (if j = 0 then 0 else prev (j - 1)) + 1)
        else best) := rfl

theorem flmInner_ok (a b : List α) (alo blo ahi bhi i : Nat)
    (halo : alo ≤ i) (hahi : i < ahi) :
    ∀ (js : List Nat) (prev newt : Nat → Nat) (best : Nat × Nat × Nat),
    (∀ j ∈ js, blo ≤ j ∧ j < bhi ∧ ∃ x, a.get? i = some x ∧ b.get? j = some x) →
    J2Prev a b alo blo bhi i prev →
    J2Prev a b alo blo bhi (i + 1) newt →
    BestInv a b alo blo ahi bhi best →
    J2Prev a b alo blo bhi (i + 1) (flmInner prev i js newt best).1 ∧
      BestInv a b alo blo ahi bhi (flmInner prev i js newt best).2 := by
  intro js
  induction js with
  | nil =>
    intro prev newt best _ _ hn hb
    exact ⟨hn, hb⟩
  | cons j js ih =>
    intro prev newt best hjs hp hn hb
    obtain ⟨hblo, hbhi, x, hax, hbx⟩ := hjs j (List.mem_cons_self _ _)
    rw [flmInner_cons]
    set d0 : Nat := if j = 0 then 0 else prev (j - 1) with hd0
    have hkprops : blo + (d0 + 1) ≤ j + 1 ∧ alo + (d0 + 1) ≤ i + 1 ∧
        MatchAt a b (i + 1 - (d0 + 1)) (j + 1 - (d0 + 1)) (d0 + 1) := by
      rcases Nat.eq_zero_or_pos d0 with hz | hpos
      · rw [hz]
        refine ⟨by omega, by omega, ?_⟩
        intro m hm
        have hm0 : m = 0 := by omega
        subst hm0
        refine ⟨x, ?_, ?_⟩
        · have he : i + 1 - (0 + 1) = i := by omega
          rw [he, Nat.add_zero]; exact hax
        · have he : j + 1 - (0 + 1) = j := by omega
          rw [he, Nat.add_zero]; exact hbx
      · have hj0 : ¬ j = 0 := by
          intro hj
          rw [hd0, if_pos hj] at hpos
          omega
        have hd0val : d0 = prev (j - 1) := by rw [hd0, if_neg hj0]
        obtain ⟨hpblo, hpalo, hpbhi, hpmatch⟩ := hp (j - 1) (by omega)
        rw [← hd0val] at hpblo hpalo hpmatch
        have hd0i : d0 ≤ i := by omega
        have hd0j : d0 ≤ j := by omega
        refine ⟨by omega, by omega, ?_⟩
        intro m hm
        have hsub1 : i + 1 - (d0 + 1) = i - d0 := by omega
        have hsub2 : j + 1 - (d0 + 1) = j - d0 := by omega
        rw [hsub1, hsub2]
        rcases Nat.lt_or_ge m d0 with hmlt | hmge
        · have h1 := hpmatch m hmlt
          have he : j - 1 + 1 - d0 = j - d0 := by omega
          rw [he] at h1
          exact h1
        · have hmd : m = d0 := by omega
          subst hmd
          refine ⟨x, ?_, ?_⟩
          · have he : i - d0 + d0 = i := by omega
            rw [he]; exact hax
          · have he : j - d0 + d0 = j := by omega
            rw [he]; exact hbx
    have hnew1 : J2Prev a b alo blo bhi (i + 1) (fun y => if y = j then d0 + 1 else newt y) := by
      intro y hy
      by_cases hyj : y = j
      · subst hyj
        simp only [if_pos rfl] at hy ⊢
        exact ⟨hkprops.1, hkprops.2.1, hbhi, hkprops.2.2⟩
      · simp only [if_neg hyj] at hy ⊢
        exact hn y hy
    have hbest1 : BestInv a b alo blo ahi bhi
        (if best.2.2 < d0 + 1 then (i + 1 - (d0 + 1), j + 1 - (d0 + 1), d0 + 1) else best) := by
      by_cases hlt : best.2.2 < d0 + 1
      · rw [if_pos hlt]
        dsimp only [BestInv]
        constructor
        · intro _
          refine ⟨by omega, by omega, ?_, ?_, hkprops.2.2⟩
          · have he : i + 1 - (d0 + 1) + (d0 + 1) = i + 1 := by omega
            rw [he]; omega
          · have he : j + 1 - (d0 + 1) + (d0 + 1) = j + 1 := by omega
            rw [he]; omega
        · intro h0
          simp at h0
      · rw [if_neg hlt]
        exact hb
    exact ih prev (fun y => if y = j then d0 + 1 else newt y)
      (if best.2.2 < d0 + 1 then (i + 1 - (d0 + 1), j + 1 - (d0 + 1), d0 + 1) else best)
      (fun y hy => hjs y (List.mem_cons_of_mem j hy)) hp hnew1 hbest1


theorem flmRows_ok (a b : List α) (b2jf : α → List Nat) (alo blo ahi bhi : Nat)
    (hb2j : ∀ x j, j ∈ b2jf x → b.get? j = some x) :
    ∀ (cnt i0 : Nat) (t : Nat → Nat) (best : Nat × Nat × Nat),
    alo ≤ i0 → i0 + cnt ≤ ahi →
    J2Prev a b alo blo bhi i0 t →
    BestInv a b alo blo ahi bhi best →
    BestInv a b alo blo ahi bhi (flmRows a b2jf blo bhi (List.range' i0 cnt) t best) := by
  intro cnt
  induction cnt with
  | zero =>
    intro i0 t best _ _ _ hb
    simpa [flmRows] using hb
  | succ n ih =>
    intro i0 t best h1 h2 ht hb
    have hrange : List.range' i0 (n + 1) = i0 :: List.range' (i0 + 1) n := by
      rw [List.range'_succ]
    rw [hrange]
    have hjs : ∀ j ∈ (match a.get? i0 with
        | some x => flmJs blo bhi (b2jf x)
        | none => []),
        blo ≤ j ∧ j < bhi ∧ ∃ x, a.get? i0 = some x ∧ b.get? j = some x := by
      intro j hj
      cases hax : a.get? i0 with
      | none => rw [hax] at hj; simp at hj
      | some x =>
        rw [hax] at hj
        have hm := flmJs_mem hj
        exact ⟨hm.2.1, hm.2.2, x, rfl, hb2j x j hm.1⟩
    have hstep := flmInner_ok a b alo blo ahi bhi i0 h1 (by omega)
      (match a.get? i0 with
        | some x => flmJs blo bhi (b2jf x)
        | none => [])
      t (fun _ => 0) best hjs ht (by intro j hj; simp at hj) hb
    rw [show flmRows a b2jf blo bhi (i0 :: List.range' (i0 + 1) n) t best =
        flmRows a b2jf blo bhi (List.range' (i0 + 1) n)
          (flmInner t i0 (match a.get? i0 with
            | some x => flmJs blo bhi (b2jf x)
            | none => []) (fun _ => 0) best).1
          (flmInner t i0 (match a.get? i0 with
            | some x => flmJs blo bhi (b2jf x)
            | none => []) (fun _ => 0) best).2
      from rfl]
    exact ih (i0 + 1) _ _ (by omega) (by omega) hstep.1 hstep.2

theorem extendLeftGo_ok [DecidableEq α] (a b : List α) (alo blo ahi bhi : Nat) :
    ∀ (steps besti bestj bestsize : Nat),
    BestInv a b alo blo ahi bhi (besti, bestj, bestsize) →
    BestInv a b alo blo ahi bhi (extendLeftGo a b alo blo steps besti bestj bestsize) := by
  intro steps
  induction steps with
  | zero =>
    intro besti bestj bestsize hb
    simpa [extendLeftGo] using hb
  | succ n ih =>
    intro besti bestj bestsize hb
    rw [extendLeftGo]
    split
    next hcond =>
      obtain ⟨hai, hbj, hrange, heq⟩ := hcond
      apply ih
      constructor
      · intro _
        rcases Nat.eq_zero_or_pos bestsize with hz | hpos
        · exfalso
          have h0 := hb.2 (by simpa using hz)
          simp only at h0
          omega
        · obtain ⟨h1, h2, h3, h4, hm⟩ := hb.1 (by simpa using hpos)
          simp only at h1 h2 h3 h4 hm ⊢
          refine ⟨by omega, by omega, by omega, by omega, ?_⟩
          intro m hmlt
          rcases Nat.eq_zero_or_pos m with hm0 | hmpos
          · subst hm0
            have hget := List.get?_eq_get hrange
            refine ⟨a.get ⟨besti - 1, hrange⟩, hget, ?_⟩
            rw [Nat.add_zero]
            rw [← heq]
            exact hget
          · obtain ⟨x, hxa, hxb⟩ := hm (m - 1) (by omega)
            refine ⟨x, ?_, ?_⟩
            · have he : besti - 1 + m = besti + (m - 1) := by omega
              rw [he]; exact hxa
            · have he : bestj - 1 + m = bestj + (m - 1) := by omega
              rw [he]; exact hxb
      · intro h0
        simp only at h0
        omega
    next => exact hb

theorem extendRightGo_ok [DecidableEq α] (a b : List α) (alo blo ahi bhi : Nat)
    (besti bestj : Nat) :
    ∀ (steps bestsize : Nat),
    BestInv a b alo blo ahi bhi (besti, bestj, bestsize) →
    BestInv a b alo blo ahi bhi (besti, bestj, extendRightGo a b ahi bhi besti bestj steps bestsize) := by
  intro steps
  induction steps with
  | zero =>
    intro bestsize hb
    simpa [extendRightGo] using hb
  | succ n ih =>
    intro bestsize hb
    rw [extendRightGo]
    split
    next hcond =>
      obtain ⟨hai, hbj, hrange, heq⟩ := hcond
      apply ih
      constructor
      · intro _
        have hstart : alo ≤ besti ∧ blo ≤ bestj := by
          rcases Nat.eq_zero_or_pos bestsize with hz | hpos
          · have h0 := hb.2 (by simpa using hz)
            simp only at h0
            omega
          · obtain ⟨h1, h2, _, _, _⟩ := hb.1 (by simpa using hpos)
            simp only at h1 h2
            exact ⟨h1, h2⟩
        show alo ≤ besti ∧ blo ≤ bestj ∧ besti + (bestsize + 1) ≤ ahi ∧
          bestj + (bestsize + 1) ≤ bhi ∧ MatchAt a b besti bestj (bestsize + 1)
        refine ⟨hstart.1, hstart.2, by omega, by omega, ?_⟩
        intro m hmlt
        rcases Nat.lt_or_ge m bestsize with hmlt2 | hmge
        · obtain ⟨_, _, _, _, hm⟩ := hb.1 (by show 1 ≤ bestsize; omega)
          exact hm m hmlt2
        · have hmeq : m = bestsize := by omega
          subst hmeq
          have hget := List.get?_eq_get hrange
          refine ⟨a.get ⟨besti + m, hrange⟩, hget, ?_⟩
          rw [← heq]
          exact hget
      · intro h0
        simp at h0
    next => exact hb

theorem findLongestMatch_sound [DecidableEq α] (a b : List α) (alo ahi blo bhi : Nat)
    (h : 1 ≤ (findLongestMatch a b alo ahi blo bhi).2.2) :
    alo ≤ (findLongestMatch a b alo ahi blo bhi).1 ∧
      blo ≤ (findLongestMatch a b alo ahi blo bhi).2.1 ∧
      (findLongestMatch a b alo ahi blo bhi).1 + (findLongestMatch a b alo ahi blo bhi).2.2 ≤ ahi ∧
      (findLongestMatch a b alo ahi blo bhi).2.1 + (findLongestMatch a b alo ahi blo bhi).2.2 ≤ bhi ∧
      MatchAt a b (findLongestMatch a b alo ahi blo bhi).1
        (findLongestMatch a b alo ahi blo bhi).2.1
        (findLongestMatch a b alo ahi blo bhi).2.2 := by
  have hb0 : BestInv a b alo blo ahi bhi (alo, blo, 0) := by
    constructor
    · intro hk; simp at hk
    · intro _; exact ⟨rfl, rfl⟩
  have hrows : BestInv a b alo blo ahi bhi
      (flmRows a (b2j b) blo bhi (List.range' alo (ahi - alo)) (fun _ => 0) (alo, blo, 0)) := by
    rcases Nat.lt_or_ge alo ahi with hlt | hge
    · exact flmRows_ok a b (b2j b) alo blo ahi bhi (fun x j hj => b2j_mem hj)
        (ahi - alo) alo (fun _ => 0) (alo, blo, 0) (le_refl alo) (by omega)
        (by intro j hj; simp at hj) hb0
    · have hz : ahi - alo = 0 := by omega
      rw [hz]
      simpa [List.range'] using hb0
  set best1 := flmRows a (b2j b) blo bhi (List.range' alo (ahi - alo)) (fun _ => 0) (alo, blo, 0)
    with hbest1
  have hleft : BestInv a b alo blo ahi bhi
      (extendLeftGo a b alo blo best1.1 best1.1 best1.2.1 best1.2.2) := by
    have := extendLeftGo_ok a b alo blo ahi bhi best1.1 best1.1 best1.2.1 best1.2.2 (by
      simpa using hrows)
    exact this
  set left := extendLeftGo a b alo blo best1.1 best1.1 best1.2.1 best1.2.2 with hleftdef
  have hright : BestInv a b alo blo ahi bhi
      (left.1, left.2.1, extendRightGo a b ahi bhi left.1 left.2.1 ahi left.2.2) := by
    apply extendRightGo_ok
    simpa using hleft
  have hres : findLongestMatch a b alo ahi blo bhi =
      (left.1, left.2.1, extendRightGo a b ahi bhi left.1 left.2.1 ahi left.2.2) := by
    rw [findLongestMatch]
    rfl
  rw [hres] at h ⊢
  obtain ⟨h1, h2, h3, h4, h5⟩ := hright.1 (by simpa using h)
  exact ⟨h1, h2, h3, h4, h5⟩

end FlmSoundProofs


/-! Soundness of `get_matching_blocks`. -/

section GmbSoundProofs

variable {α : Type}

theorem rectComp_symm {r s : Nat × Nat × Nat × Nat} (h : RectComp r s) : RectComp s r :=
  h.elim Or.inr Or.inl

theorem rectComp_of_in {r s t : Nat × Nat × Nat × Nat} (hin : RectIn s t)
    (h : RectComp r t) : RectComp r s := by
  obtain ⟨h1, h2, h3, h4⟩ := hin
  rcases h with h | h
  · exact Or.inl ⟨le_trans h.1 h1, le_trans h.2 h3⟩
  · exact Or.inr ⟨le_trans h2 h.1, le_trans h4 h.2⟩

theorem mem_if_singleton {β : Type} {x e : β} {c : Prop} [Decidable c]
    (h : x ∈ (if c then [e] else [])) : x = e ∧ c := by
  split at h
  · next hc => exact ⟨by simpa using h, hc⟩
  · simp at h

theorem gmbLoop_ok [DecidableEq α] (a b : List α) :
    ∀ (fuel : Nat) (queue : List (Nat × Nat × Nat × Nat)) (acc : List (Nat × Nat × Nat)),
    (∀ r ∈ queue, r.2.1 ≤ a.length ∧ r.2.2.2 ≤ b.length) →
    (∀ x ∈ acc, 1 ≤ x.2.2 ∧ MatchAt a b x.1 x.2.1 x.2.2 ∧
      x.1 + x.2.2 ≤ a.length ∧ x.2.1 + x.2.2 ≤ b.length) →
    List.Pairwise RectComp (acc.map blockRect ++ queue) →
    (∀ x ∈ gmbLoop a b fuel queue acc, 1 ≤ x.2.2 ∧ MatchAt a b x.1 x.2.1 x.2.2 ∧
      x.1 + x.2.2 ≤ a.length ∧ x.2.1 + x.2.2 ≤ b.length) ∧
      List.Pairwise RectComp ((gmbLoop a b fuel queue acc).map blockRect) := by
  intro fuel
  induction fuel with
  | zero =>
    intro queue acc hq hacc hpw
    cases queue with
    | nil =>
      exact ⟨hacc, by simpa using (List.pairwise_append.mp hpw).1⟩
    | cons r q =>
      exact ⟨hacc, (List.pairwise_append.mp hpw).1⟩
  | succ n ih =>
    intro queue acc hq hacc hpw
    cases queue with
    | nil =>
      exact ⟨hacc, by simpa using (List.pairwise_append.mp hpw).1⟩
    | cons r q =>
      obtain ⟨alo, ahi, blo, bhi⟩ := r
      set m := findLongestMatch a b alo ahi blo bhi with hm
      have hstep : gmbLoop a b (n + 1) ((alo, ahi, blo, bhi) :: q) acc =
          if m.2.2 = 0 then gmbLoop a b n q acc
          else gmbLoop a b n
            ((if m.1 + m.2.2 < ahi ∧ m.2.1 + m.2.2 < bhi then
                [(m.1 + m.2.2, ahi, m.2.1 + m.2.2, bhi)] else []) ++
              (if alo < m.1 ∧ blo < m.2.1 then [(alo, m.1, blo, m.2.1)] else []) ++ q)
            (acc ++ [(m.1, m.2.1, m.2.2)]) := rfl
      clear_value m
      rw [hstep]
      by_cases hk : m.2.2 = 0
      · rw [if_pos hk]
        apply ih q acc (fun r' hr' => hq r' (List.mem_cons_of_mem _ hr')) hacc
        refine List.Pairwise.sublist ?_ hpw
        exact List.Sublist.append_left (List.sublist_cons_self _ q) _
      · rw [if_neg hk]
        have hsound := findLongestMatch_sound a b alo ahi blo bhi (by rw [← hm]; omega)
        rw [← hm] at hsound
        obtain ⟨hs1, hs2, hs3, hs4, hsm⟩ := hsound
        have hr := hq (alo, ahi, blo, bhi) (List.mem_cons_self _ _)
        simp only at hr
        have hpwsplit := List.pairwise_append.mp hpw
        obtain ⟨hpw_acc, hpw_rq, hcross⟩ := hpwsplit
        have hpw_q : List.Pairwise RectComp q := (List.pairwise_cons.mp hpw_rq).2
        have hF2 : ∀ z ∈ q, RectComp (alo, ahi, blo, bhi) z :=
          (List.pairwise_cons.mp hpw_rq).1
        have hF1 : ∀ y ∈ acc.map blockRect, RectComp y (alo, ahi, blo, bhi) :=
          fun y hy => hcross y hy _ (List.mem_cons_self _ _)
        have hxin : RectIn (blockRect (m.1, m.2.1, m.2.2)) (alo, ahi, blo, bhi) :=
          ⟨hs1, hs3, hs2, hs4⟩
        have hq2in : ∀ r' ∈ (if m.1 + m.2.2 < ahi ∧ m.2.1 + m.2.2 < bhi then
            [(m.1 + m.2.2, ahi, m.2.1 + m.2.2, bhi)] else []),
            RectIn r' (alo, ahi, blo, bhi) := by
          intro r' hr'
          obtain ⟨rfl, _⟩ := mem_if_singleton hr'
          dsimp only [RectIn]
          omega
        have hq1in : ∀ r' ∈ (if alo < m.1 ∧ blo < m.2.1 then
            [(alo, m.1, blo, m.2.1)] else []),
            RectIn r' (alo, ahi, blo, bhi) := by
          intro r' hr'
          obtain ⟨rfl, _⟩ := mem_if_singleton hr'
          dsimp only [RectIn]
          omega
        apply ih
        · intro r' hr'
          rcases List.mem_append.mp hr' with hr2 | hrq
          · rcases List.mem_append.mp hr2 with hr2 | hr1
            · have := hq2in r' hr2
              obtain ⟨_, h2, _, h4⟩ := this
              exact ⟨le_trans h2 hr.1, le_trans h4 hr.2⟩
            · have := hq1in r' hr1
              obtain ⟨_, h2, _, h4⟩ := this
              exact ⟨le_trans h2 hr.1, le_trans h4 hr.2⟩
          · exact hq r' (List.mem_cons_of_mem _ hrq)
        · intro x hx
          rcases List.mem_append.mp hx with hxa | hxn
          · exact hacc x hxa
          · have hxe : x = (m.1, m.2.1, m.2.2) := by simpa using hxn
            subst hxe
            refine ⟨?_, hsm, ?_, ?_⟩ <;> · dsimp only; omega
        · rw [List.map_append]
          rw [List.append_assoc, List.append_assoc]
          apply List.pairwise_append.mpr
          refine ⟨hpw_acc, ?_, ?_⟩
          · apply List.pairwise_append.mpr
            refine ⟨by simp, ?_, ?_⟩
            · apply List.pairwise_append.mpr
              refine ⟨?_, ?_, ?_⟩
              · split <;> simp
              · apply List.pairwise_append.mpr
                refine ⟨?_, hpw_q, ?_⟩
                · split <;> simp
                · intro y hy z hz
                  obtain ⟨rfl, _⟩ := mem_if_singleton hy
                  exact rectComp_symm (rectComp_of_in (hq1in _ hy) (rectComp_symm (hF2 z hz)))
              · intro y hy z hz
                obtain ⟨rfl, _⟩ := mem_if_singleton hy
                rcases List.mem_append.mp hz with hz1 | hzq
                · obtain ⟨rfl, _⟩ := mem_if_singleton hz1
                  refine Or.inr ⟨?_, ?_⟩ <;> · dsimp only; omega
                · exact rectComp_symm (rectComp_of_in (hq2in _ hy) (rectComp_symm (hF2 z hzq)))
            · intro y hy z hz
              have hye : y = blockRect (m.1, m.2.1, m.2.2) := by simpa using hy
              subst hye
              rcases List.mem_append.mp hz with hz2 | hz3
              · obtain ⟨rfl, _⟩ := mem_if_singleton hz2
                exact Or.inl ⟨le_refl _, le_refl _⟩
              · rcases List.mem_append.mp hz3 with hz1 | hzq
                · obtain ⟨rfl, _⟩ := mem_if_singleton hz1
                  exact Or.inr ⟨le_refl _, le_refl _⟩
                · exact rectComp_symm (rectComp_of_in hxin (rectComp_symm (hF2 z hzq)))
          · intro y hy z hz
            rcases List.mem_append.mp hz with hzx | hz3
            · have hze : z = blockRect (m.1, m.2.1, m.2.2) := by simpa using hzx
              subst hze
              exact rectComp_of_in hxin (hF1 y hy)
            · rcases List.mem_append.mp hz3 with hz2 | hz4
              · exact rectComp_of_in (hq2in z hz2) (hF1 y hy)
              · rcases List.mem_append.mp hz4 with hz1 | hzq
                · exact rectComp_of_in (hq1in z hz1) (hF1 y hy)
                · exact hcross y hy z (List.mem_cons_of_mem _ hzq)

theorem matchAt_zero (a b : List α) (i j : Nat) : MatchAt a b i j 0 :=
  fun m hm => absurd hm (by omega)

theorem matchAt_concat {a b : List α} {i j k l : Nat} (h1 : MatchAt a b i j k)
    (h2 : MatchAt a b (i + k) (j + k) l) : MatchAt a b i j (k + l) := by
  intro m hm
  by_cases hc : m < k
  · exact h1 m hc
  · obtain ⟨x, hx1, hx2⟩ := h2 (m - k) (by omega)
    rw [show i + k + (m - k) = i + m by omega] at hx1
    rw [show j + k + (m - k) = j + m by omega] at hx2
    exact ⟨x, hx1, hx2⟩

theorem pairwise_endLe_of_sorted {l : List (Nat × Nat × Nat)}
    (hpos : ∀ x ∈ l, 1 ≤ x.2.2)
    (hsort : List.Pairwise matchLE l)
    (hcomp : List.Pairwise RectComp (l.map blockRect)) :
    List.Pairwise EndLe l := by
  have hcomp' := List.pairwise_map.mp hcomp
  refine List.Pairwise.imp_of_mem ?_ (hsort.and hcomp')
  intro x y hx hy hxy
  obtain ⟨hle, hrc⟩ := hxy
  have hposy := hpos y hy
  dsimp only [RectComp, RectLe, blockRect, matchLE] at hle hrc
  dsimp only [EndLe]
  omega

theorem mergeAdj_ok (a b : List α) :
    ∀ (l : List (Nat × Nat × Nat)) (i1 j1 k1 pi pj : Nat),
    (∀ x ∈ l, 1 ≤ x.2.2 ∧ MatchAt a b x.1 x.2.1 x.2.2 ∧
      x.1 + x.2.2 ≤ a.length ∧ x.2.1 + x.2.2 ≤ b.length) →
    List.Pairwise EndLe l →
    (∀ x ∈ l, i1 + k1 ≤ x.1 ∧ j1 + k1 ≤ x.2.1) →
    pi ≤ i1 → pj ≤ j1 → MatchAt a b i1 j1 k1 →
    i1 + k1 ≤ a.length → j1 + k1 ≤ b.length →
    BlocksOK a b pi pj (mergeAdj i1 j1 k1 l ++ [(a.length, b.length, 0)]) := by
  intro l
  induction l with
  | nil =>
    intro i1 j1 k1 pi pj _ _ _ hpi hpj hm hba hbb
    by_cases hk : k1 ≠ 0
    · rw [show mergeAdj i1 j1 k1 [] = [(i1, j1, k1)] from by rw [mergeAdj]; simp [hk]]
      exact ⟨hpi, hpj, hba, hbb, hm,
        hba, hbb, by omega, by omega, matchAt_zero a b _ _, trivial⟩
    · rw [show mergeAdj i1 j1 k1 [] = [] from by rw [mergeAdj]; simp [hk]]
      exact ⟨by omega, by omega, by omega, by omega, matchAt_zero a b _ _, trivial⟩
  | cons hd t ih =>
    obtain ⟨i2, j2, k2⟩ := hd
    intro i1 j1 k1 pi pj hval hpw hafter hpi hpj hm hba hbb
    have hv := hval _ (List.mem_cons_self _ _)
    dsimp only at hv
    have hcur := hafter _ (List.mem_cons_self _ _)
    dsimp only at hcur
    have hpwt : List.Pairwise EndLe t := (List.pairwise_cons.mp hpw).2
    have hvt : ∀ x ∈ t, 1 ≤ x.2.2 ∧ MatchAt a b x.1 x.2.1 x.2.2 ∧
        x.1 + x.2.2 ≤ a.length ∧ x.2.1 + x.2.2 ≤ b.length :=
      fun x hx => hval x (List.mem_cons_of_mem _ hx)
    have hafter2 : ∀ x ∈ t, i2 + k2 ≤ x.1 ∧ j2 + k2 ≤ x.2.1 := by
      intro x hx
      have h1 := (List.pairwise_cons.mp hpw).1 x hx
      dsimp only [EndLe] at h1
      exact h1
    rw [mergeAdj]
    by_cases hmerge : i1 + k1 = i2 ∧ j1 + k1 = j2
    · rw [if_pos hmerge]
      apply ih i1 j1 (k1 + k2) pi pj hvt hpwt
      · intro x hx
        have := hafter2 x hx
        omega
      · exact hpi
      · exact hpj
      · refine matchAt_concat hm ?_
        rw [hmerge.1, hmerge.2]
        exact hv.2.1
      · omega
      · omega
    · rw [if_neg hmerge]
      by_cases hk : k1 ≠ 0
      · rw [if_pos hk, List.append_assoc, List.singleton_append]
        refine ⟨hpi, hpj, hba, hbb, hm, ?_⟩
        exact ih i2 j2 k2 (i1 + k1) (j1 + k1) hvt hpwt hafter2 hcur.1 hcur.2
          hv.2.1 hv.2.2.1 hv.2.2.2
      · rw [if_neg hk, List.nil_append]
        exact ih i2 j2 k2 pi pj hvt hpwt hafter2 (by omega) (by omega)
          hv.2.1 hv.2.2.1 hv.2.2.2

theorem getMatchingBlocks_ok [DecidableEq α] (a b : List α) :
    BlocksOK a b 0 0 (getMatchingBlocks a b) := by
  obtain ⟨hval, hcomp⟩ := gmbLoop_ok a b (2 * a.length + 1)
    [(0, a.length, 0, b.length)] []
    (by
      intro r hr
      simp only [List.mem_singleton] at hr
      subst hr
      exact ⟨le_refl _, le_refl _⟩)
    (by intro x hx; simp at hx)
    (by simp)
  have hperm : (List.insertionSort matchLE
      (gmbLoop a b (2 * a.length + 1) [(0, a.length, 0, b.length)] [])).Perm
      (gmbLoop a b (2 * a.length + 1) [(0, a.length, 0, b.length)] []) :=
    List.perm_insertionSort matchLE _
  have hval' : ∀ x ∈ List.insertionSort matchLE
      (gmbLoop a b (2 * a.length + 1) [(0, a.length, 0, b.length)] []),
      1 ≤ x.2.2 ∧ MatchAt a b x.1 x.2.1 x.2.2 ∧
      x.1 + x.2.2 ≤ a.length ∧ x.2.1 + x.2.2 ≤ b.length :=
    fun x hx => hval x (hperm.mem_iff.mp hx)
  have hcomp' : List.Pairwise RectComp ((List.insertionSort matchLE
      (gmbLoop a b (2 * a.length + 1) [(0, a.length, 0, b.length)] [])).map blockRect) :=
    (List.Perm.pairwise_iff (fun h => rectComp_symm h) (hperm.map blockRect)).mpr hcomp
  have hsort : List.Pairwise matchLE (List.insertionSort matchLE
      (gmbLoop a b (2 * a.length + 1) [(0, a.length, 0, b.length)] [])) :=
    List.sorted_insertionSort matchLE _
  have hend := pairwise_endLe_of_sorted (fun x hx => (hval' x hx).1) hsort hcomp'
  exact mergeAdj_ok a b _ 0 0 0 0 0 hval' hend
    (fun x _ => ⟨Nat.zero_le _, Nat.zero_le _⟩)
    (le_refl 0) (le_refl 0) (matchAt_zero a b 0 0) (Nat.zero_le _) (Nat.zero_le _)

end GmbSoundProofs


/-! Soundness of `get_opcodes` and `get_grouped_opcodes`. -/

section OpcodesProofs

variable {α : Type}

theorem matchAt_mono {a b : List α} {i j k m : Nat} (h : MatchAt a b i j k)
    (hm : m ≤ k) : MatchAt a b i j m :=
  fun x hx => h x (lt_of_lt_of_le hx hm)

theorem matchAt_sub {a b : List α} {i j k : Nat} (h : MatchAt a b i j k)
    (d m : Nat) (hdm : d + m ≤ k) : MatchAt a b (i + d) (j + d) m := by
  intro x hx
  obtain ⟨y, h1, h2⟩ := h (d + x) (by omega)
  rw [show i + (d + x) = i + d + x by omega] at h1
  rw [show j + (d + x) = j + d + x by omega] at h2
  exact ⟨y, h1, h2⟩

theorem opsSeg_append {a b : List α} :
    ∀ (u : List Opcode) {i j m1 m2 e1 e2 : Nat} {v : List Opcode},
    OpsSeg a b i j m1 m2 u → OpsSeg a b m1 m2 e1 e2 v →
    OpsSeg a b i j e1 e2 (u ++ v) := by
  intro u
  induction u with
  | nil =>
    intro i j m1 m2 e1 e2 v h1 h2
    obtain ⟨rfl, rfl⟩ := h1
    exact h2
  | cons o t ih =>
    intro i j m1 m2 e1 e2 v h1 h2
    obtain ⟨ho1, ho2, ho3, ho4, ho5, ho6, ho7, ho8, ho9, hrest⟩ := h1
    exact ⟨ho1, ho2, ho3, ho4, ho5, ho6, ho7, ho8, ho9, ih hrest h2⟩

theorem opsSeg_le {a b : List α} :
    ∀ (u : List Opcode) {i j e1 e2 : Nat},
    OpsSeg a b i j e1 e2 u → i ≤ e1 ∧ j ≤ e2 := by
  intro u
  induction u with
  | nil =>
    intro i j e1 e2 h
    exact ⟨le_of_eq h.1, le_of_eq h.2⟩
  | cons o t ih =>
    intro i j e1 e2 h
    obtain ⟨h1, h2, h3, h4, h5, h6, _, _, _, hrest⟩ := h
    have := ih hrest
    omega

theorem opcodesLoop_ok {a b : List α} :
    ∀ (l : List (Nat × Nat × Nat)) (i j e1 e2 : Nat),
    BlocksOK a b i j l → l.getLast? = some (e1, e2, 0) →
    OpsSeg a b i j e1 e2 (opcodesLoop i j l) := by
  intro l
  induction l with
  | nil =>
    intro i j e1 e2 _ hlast
    simp at hlast
  | cons hd t ih =>
    obtain ⟨ai, bj, sz⟩ := hd
    intro i j e1 e2 hb hlast
    obtain ⟨hb1, hb2, hb3, hb4, hb5, hbt⟩ := hb
    have htag : OpsSeg a b i j ai bj
        (if i < ai ∧ j < bj then [⟨.replace, i, ai, j, bj⟩]
         else if i < ai then [⟨.delete, i, ai, j, bj⟩]
         else if j < bj then [⟨.insert, i, ai, j, bj⟩] else []) := by
      by_cases hc1 : i < ai ∧ j < bj
      · rw [if_pos hc1]
        exact ⟨rfl, rfl, by dsimp only; omega, by dsimp only; omega,
          by dsimp only; omega, by dsimp only; omega,
          fun h => absurd h (by dsimp only; decide), fun h => absurd h (by dsimp only; decide),
          fun h => absurd h (by dsimp only; decide), rfl, rfl⟩
      · rw [if_neg hc1]
        by_cases hc2 : i < ai
        · rw [if_pos hc2]
          exact ⟨rfl, rfl, by dsimp only; omega, by dsimp only; omega,
            by dsimp only; omega, by dsimp only; omega,
            fun h => absurd h (by dsimp only; decide), fun _ => by dsimp only; omega,
            fun h => absurd h (by dsimp only; decide), rfl, rfl⟩
        · rw [if_neg hc2]
          by_cases hc3 : j < bj
          · rw [if_pos hc3]
            exact ⟨rfl, rfl, by dsimp only; omega, by dsimp only; omega,
              by dsimp only; omega, by dsimp only; omega,
              fun h => absurd h (by dsimp only; decide), fun h => absurd h (by dsimp only; decide),
              fun _ => by dsimp only; omega, rfl, rfl⟩
          · rw [if_neg hc3]
            exact ⟨by omega, by omega⟩
    have heqs : OpsSeg a b ai bj (ai + sz) (bj + sz)
        (if sz ≠ 0 then [⟨.equal, ai, ai + sz, bj, bj + sz⟩] else []) := by
      by_cases hsz : sz ≠ 0
      · rw [if_pos hsz]
        refine ⟨rfl, rfl, by dsimp only; omega, by dsimp only; omega, hb3, hb4,
          fun _ => ⟨by dsimp only; omega, ?_⟩,
          fun h => absurd h (by dsimp only; decide), fun h => absurd h (by dsimp only; decide),
          rfl, rfl⟩
        dsimp only
        rw [show ai + sz - ai = sz by omega]
        exact hb5
      · rw [if_neg hsz]
        exact ⟨by omega, by omega⟩
    have hrec : OpsSeg a b (ai + sz) (bj + sz) e1 e2
        (opcodesLoop (ai + sz) (bj + sz) t) := by
      cases t with
      | nil =>
        simp only [List.getLast?_singleton, Option.some.injEq, Prod.mk.injEq] at hlast
        obtain ⟨rfl, rfl, rfl⟩ := hlast
        exact ⟨by omega, by omega⟩
      | cons hd2 t2 =>
        rw [List.getLast?_cons_cons] at hlast
        exact ih (ai + sz) (bj + sz) e1 e2 hbt hlast
    rw [opcodesLoop]
    exact opsSeg_append _ (opsSeg_append _ htag heqs) hrec

theorem opcodesLoop_equal_width :
    ∀ (l : List (Nat × Nat × Nat)) (i j : Nat), ∀ o ∈ opcodesLoop i j l,
    o.tag = DTag.equal → o.i1 < o.i2 := by
  intro l
  induction l with
  | nil =>
    intro i j o ho
    simp [opcodesLoop] at ho
  | cons hd t ih =>
    obtain ⟨ai, bj, sz⟩ := hd
    intro i j o ho htag
    rw [opcodesLoop] at ho
    simp only [List.mem_append] at ho
    rcases ho with (ho | ho) | ho
    · exfalso
      by_cases hc1 : i < ai ∧ j < bj
      · rw [if_pos hc1] at ho
        simp only [List.mem_singleton] at ho
        subst ho
        exact absurd htag (by dsimp only at htag ⊢; decide)
      · rw [if_neg hc1] at ho
        by_cases hc2 : i < ai
        · rw [if_pos hc2] at ho
          simp only [List.mem_singleton] at ho
          subst ho
          exact absurd htag (by dsimp only; decide)
        · rw [if_neg hc2] at ho
          by_cases hc3 : j < bj
          · rw [if_pos hc3] at ho
            simp only [List.mem_singleton] at ho
            subst ho
            exact absurd htag (by dsimp only; decide)
          · rw [if_neg hc3] at ho
            simp at ho
    · by_cases hsz : sz ≠ 0
      · rw [if_pos hsz] at ho
        simp only [List.mem_singleton] at ho
        subst ho
        dsimp only
        omega
      · rw [if_neg hsz] at ho
        simp at ho
    · exact ih (ai + sz) (bj + sz) o ho htag

theorem isSingleEqual_eq_true : ∀ {g : List Opcode}, isSingleEqual g = true →
    ∃ o, g = [o] ∧ o.tag = DTag.equal := by
  intro g h
  match g with
  | [] => simp [isSingleEqual] at h
  | [o] => exact ⟨o, rfl, by simpa [isSingleEqual] using h⟩
  | o :: o2 :: t => simp [isSingleEqual] at h

theorem trimFirstOpcode_width {n : Nat} (hn : 0 < n) :
    ∀ (l : List Opcode), (∀ o ∈ l, o.tag = DTag.equal → o.i1 < o.i2) →
    ∀ o ∈ trimFirstOpcode n l, o.tag = DTag.equal → o.i1 < o.i2 := by
  intro l hw o ho
  match l, hw, ho with
  | [], _, ho => simp [trimFirstOpcode] at ho
  | o1 :: t, hw, ho =>
    rw [trimFirstOpcode] at ho
    by_cases htag : o1.tag = DTag.equal
    · rw [if_pos htag] at ho
      rcases List.mem_cons.mp ho with rfl | hmem
      · intro _
        have := hw o1 (List.mem_cons_self _ _) htag
        dsimp only
        omega
      · exact hw o (List.mem_cons_of_mem _ hmem)
    · rw [if_neg htag] at ho
      exact hw o ho

theorem trimLastOpcode_width {n : Nat} (hn : 0 < n) :
    ∀ (l : List Opcode), (∀ o ∈ l, o.tag = DTag.equal → o.i1 < o.i2) →
    ∀ o ∈ trimLastOpcode n l, o.tag = DTag.equal → o.i1 < o.i2 := by
  intro l
  induction l with
  | nil =>
    intro _ o ho
    simp [trimLastOpcode] at ho
  | cons o1 t ih =>
    intro hw o ho
    cases t with
    | nil =>
      rw [trimLastOpcode] at ho
      by_cases htag : o1.tag = DTag.equal
      · rw [if_pos htag] at ho
        simp only [List.mem_singleton] at ho
        subst ho
        intro _
        have := hw o1 (List.mem_cons_self _ _) htag
        dsimp only
        omega
      · rw [if_neg htag] at ho
        exact hw o ho
    | cons o2 t2 =>
      rw [show trimLastOpcode n (o1 :: o2 :: t2) =
          o1 :: trimLastOpcode n (o2 :: t2) from rfl] at ho
      rcases List.mem_cons.mp ho with rfl | hmem
      · exact hw o (List.mem_cons_self _ _)
      · exact ih (fun x hx => hw x (List.mem_cons_of_mem _ hx)) o hmem

theorem trimFirstOpcode_ok {a b : List α} {n : Nat} (hn : 0 < n) {e1 e2 : Nat}
    {o : Opcode} {t : List Opcode}
    (h : OpsSeg a b 0 0 e1 e2 (o :: t)) :
    ∃ si sj, OpsSeg a b si sj e1 e2 (trimFirstOpcode n (o :: t)) ∧
      si = sj ∧ MatchAt a b 0 0 si ∧
      (∃ o1 t1, trimFirstOpcode n (o :: t) = o1 :: t1 ∧ o1.i1 = si ∧ o1.tag = o.tag ∧
        (0 < si → o1.tag = DTag.equal ∧ o1.i1 < o1.i2)) := by
  obtain ⟨ho1, ho2, ho3, ho4, ho5, ho6, hoeq, hodel, hoins, hrest⟩ := h
  rw [trimFirstOpcode]
  by_cases htag : o.tag = DTag.equal
  · rw [if_pos htag]
    obtain ⟨hww, hmm⟩ := hoeq htag
    refine ⟨max o.i1 (o.i2 - n), max o.j1 (o.j2 - n), ?_, by omega, ?_, ?_⟩
    · refine ⟨rfl, rfl, by dsimp only; omega, by dsimp only; omega,
        by dsimp only; omega, by dsimp only; omega,
        fun _ => ⟨by dsimp only; omega, ?_⟩,
        fun hh => by dsimp only at hh; rw [htag] at hh; exact absurd hh (by decide),
        fun hh => by dsimp only at hh; rw [htag] at hh; exact absurd hh (by decide),
        hrest⟩
      · dsimp only
        have hsub := matchAt_sub hmm (max o.i1 (o.i2 - n) - o.i1)
          (o.i2 - max o.i1 (o.i2 - n)) (by omega)
        rw [show o.i1 + (max o.i1 (o.i2 - n) - o.i1) = max o.i1 (o.i2 - n) by omega] at hsub
        rw [show o.j1 + (max o.i1 (o.i2 - n) - o.i1) = max o.j1 (o.j2 - n) by omega] at hsub
        exact hsub
    · rw [ho1, ho2] at hmm
      exact matchAt_mono hmm (by omega)
    · exact ⟨_, _, rfl, rfl, rfl, fun hpos => ⟨htag, by dsimp only; omega⟩⟩
  · rw [if_neg htag]
    refine ⟨0, 0, ⟨ho1, ho2, ho3, ho4, ho5, ho6, hoeq, hodel, hoins, hrest⟩,
      rfl, matchAt_zero a b 0 0, ?_⟩
    exact ⟨o, t, rfl, by omega, rfl, fun hpos => absurd hpos (by omega)⟩

theorem trimLastOpcode_ok {a b : List α} {n : Nat} :
    ∀ (l : List Opcode) {i j e1 e2 : Nat},
    OpsSeg a b i j e1 e2 l →
    ∃ E1 E2, OpsSeg a b i j E1 E2 (trimLastOpcode n l) ∧
      E1 ≤ e1 ∧ E2 ≤ e2 ∧ e1 - E1 = e2 - E2 ∧ MatchAt a b E1 E2 (e1 - E1) := by
  intro l
  induction l with
  | nil =>
    intro i j e1 e2 h
    refine ⟨e1, e2, ⟨h.1, h.2⟩, le_refl _, le_refl _, by omega, ?_⟩
    rw [Nat.sub_self]
    exact matchAt_zero a b _ _
  | cons o t ih =>
    intro i j e1 e2 h
    obtain ⟨ho1, ho2, ho3, ho4, ho5, ho6, hoeq, hodel, hoins, hrest⟩ := h
    cases t with
    | nil =>
      obtain ⟨rfl, rfl⟩ := hrest
      rw [trimLastOpcode]
      by_cases htag : o.tag = DTag.equal
      · rw [if_pos htag]
        obtain ⟨hww, hmm⟩ := hoeq htag
        refine ⟨min o.i2 (o.i1 + n), min o.j2 (o.j1 + n),
          ⟨ho1, ho2, by dsimp only; omega, by dsimp only; omega,
            by dsimp only; omega, by dsimp only; omega,
            fun _ => ⟨by dsimp only; omega, ?_⟩,
            fun hh => by dsimp only at hh; rw [htag] at hh; exact absurd hh (by decide),
            fun hh => by dsimp only at hh; rw [htag] at hh; exact absurd hh (by decide),
            rfl, rfl⟩,
          by omega, by omega, by omega, ?_⟩
        · dsimp only
          exact matchAt_mono hmm (by omega)
        · have hsub := matchAt_sub hmm (min o.i2 (o.i1 + n) - o.i1)
            (o.i2 - min o.i2 (o.i1 + n)) (by omega)
          rw [show o.i1 + (min o.i2 (o.i1 + n) - o.i1) = min o.i2 (o.i1 + n) by omega] at hsub
          rw [show o.j1 + (min o.i2 (o.i1 + n) - o.i1) = min o.j2 (o.j1 + n) by omega] at hsub
          exact hsub
      · rw [if_neg htag]
        exact ⟨o.i2, o.j2,
          ⟨ho1, ho2, ho3, ho4, ho5, ho6, hoeq, hodel, hoins, rfl, rfl⟩,
          le_refl _, le_refl _, by omega,
          by rw [show o.i2 - o.i2 = 0 by omega]; exact matchAt_zero a b _ _⟩
    | cons o2 t2 =>
      obtain ⟨E1, E2, hseg, hE1, hE2, hEw, hEm⟩ := ih hrest
      rw [show trimLastOpcode n (o :: o2 :: t2) =
          o :: trimLastOpcode n (o2 :: t2) from rfl]
      exact ⟨E1, E2,
        ⟨ho1, ho2, ho3, ho4, by have := (opsSeg_le _ hseg).1; omega,
          by have := (opsSeg_le _ hseg).2; omega, hoeq, hodel, hoins, hseg⟩,
        hE1, hE2, hEw, hEm⟩

theorem ggoLoop_ok {a b : List α} {n : Nat} (hn : 0 < n) :
    ∀ (codes group : List Opcode) (ci cj si sj i j E1 E2 : Nat),
    E1 ≤ a.length → E2 ≤ b.length →
    a.length - E1 = b.length - E2 → MatchAt a b E1 E2 (a.length - E1) →
    OpsSeg a b si sj i j group →
    ci ≤ si → cj ≤ sj → si - ci = sj - cj → MatchAt a b ci cj (si - ci) →
    (group = [] → ci = si ∨ ∃ o t, codes = o :: t ∧ o.tag = DTag.equal ∧ o.i1 < o.i2) →
    (group ≠ [] → ci = si ∨ si < i) →
    OpsSeg a b i j E1 E2 codes →
    (∀ o ∈ codes, o.tag = DTag.equal → o.i1 < o.i2) →
    GroupsOK a b ci cj (ggoLoop n group codes) := by
  intro codes
  induction codes with
  | nil =>
    intro group ci cj si sj i j E1 E2 hEa hEb hEw hEm hseg hci hcj hw hpre hinv0 hinv1 hend _
    obtain ⟨h1, h2⟩ := hend
    rw [ggoLoop]
    by_cases hg : group ≠ [] ∧ isSingleEqual group = false
    · rw [if_pos hg]
      refine ⟨si, sj, i, j, hci, hcj, hw, hpre, hg.1, hseg, ?_, ?_⟩
      · intro hsie
        rcases hinv1 hg.1 with h | h
        · exact h
        · omega
      · show GroupsOK a b i j []
        rw [h1, h2]
        exact ⟨hEa, hEb, hEw, hEm⟩
    · rw [if_neg hg]
      by_cases hgr : group = []
      · subst hgr
        obtain ⟨h3, h4⟩ := hseg
        refine ⟨by omega, by omega, by omega, ?_⟩
        have hEm1 : MatchAt a b (ci + (si - ci)) (cj + (si - ci)) (a.length - E1) := by
          rw [show ci + (si - ci) = E1 by omega, show cj + (si - ci) = E2 by omega]
          exact hEm
        have := matchAt_concat hpre hEm1
        rw [show a.length - ci = (si - ci) + (a.length - E1) by omega]
        exact this
      · have hsing : isSingleEqual group = true := by
          rcases Bool.eq_false_or_eq_true (isSingleEqual group) with h | h
          · exact h
          · exact absurd ⟨hgr, h⟩ hg
        obtain ⟨o, rfl, htago⟩ := isSingleEqual_eq_true hsing
        obtain ⟨ho1, ho2, ho3, ho4, ho5, ho6, hoeq, hd1, hd2, hre⟩ := hseg
        obtain ⟨he1, he2⟩ := hre
        obtain ⟨hww, hmm⟩ := hoeq htago
        refine ⟨by omega, by omega, by omega, ?_⟩
        have hmm1 : MatchAt a b (ci + (si - ci)) (cj + (si - ci)) (o.i2 - o.i1) := by
          rw [show ci + (si - ci) = o.i1 by omega, show cj + (si - ci) = o.j1 by omega]
          exact hmm
        have h12 := matchAt_concat hpre hmm1
        have hEm1 : MatchAt a b (ci + ((si - ci) + (o.i2 - o.i1)))
            (cj + ((si - ci) + (o.i2 - o.i1))) (a.length - E1) := by
          rw [show ci + ((si - ci) + (o.i2 - o.i1)) = E1 by omega,
            show cj + ((si - ci) + (o.i2 - o.i1)) = E2 by omega]
          exact hEm
        have := matchAt_concat h12 hEm1
        rw [show a.length - ci = ((si - ci) + (o.i2 - o.i1)) + (a.length - E1) by omega]
        exact this
  | cons o t ih =>
    intro group ci cj si sj i j E1 E2 hEa hEb hEw hEm hseg hci hcj hw hpre hinv0 hinv1 hend hwidth
    obtain ⟨ho1, ho2, ho3, ho4, ho5, ho6, hoeq, hodel, hoins, hrest⟩ := hend
    rw [ggoLoop]
    by_cases hsplit : o.tag = DTag.equal ∧ 2 * n < o.i2 - o.i1
    · rw [if_pos hsplit]
      obtain ⟨hww, hmm⟩ := hoeq hsplit.1
      refine ⟨si, sj, min o.i2 (o.i1 + n), min o.j2 (o.j1 + n), hci, hcj, hw, hpre,
        by simp, ?_, ?_, ?_⟩
      · refine opsSeg_append _ hseg ?_
        refine ⟨ho1, ho2, by dsimp only; omega, by dsimp only; omega,
          by dsimp only; omega, by dsimp only; omega,
          fun _ => ⟨by dsimp only; omega, ?_⟩,
          fun hh => by dsimp only at hh; rw [hsplit.1] at hh; exact absurd hh (by decide),
          fun hh => by dsimp only at hh; rw [hsplit.1] at hh; exact absurd hh (by decide),
          rfl, rfl⟩
        dsimp only
        exact matchAt_mono hmm (by omega)
      · intro hfalse
        exfalso
        have hle := opsSeg_le _ hseg
        omega
      · refine ih [⟨o.tag, max o.i1 (o.i2 - n), o.i2, max o.j1 (o.j2 - n), o.j2⟩]
          (min o.i2 (o.i1 + n)) (min o.j2 (o.j1 + n))
          (max o.i1 (o.i2 - n)) (max o.j1 (o.j2 - n)) o.i2 o.j2 E1 E2 hEa hEb hEw hEm
          ?_ (by omega) (by omega) (by omega) ?_
          (fun h => absurd h (by simp)) (fun _ => Or.inr (by omega))
          hrest (fun x hx => hwidth x (List.mem_cons_of_mem _ hx))
        · refine ⟨rfl, rfl, by dsimp only; omega, by dsimp only; omega,
            by dsimp only; omega, by dsimp only; omega,
            fun _ => ⟨by dsimp only; omega, ?_⟩,
            fun hh => by dsimp only at hh; rw [hsplit.1] at hh; exact absurd hh (by decide),
            fun hh => by dsimp only at hh; rw [hsplit.1] at hh; exact absurd hh (by decide),
            rfl, rfl⟩
          dsimp only
          have hsub := matchAt_sub hmm (max o.i1 (o.i2 - n) - o.i1)
            (o.i2 - max o.i1 (o.i2 - n)) (by omega)
          rw [show o.i1 + (max o.i1 (o.i2 - n) - o.i1) = max o.i1 (o.i2 - n) by omega] at hsub
          rw [show o.j1 + (max o.i1 (o.i2 - n) - o.i1) = max o.j1 (o.j2 - n) by omega] at hsub
          exact hsub
        · have hsub := matchAt_sub hmm (min o.i2 (o.i1 + n) - o.i1)
            (max o.i1 (o.i2 - n) - min o.i2 (o.i1 + n)) (by omega)
          rw [show o.i1 + (min o.i2 (o.i1 + n) - o.i1) = min o.i2 (o.i1 + n) by omega] at hsub
          rw [show o.j1 + (min o.i2 (o.i1 + n) - o.i1) = min o.j2 (o.j1 + n) by omega] at hsub
          exact hsub
    · rw [if_neg hsplit]
      refine ih (group ++ [o]) ci cj si sj o.i2 o.j2 E1 E2 hEa hEb hEw hEm
        ?_ hci hcj hw hpre (fun h => absurd h (by simp)) ?_ hrest
        (fun x hx => hwidth x (List.mem_cons_of_mem _ hx))
      · exact opsSeg_append _ hseg ⟨ho1, ho2, ho3, ho4, ho5, ho6, hoeq, hodel, hoins, rfl, rfl⟩
      · intro _
        by_cases hgnil : group = []
        · rcases hinv0 hgnil with h | ⟨o3, t3, heq, htag3, hwid3⟩
          · exact Or.inl h
          · obtain ⟨rfl, rfl⟩ : o3 = o ∧ t3 = t := by
              injection heq with hq1 hq2
              exact ⟨hq1.symm, hq2.symm⟩
            have hsi : si = i := by
              subst hgnil
              exact hseg.1
            right
            omega
        · rcases hinv1 hgnil with h | h
          · exact Or.inl h
          · right
            omega

theorem getOpcodes_ok [DecidableEq α] (a b : List α) :
    OpsSeg a b 0 0 a.length b.length (getOpcodes a b) := by
  refine opcodesLoop_ok _ 0 0 a.length b.length (getMatchingBlocks_ok a b) ?_
  show (mergeAdj 0 0 0 _ ++ [(a.length, b.length, 0)]).getLast? = _
  rw [List.getLast?_concat]

theorem getGroupedOpcodes_ok [DecidableEq α] (a b : List α) :
    GroupsOK a b 0 0 (getGroupedOpcodes a b 3) := by
  have hops : OpsSeg a b 0 0 a.length b.length (getOpcodes a b) := getOpcodes_ok a b
  have hwid : ∀ o ∈ getOpcodes a b, o.tag = DTag.equal → o.i1 < o.i2 :=
    opcodesLoop_equal_width _ 0 0
  have hdef : getGroupedOpcodes a b 3 = ggoLoop 3 []
      (trimLastOpcode 3 (trimFirstOpcode 3
        (if getOpcodes a b = [] then [⟨.equal, 0, 1, 0, 1⟩] else getOpcodes a b))) := rfl
  by_cases hnil : getOpcodes a b = []
  · rw [hdef, hnil]
    have hz : (0 = a.length ∧ 0 = b.length) := by
      rw [hnil] at hops
      exact hops
    rw [show (if ([] : List Opcode) = [] then
        [(⟨.equal, 0, 1, 0, 1⟩ : Opcode)] else []) = [⟨.equal, 0, 1, 0, 1⟩] from rfl]
    rw [show ggoLoop 3 [] (trimLastOpcode 3 (trimFirstOpcode 3
        [(⟨.equal, 0, 1, 0, 1⟩ : Opcode)])) = [] from rfl]
    refine ⟨by omega, by omega, by omega, ?_⟩
    rw [show a.length - 0 = 0 by omega]
    exact matchAt_zero a b _ _
  · rw [hdef, if_neg hnil]
    obtain ⟨o, t, hot⟩ := List.exists_cons_of_ne_nil hnil
    rw [hot]
    rw [hot] at hops hwid
    obtain ⟨si, sj, hseg1, hsij, hpre, o1, t1, htf, ho1i, ho1t, hhead⟩ :=
      trimFirstOpcode_ok (show 0 < 3 by omega) hops
    obtain ⟨E1, E2, hseg2, hE1, hE2, hEw, hEm⟩ := trimLastOpcode_ok _ hseg1
    have hwid1 : ∀ x ∈ trimFirstOpcode 3 (o :: t), x.tag = DTag.equal → x.i1 < x.i2 :=
      trimFirstOpcode_width (by omega) _ hwid
    have hwid2 : ∀ x ∈ trimLastOpcode 3 (trimFirstOpcode 3 (o :: t)),
        x.tag = DTag.equal → x.i1 < x.i2 :=
      trimLastOpcode_width (by omega) _ hwid1
    refine ggoLoop_ok (by omega) _ [] 0 0 si sj si sj E1 E2 hE1 hE2 hEw hEm
      ⟨rfl, rfl⟩ (by omega) (by omega) (by omega) ?_ ?_ (fun h => absurd rfl h)
      hseg2 hwid2
    · rw [show si - 0 = si by omega]
      exact hpre
    · intro _
      by_cases hsi0 : si = 0
      · exact Or.inl hsi0.symm
      · right
        obtain ⟨heq, hlt⟩ := hhead (by omega)
        -- head of trimLast (trimFirst ...) : need shape
        cases hTL : trimLastOpcode 3 (trimFirstOpcode 3 (o :: t)) with
        | nil =>
          exfalso
          rw [htf] at hTL
          cases t1 <;> simp [trimLastOpcode] at hTL
          · revert hTL
            split <;> simp
        | cons o2 t2 =>
          refine ⟨o2, t2, rfl, ?_, ?_⟩
          · -- o2 tag equal: o2 is head of trimLast of (o1 :: t1): head preserved except single case which keeps tag
            rw [htf] at hTL
            cases t1 with
            | nil =>
              rw [trimLastOpcode] at hTL
              by_cases he : o1.tag = DTag.equal
              · rw [if_pos he] at hTL
                injection hTL with hh1 _
                rw [← hh1]
                exact he
              · exact absurd heq he
            | cons o3 t3 =>
              rw [show trimLastOpcode 3 (o1 :: o3 :: t3) =
                  o1 :: trimLastOpcode 3 (o3 :: t3) from rfl] at hTL
              injection hTL with hh1 _
              rw [← hh1]
              exact heq
          · exact hwid2 o2 (hTL ▸ List.mem_cons_self _ _) (by
              rw [htf] at hTL
              cases t1 with
              | nil =>
                rw [trimLastOpcode] at hTL
                by_cases he : o1.tag = DTag.equal
                · rw [if_pos he] at hTL
                  injection hTL with hh1 _
                  rw [← hh1]
                  exact he
                · exact absurd heq he
              | cons o3 t3 =>
                rw [show trimLastOpcode 3 (o1 :: o3 :: t3) =
                    o1 :: trimLastOpcode 3 (o3 :: t3) from rfl] at hTL
                injection hTL with hh1 _
                rw [← hh1]
                exact heq)

theorem trimFirstOpcode_length (n : Nat) :
    ∀ l : List Opcode, (trimFirstOpcode n l).length = l.length := by
  intro l
  match l with
  | [] => rfl
  | o :: t =>
    rw [trimFirstOpcode]
    by_cases h : o.tag = DTag.equal
    · rw [if_pos h]
      rfl
    · rw [if_neg h]

theorem trimLastOpcode_length (n : Nat) :
    ∀ l : List Opcode, (trimLastOpcode n l).length = l.length := by
  intro l
  induction l with
  | nil => rfl
  | cons o t ih =>
    cases t with
    | nil =>
      rw [trimLastOpcode]
      by_cases h : o.tag = DTag.equal
      · rw [if_pos h]
        rfl
      · rw [if_neg h]
    | cons o2 t2 =>
      rw [show trimLastOpcode n (o :: o2 :: t2) =
          o :: trimLastOpcode n (o2 :: t2) from rfl]
      simp [ih]

theorem trimFirstOpcode_head_tag (n : Nat) (o : Opcode) (t : List Opcode) :
    ∃ o1, trimFirstOpcode n (o :: t) = o1 :: t ∧ o1.tag = o.tag := by
  rw [trimFirstOpcode]
  by_cases h : o.tag = DTag.equal
  · rw [if_pos h]
    exact ⟨_, rfl, rfl⟩
  · rw [if_neg h]
    exact ⟨o, rfl, rfl⟩

theorem trimLastOpcode_single_tag (n : Nat) (o : Opcode) :
    ∃ o1, trimLastOpcode n [o] = [o1] ∧ o1.tag = o.tag := by
  rw [trimLastOpcode]
  by_cases h : o.tag = DTag.equal
  · rw [if_pos h]
    exact ⟨_, rfl, rfl⟩
  · rw [if_neg h]
    exact ⟨o, rfl, rfl⟩

theorem matchAt_full {a b : List α} (h : MatchAt a b 0 0 a.length)
    (hl : a.length = b.length) : a = b := by
  apply List.ext_get?
  intro n
  by_cases hn : n < a.length
  · obtain ⟨x, h1, h2⟩ := h n hn
    rw [show 0 + n = n by omega] at h1 h2
    rw [h1, h2]
  · rw [List.get?_eq_none.mpr (by omega), List.get?_eq_none.mpr (by omega)]

theorem ggoLoop_eq_nil {n : Nat} :
    ∀ (codes group : List Opcode), ggoLoop n group codes = [] →
    group ++ codes = [] ∨ isSingleEqual (group ++ codes) = true := by
  intro codes
  induction codes with
  | nil =>
    intro group h
    rw [ggoLoop] at h
    by_cases hg : group ≠ [] ∧ isSingleEqual group = false
    · rw [if_pos hg] at h
      simp at h
    · rw [List.append_nil]
      rcases Bool.eq_false_or_eq_true (isSingleEqual group) with ht | hf
      · exact Or.inr ht
      · left
        by_contra hne
        exact hg ⟨hne, hf⟩
  | cons o t ih =>
    intro group h
    rw [ggoLoop] at h
    by_cases hs : o.tag = DTag.equal ∧ 2 * n < o.i2 - o.i1
    · rw [if_pos hs] at h
      simp at h
    · rw [if_neg hs] at h
      have := ih (group ++ [o]) h
      rw [List.append_assoc] at this
      exact this

theorem getGroupedOpcodes_ne_nil [DecidableEq α] {a b : List α} (hne : a ≠ b) :
    getGroupedOpcodes a b 3 ≠ [] := by
  intro hnil
  have hops : OpsSeg a b 0 0 a.length b.length (getOpcodes a b) := getOpcodes_ok a b
  have hdef : getGroupedOpcodes a b 3 = ggoLoop 3 []
      (trimLastOpcode 3 (trimFirstOpcode 3
        (if getOpcodes a b = [] then [⟨.equal, 0, 1, 0, 1⟩] else getOpcodes a b))) := rfl
  rw [hdef] at hnil
  have hlen := ggoLoop_eq_nil _ _ hnil
  rw [List.nil_append] at hlen
  by_cases hc0 : getOpcodes a b = []
  · rw [hc0] at hops
    obtain ⟨h1, h2⟩ := hops
    apply hne
    rw [List.length_eq_zero.mp h1.symm, List.length_eq_zero.mp h2.symm]
  · rw [if_neg hc0] at hlen
    obtain ⟨o, t, hot⟩ := List.exists_cons_of_ne_nil hc0
    rw [hot] at hlen
    rcases hlen with hnil2 | hsing
    · have := trimLastOpcode_length 3 (trimFirstOpcode 3 (o :: t))
      rw [hnil2, trimFirstOpcode_length] at this
      simp at this
    · obtain ⟨x, hx1, hx2⟩ := isSingleEqual_eq_true hsing
      have hlen1 := trimLastOpcode_length 3 (trimFirstOpcode 3 (o :: t))
      rw [hx1, trimFirstOpcode_length] at hlen1
      have ht0 : t = [] := by
        cases t with
        | nil => rfl
        | cons a2 t2 => simp at hlen1
      subst ht0
      obtain ⟨o1, ho1, htag1⟩ := trimFirstOpcode_head_tag 3 o []
      rw [ho1] at hx1
      obtain ⟨o2, ho2, htag2⟩ := trimLastOpcode_single_tag 3 o1
      rw [ho2] at hx1
      have hxo2 : x = o2 := by
        injection hx1 with hh _
        exact hh.symm
      have hoeqtag : o.tag = DTag.equal := by
        rw [← htag1, ← htag2, ← hxo2]
        exact hx2
      rw [hot] at hops
      obtain ⟨ho1', ho2', _, _, _, _, hoeq, _, _, hre⟩ := hops
      obtain ⟨he1, he2⟩ := hre
      obtain ⟨hww, hmm⟩ := hoeq hoeqtag
      apply hne
      rw [ho1', ho2'] at hmm
      refine matchAt_full ?_ (by omega)
      rw [show a.length = o.i2 - 0 by omega]
      exact hmm

theorem intercalate_newline_head (y : List Char) (t : List (List Char)) :
    ∃ R, List.intercalate ['\n'] (y :: t) ++ ['\n'] = y ++ '\n' :: R := by
  cases t with
  | nil => exact ⟨[], by simp [List.intercalate]⟩
  | cons z t2 =>
    refine ⟨List.intercalate ['\n'] (z :: t2) ++ ['\n'], ?_⟩
    simp [List.intercalate, List.intersperse]

theorem intercalate_newline_cons_cons (x y : List Char) (t : List (List Char)) :
    List.intercalate ['\n'] (x :: y :: t) ++ ['\n'] =
      x ++ '\n' :: (List.intercalate ['\n'] (y :: t) ++ ['\n']) := by
  simp [List.intercalate, List.intersperse]

end OpcodesProofs


/-! Claim C4: presence of the `---`/`+++` file-header pair in generated
diffs. -/

/-- Whenever the two input texts differ, the generated diff begins with
the `--- original` / `+++ modified` header pair. -/
theorem generateDiff_headers_of_ne (A B : List Char) (hne : A ≠ B) :
    ∃ rest, generateDiff A B =
      toL "--- original" ++ '\n' :: (toL "+++ modified" ++ '\n' :: rest) := by
  have hlne : pySplitlines A ≠ pySplitlines B :=
    fun h => hne (pySplitlines_injective h)
  have hgr := getGroupedOpcodes_ne_nil hlne
  have hor : pySplitlines A ≠ [] ∨ pySplitlines B ≠ [] := by
    by_contra hq
    push_neg at hq
    exact hlne (hq.1.trans hq.2.symm)
  have hudl : unifiedDiffLines (pySplitlines A) (pySplitlines B) =
      toL "--- original" :: toL "+++ modified" ::
        ((getGroupedOpcodes (pySplitlines A) (pySplitlines B) 3).map
          (renderGroup (pySplitlines A) (pySplitlines B))).flatten := by
    show (if getGroupedOpcodes (pySplitlines A) (pySplitlines B) 3 = [] then []
      else toL "--- original" :: toL "+++ modified" ::
        ((getGroupedOpcodes (pySplitlines A) (pySplitlines B) 3).map
          (renderGroup (pySplitlines A) (pySplitlines B))).flatten) = _
    rw [if_neg hgr]
  have hgen : generateDiff A B =
      List.intercalate ['\n'] (unifiedDiffLines (pySplitlines A) (pySplitlines B)) ++
        (if pySplitlines A ≠ [] ∨ pySplitlines B ≠ [] then ['\n'] else []) := rfl
  rw [hgen, if_pos hor, hudl]
  obtain ⟨R, hR⟩ := intercalate_newline_head (toL "+++ modified")
    ((getGroupedOpcodes (pySplitlines A) (pySplitlines B) 3).map
      (renderGroup (pySplitlines A) (pySplitlines B))).flatten
  refine ⟨R, ?_⟩
  rw [intercalate_newline_cons_cons, hR]

/-- C4 counterexample: for the equal nonempty inputs `"a\n"`, the
generated diff is the single newline appended after joining zero rendered
lines, so it does not begin with the `---`/`+++` header pair. -/
theorem generateDiff_equal_inputs_no_headers :
    generateDiff (toL "a\n") (toL "a\n") = ['\n'] := by decide

/-! Structure of the splitter's output: line shapes, and how splitting
distributes over the newline-terminated chunks of a rendered diff. -/

section SplitterShape

theorem sepFree_getLast_ne_cr {w : List Char} (hw : sepFree w) :
    w.getLast? ≠ some '\r' := by
  intro h
  have hmem : '\r' ∈ w := by
    cases hww : w.getLast? with
    | none => rw [hww] at h; exact absurd h (by simp)
    | some c =>
      rw [hww] at h
      have : c = '\r' := by injection h
      subst this
      exact List.mem_of_mem_getLast? hww
  have := hw '\r' hmem
  simp [isLineSep] at this

theorem pySplitlinesAux_sep_step {t : Char} (ht : isLineSep t = true)
    (htr : t ≠ '\r') :
    ∀ (w : List Char), sepFree w → ∀ (acc y : List Char),
    pySplitlinesAux (w ++ t :: y) acc =
      (acc.reverse ++ w ++ [t]) :: pySplitlines y := by
  intro w
  induction w with
  | nil =>
    intro _ acc y
    cases y with
    | nil =>
      simp [pySplitlinesAux, ht, pySplitlines]
    | cons d y2 =>
      have hcrlf : ¬(t = '\r' ∧ d = '\n') := fun h => htr h.1
      simp [pySplitlinesAux, hcrlf, ht, pySplitlines]
  | cons c w2 ih =>
    intro hw acc y
    have hc : isLineSep c = false := hw c (List.mem_cons_self _ _)
    have hw2 : sepFree w2 := fun x hx => hw x (List.mem_cons_of_mem _ hx)
    obtain ⟨d, rest2, hdd⟩ : ∃ d r2, w2 ++ t :: y = d :: r2 := by
      cases w2 <;> exact ⟨_, _, rfl⟩
    have hcrlf : ¬(c = '\r' ∧ d = '\n') := by
      intro h
      rw [h.1] at hc
      simp [isLineSep] at hc
    rw [show (c :: w2) ++ t :: y = c :: (d :: rest2) from by rw [← hdd]; rfl]
    simp only [pySplitlinesAux]
    rw [if_neg hcrlf, if_neg (by simp [hc])]
    rw [← hdd, ih hw2 (c :: acc) y]
    simp

theorem pySplitlinesAux_crlf_step :
    ∀ (w : List Char), sepFree w → ∀ (acc y : List Char),
    pySplitlinesAux (w ++ '\r' :: '\n' :: y) acc =
      (acc.reverse ++ w ++ ['\r', '\n']) :: pySplitlines y := by
  intro w
  induction w with
  | nil =>
    intro _ acc y
    simp [pySplitlinesAux, pySplitlines]
  | cons c w2 ih =>
    intro hw acc y
    have hc : isLineSep c = false := hw c (List.mem_cons_self _ _)
    have hw2 : sepFree w2 := fun x hx => hw x (List.mem_cons_of_mem _ hx)
    obtain ⟨d, rest2, hdd⟩ : ∃ d r2, w2 ++ '\r' :: '\n' :: y = d :: r2 := by
      cases w2 <;> exact ⟨_, _, rfl⟩
    have hcrlf : ¬(c = '\r' ∧ d = '\n') := by
      intro h
      rw [h.1] at hc
      simp [isLineSep] at hc
    rw [show (c :: w2) ++ '\r' :: '\n' :: y = c :: (d :: rest2) from by rw [← hdd]; rfl]
    simp only [pySplitlinesAux]
    rw [if_neg hcrlf, if_neg (by simp [hc])]
    rw [← hdd, ih hw2 (c :: acc) y]
    simp

theorem stripEol_append_sep {w : List Char} (hw : sepFree w) {t : Char}
    (ht : isLineSep t = true) :
    stripEol (w ++ [t]) = w := by
  have h1 : (w ++ [t]).reverse.take 2 ≠ ['\n', '\r'] := by
    rw [show (w ++ [t]).reverse = t :: w.reverse by simp]
    intro hq
    cases hww : w.reverse with
    | nil =>
      rw [hww] at hq
      simp at hq
    | cons a r =>
      rw [hww] at hq
      have hta : t = '\n' ∧ a = '\r' := by
        have h2 : [t, a] = ['\n', '\r'] := hq
        injection h2 with h3 h4
        injection h4 with h5 _
        exact ⟨h3, h5⟩
      have ham : a ∈ w := by
        rw [← List.mem_reverse, hww]
        exact List.mem_cons_self _ _
      have := hw a ham
      rw [hta.2] at this
      simp [isLineSep] at this
  unfold stripEol
  rw [if_neg h1, List.getLast?_concat]
  rw [if_pos (by simp [ht])]
  exact List.dropLast_concat

theorem stripEol_append_crlf (w : List Char) :
    stripEol (w ++ ['\r', '\n']) = w := by
  unfold stripEol
  rw [if_pos (by simp)]
  rw [show w ++ ['\r', '\n'] = (w ++ ['\r']) ++ ['\n'] by simp]
  rw [List.dropLast_concat, List.dropLast_concat]

theorem lineChunks_plain {w : List Char} (hw : sepFree w) :
    lineChunks w = [w] := by
  unfold lineChunks pySplitlinesStrip
  rw [show w ++ ['\n'] = w ++ '\n' :: [] from rfl]
  rw [show pySplitlines (w ++ '\n' :: []) =
    pySplitlinesAux (w ++ '\n' :: []) [] from rfl]
  rw [pySplitlinesAux_sep_step (by simp [isLineSep]) (by decide) w hw [] []]
  simp only [List.reverse_nil, List.nil_append, List.map_cons, pySplitlines]
  rw [show pySplitlinesAux [] ([] : List Char) = [] from rfl]
  rw [stripEol_append_sep hw (by simp [isLineSep])]
  rfl

theorem lineChunks_sep {w : List Char} (hw : sepFree w) {t : Char}
    (ht : isLineSep t = true) (htr : t ≠ '\r') :
    lineChunks (w ++ [t]) = [w, []] := by
  unfold lineChunks pySplitlinesStrip
  rw [show (w ++ [t]) ++ ['\n'] = w ++ t :: ['\n'] by simp]
  rw [show pySplitlines (w ++ t :: ['\n']) =
    pySplitlinesAux (w ++ t :: ['\n']) [] from rfl]
  rw [pySplitlinesAux_sep_step ht htr w hw [] ['\n']]
  simp only [List.reverse_nil, List.nil_append, List.map_cons]
  rw [stripEol_append_sep hw ht]
  rfl

theorem lineChunks_cr {w : List Char} (hw : sepFree w) :
    lineChunks (w ++ ['\r']) = [w] := by
  unfold lineChunks pySplitlinesStrip
  rw [show (w ++ ['\r']) ++ ['\n'] = w ++ '\r' :: '\n' :: [] by simp]
  rw [show pySplitlines (w ++ '\r' :: '\n' :: []) =
    pySplitlinesAux (w ++ '\r' :: '\n' :: []) [] from rfl]
  rw [pySplitlinesAux_crlf_step w hw [] []]
  simp only [List.reverse_nil, List.nil_append, List.map_cons, pySplitlines]
  rw [show pySplitlinesAux [] ([] : List Char) = [] from rfl]
  rw [show w ++ ['\r', '\n'] = w ++ ['\r', '\n'] from rfl]
  rw [stripEol_append_crlf]
  rfl

theorem lineChunks_crlf {w : List Char} (hw : sepFree w) :
    lineChunks (w ++ ['\r', '\n']) = [w, []] := by
  unfold lineChunks pySplitlinesStrip
  rw [show (w ++ ['\r', '\n']) ++ ['\n'] = w ++ '\r' :: '\n' :: ['\n'] by simp]
  rw [show pySplitlines (w ++ '\r' :: '\n' :: ['\n']) =
    pySplitlinesAux (w ++ '\r' :: '\n' :: ['\n']) [] from rfl]
  rw [pySplitlinesAux_crlf_step w hw [] ['\n']]
  simp only [List.reverse_nil, List.nil_append, List.map_cons]
  rw [stripEol_append_crlf]
  rfl

theorem pySplitlinesAux_append_newline :
    ∀ (N : Nat) (x : List Char), x.length ≤ N → x.getLast? = some '\n' →
    ∀ (acc y : List Char),
    pySplitlinesAux (x ++ y) acc = pySplitlinesAux x acc ++ pySplitlines y := by
  intro N
  induction N with
  | zero =>
    intro x hlen hlast acc y
    cases x with
    | nil => simp at hlast
    | cons c t => simp at hlen
  | succ N ih =>
    intro x hlen hlast acc y
    cases x with
    | nil => simp at hlast
    | cons c t =>
      cases t with
      | nil =>
        have hc : c = '\n' := by simpa using hlast
        subst hc
        cases y with
        | nil => simp [pySplitlines, pySplitlinesAux]
        | cons d y2 =>
          rw [show ('\n' :: []) ++ d :: y2 = '\n' :: d :: y2 from rfl]
          simp only [pySplitlinesAux]
          rw [if_neg (fun hq => absurd hq.1 (by decide)), if_pos (by decide)]
          rfl
      | cons d t2 =>
        have hlast2 : (d :: t2).getLast? = some '\n' := by
          rw [← hlast]
          rfl
        by_cases hcd : c = '\r' ∧ d = '\n'
        · obtain ⟨rfl, rfl⟩ := hcd
          rw [show ('\r' :: '\n' :: t2) ++ y = '\r' :: '\n' :: (t2 ++ y) from rfl]
          simp only [pySplitlinesAux]
          rw [if_pos (by decide), if_pos (by decide)]
          cases t2 with
          | nil =>
            simp [pySplitlines, pySplitlinesAux]
          | cons e t3 =>
            have hlast3 : (e :: t3).getLast? = some '\n' := by
              rw [← hlast]
              rfl
            have hstep := ih (e :: t3) (by simp at hlen ⊢; omega) hlast3 [] y
            rw [List.cons_append]
            exact congrArg _ hstep
        · simp only [pySplitlinesAux]
          rw [if_neg hcd, if_neg hcd]
          by_cases hsep : isLineSep c = true
          · rw [if_pos hsep, if_pos hsep]
            have hstep := ih (d :: t2) (by simp at hlen ⊢; omega) hlast2 [] y
            rw [List.cons_append]
            exact congrArg _ hstep
          · rw [if_neg hsep, if_neg hsep]
            exact ih (d :: t2) (by simp at hlen ⊢; omega) hlast2 (c :: acc) y

theorem pySplitlines_append {x : List Char} (hx : x.getLast? = some '\n')
    (y : List Char) :
    pySplitlines (x ++ y) = pySplitlines x ++ pySplitlines y :=
  pySplitlinesAux_append_newline x.length x (le_refl _) hx [] y

theorem strip_chunksOf :
    ∀ L : List (List Char), pySplitlinesStrip (chunksOf L) = L.flatMap lineChunks := by
  intro L
  induction L with
  | nil => rfl
  | cons x t ih =>
    rw [show chunksOf (x :: t) = (x ++ ['\n']) ++ chunksOf t by simp [chunksOf]]
    show ((pySplitlines ((x ++ ['\n']) ++ chunksOf t)).map stripEol) = _
    rw [pySplitlines_append (by rw [List.getLast?_concat]) (chunksOf t)]
    rw [List.map_append]
    show pySplitlinesStrip (x ++ ['\n']) ++ pySplitlinesStrip (chunksOf t) = _
    rw [ih]
    rfl

theorem pySplitlinesAux_shape :
    ∀ (s acc : List Char), sepFree acc → ∀ l ∈ pySplitlinesAux s acc, LineShape l := by
  intro s acc
  induction s, acc using pySplitlinesAux.induct with
  | case1 =>
    intro _ l hl
    simp [pySplitlinesAux] at hl
  | case2 acc hacc =>
    intro hsf l hl
    rw [show pySplitlinesAux [] acc = [acc.reverse] from by
      rw [pySplitlinesAux]; rw [if_neg hacc]] at hl
    simp only [List.mem_singleton] at hl
    subst hl
    exact ⟨acc.reverse, fun c hc => hsf c (List.mem_reverse.mp hc), Or.inl rfl⟩
  | case3 c acc d rest2 hcd ih =>
    intro hsf l hl
    obtain ⟨rfl, rfl⟩ := hcd
    rw [show pySplitlinesAux ('\r' :: '\n' :: rest2) acc =
      (acc.reverse ++ ['\r', '\n']) :: pySplitlinesAux rest2 [] from by
      simp only [pySplitlinesAux]; rw [if_pos (by decide)]] at hl
    rcases List.mem_cons.mp hl with rfl | hl2
    · exact ⟨acc.reverse, fun x hx => hsf x (List.mem_reverse.mp hx),
        Or.inr (Or.inr (Or.inr rfl))⟩
    · exact ih (fun x hx => absurd hx (List.not_mem_nil x)) l hl2
  | case4 c acc d rest2 hcd hsep ih =>
    intro hsf l hl
    rw [show pySplitlinesAux (c :: d :: rest2) acc =
      (acc.reverse ++ [c]) :: pySplitlinesAux (d :: rest2) [] from by
      simp only [pySplitlinesAux]; rw [if_neg hcd, if_pos hsep]] at hl
    rcases List.mem_cons.mp hl with rfl | hl2
    · refine ⟨acc.reverse, fun x hx => hsf x (List.mem_reverse.mp hx), ?_⟩
      by_cases hcr : c = '\r'
      · subst hcr
        exact Or.inr (Or.inr (Or.inl rfl))
      · exact Or.inr (Or.inl ⟨c, hsep, hcr, rfl⟩)
    · exact ih (fun x hx => absurd hx (List.not_mem_nil x)) l hl2
  | case5 c acc d rest2 hcd hsep ih =>
    intro hsf l hl
    rw [show pySplitlinesAux (c :: d :: rest2) acc =
      pySplitlinesAux (d :: rest2) (c :: acc) from by
      simp only [pySplitlinesAux]; rw [if_neg hcd, if_neg (by simp [hsep])]] at hl
    refine ih ?_ l hl
    intro x hx
    rcases List.mem_cons.mp hx with rfl | hx2
    · simpa using hsep
    · exact hsf x hx2
  | case6 c acc hsep ih =>
    intro hsf l hl
    rw [show pySplitlinesAux [c] acc =
      (acc.reverse ++ [c]) :: pySplitlinesAux [] [] from by
      simp only [pySplitlinesAux]; rw [if_pos hsep]] at hl
    rcases List.mem_cons.mp hl with rfl | hl2
    · refine ⟨acc.reverse, fun x hx => hsf x (List.mem_reverse.mp hx), ?_⟩
      by_cases hcr : c = '\r'
      · subst hcr
        exact Or.inr (Or.inr (Or.inl rfl))
      · exact Or.inr (Or.inl ⟨c, hsep, hcr, rfl⟩)
    · exact ih (fun x hx => absurd hx (List.not_mem_nil x)) l hl2
  | case7 c acc hsep ih =>
    intro hsf l hl
    rw [show pySplitlinesAux [c] acc = pySplitlinesAux [] (c :: acc) from by
      simp only [pySplitlinesAux]; rw [if_neg (by simp [hsep])]] at hl
    refine ih ?_ l hl
    intro x hx
    rcases List.mem_cons.mp hx with rfl | hx2
    · simpa using hsep
    · exact hsf x hx2

theorem pySplitlines_shape {s : List Char} :
    ∀ l ∈ pySplitlines s, LineShape l :=
  pySplitlinesAux_shape s [] (fun x hx => absurd hx (List.not_mem_nil x))

theorem lfTerminated_line_shape {s : List Char} (h : lfTerminatedB s = true) :
    ∀ l ∈ pySplitlines s, ∃ q, sepFree q ∧ l = q ++ ['\n'] := by
  intro l hl
  have hboth := (List.all_eq_true.mp h) l hl
  have hlast : l.getLast? = some '\n' := by
    simp only [Bool.and_eq_true, decide_eq_true_eq] at hboth
    exact hboth.1
  have hnr : ¬(l.dropLast.getLast? = some '\x0d') := by
    simp only [Bool.and_eq_true, Bool.not_eq_true', decide_eq_false_iff_not] at hboth
    exact hboth.2
  obtain ⟨q, hq, hcase⟩ := pySplitlines_shape l hl
  rcases hcase with rfl | ⟨t, ht, htr, rfl⟩ | rfl | rfl
  · exfalso
    have hmem := List.mem_of_mem_getLast? hlast
    have := hq '\n' hmem
    simp [isLineSep] at this
  · rw [List.getLast?_concat] at hlast
    have hteq : t = '\n' := by injection hlast
    subst hteq
    exact ⟨q, hq, rfl⟩
  · exfalso
    rw [List.getLast?_concat] at hlast
    injection hlast with hfalse
    exact absurd hfalse (by decide)
  · exfalso
    apply hnr
    rw [show q ++ ['\r', '\n'] = (q ++ ['\r']) ++ ['\n'] by simp]
    rw [List.dropLast_concat, List.getLast?_concat]

end SplitterShape


/-! Decimal rendering and the hunk-header parser on rendered headers. -/

section HeaderRender

theorem natToCharsGo_shape :
    ∀ (fuel n : Nat), ∀ c ∈ natToCharsGo fuel n, ∃ d, d < 10 ∧ c = Char.ofNat (48 + d) := by
  intro fuel
  induction fuel with
  | zero =>
    intro n c hc
    simp only [natToCharsGo, List.mem_singleton] at hc
    exact ⟨n % 10, by omega, hc⟩
  | succ fuel ih =>
    intro n c hc
    rw [natToCharsGo] at hc
    by_cases hn : n < 10
    · rw [if_pos hn] at hc
      simp only [List.mem_singleton] at hc
      exact ⟨n, hn, hc⟩
    · rw [if_neg hn] at hc
      rcases List.mem_append.mp hc with h | h
      · exact ih (n / 10) c h
      · simp only [List.mem_singleton] at h
        exact ⟨n % 10, by omega, h⟩

theorem digitChar_isPyDigit {d : Nat} (hd : d < 10) :
    isPyDigit (Char.ofNat (48 + d)) = true := by
  interval_cases d <;> decide

theorem digitChar_not_sep {d : Nat} (hd : d < 10) :
    isLineSep (Char.ofNat (48 + d)) = false := by
  interval_cases d <;> decide

theorem digitChar_toNat {d : Nat} (hd : d < 10) :
    (Char.ofNat (48 + d)).toNat = 48 + d := by
  interval_cases d <;> decide

theorem natToChars_digits (n : Nat) : ∀ c ∈ natToChars n, isPyDigit c = true := by
  intro c hc
  obtain ⟨d, hd, rfl⟩ := natToCharsGo_shape n n c hc
  exact digitChar_isPyDigit hd

theorem natToChars_sepFree (n : Nat) : sepFree (natToChars n) := by
  intro c hc
  obtain ⟨d, hd, rfl⟩ := natToCharsGo_shape n n c hc
  exact digitChar_not_sep hd

theorem natToCharsGo_ne_nil (fuel n : Nat) : natToCharsGo fuel n ≠ [] := by
  cases fuel with
  | zero => simp [natToCharsGo]
  | succ fuel =>
    rw [natToCharsGo]
    by_cases hn : n < 10
    · rw [if_pos hn]
      simp
    · rw [if_neg hn]
      simp

theorem digitsToNat_append (ds : List Char) (c : Char) :
    digitsToNat (ds ++ [c]) = digitsToNat ds * 10 + (c.toNat - 48) := by
  unfold digitsToNat
  rw [List.foldl_append]
  rfl

theorem natToCharsGo_val :
    ∀ (fuel n : Nat), n ≤ fuel → digitsToNat (natToCharsGo fuel n) = n := by
  intro fuel
  induction fuel with
  | zero =>
    intro n hn
    have : n = 0 := by omega
    subst this
    decide
  | succ fuel ih =>
    intro n hn
    rw [natToCharsGo]
    by_cases h10 : n < 10
    · rw [if_pos h10]
      show digitsToNat ([] ++ [Char.ofNat (48 + n)]) = n
      rw [digitsToNat_append, digitChar_toNat h10]
      simp [digitsToNat]
    · rw [if_neg h10]
      rw [digitsToNat_append, digitChar_toNat (by omega)]
      rw [ih (n / 10) (by omega)]
      omega

theorem digitsToNat_natToChars (n : Nat) : digitsToNat (natToChars n) = n :=
  natToCharsGo_val n n (le_refl n)

theorem takeDigits_all :
    ∀ (ds : List Char), (∀ c ∈ ds, isPyDigit c = true) →
    ∀ {c : Char}, isPyDigit c = false → ∀ (r : List Char),
    takeDigits (ds ++ c :: r) = (ds, c :: r) := by
  intro ds
  induction ds with
  | nil =>
    intro _ c hc r
    rw [List.nil_append, takeDigits, if_neg (by simp [hc])]
  | cons d ds2 ih =>
    intro hall c hc r
    rw [List.cons_append, takeDigits,
      if_pos (by simp [hall d (List.mem_cons_self _ _)])]
    rw [ih (fun x hx => hall x (List.mem_cons_of_mem _ hx)) hc r]

theorem natToChars_ne_nil (n : Nat) : natToChars n ≠ [] :=
  natToCharsGo_ne_nil n n

theorem parseHunkNum_format (s e : Nat) (r : List Char) :
    parseHunkNum (formatRangeUnified s e ++ ' ' :: r) =
      some ((if e - s = 0 then s else s + 1,
        if e - s = 1 then none else some (e - s)), ' ' :: r) := by
  unfold formatRangeUnified
  by_cases h1 : e - s = 1
  · rw [if_pos h1]
    have ht := takeDigits_all _ (natToChars_digits (s + 1))
      (show isPyDigit ' ' = false by decide) r
    have hoc : parseOptCount (' ' :: r) = (none, ' ' :: r) := by
      rw [parseOptCount, if_neg (by decide)]
    simp only [parseHunkNum, ht, hoc]
    rw [if_neg (natToChars_ne_nil _), digitsToNat_natToChars]
    rw [if_neg (by omega), if_pos h1]
  · rw [if_neg h1]
    have hassoc : (natToChars (if e - s = 0 then s + 1 - 1 else s + 1) ++
        ',' :: natToChars (e - s)) ++ ' ' :: r =
      natToChars (if e - s = 0 then s + 1 - 1 else s + 1) ++
        ',' :: (natToChars (e - s) ++ ' ' :: r) := by simp
    rw [hassoc]
    have ht := takeDigits_all (natToChars (if e - s = 0 then s + 1 - 1 else s + 1))
      (natToChars_digits (if e - s = 0 then s + 1 - 1 else s + 1))
      (show isPyDigit ',' = false by decide) (natToChars (e - s) ++ ' ' :: r)
    have hoc : parseOptCount (',' :: (natToChars (e - s) ++ ' ' :: r)) =
        (some (e - s), ' ' :: r) := by
      rw [parseOptCount, if_pos rfl]
      have ht2 := takeDigits_all _ (natToChars_digits (e - s))
        (show isPyDigit ' ' = false by decide) r
      simp only [ht2]
      rw [if_neg (natToChars_ne_nil _), digitsToNat_natToChars]
    simp only [parseHunkNum, ht, hoc]
    rw [if_neg (natToChars_ne_nil _), digitsToNat_natToChars]
    by_cases h0 : e - s = 0
    · rw [if_pos h0, if_pos h0, if_neg h1, show s + 1 - 1 = s by omega]
    · rw [if_neg h0, if_neg h0, if_neg h1]

theorem matchUnifiedHunk_render (s1 e1 s2 e2 : Nat) :
    matchUnifiedHunk (toL "@@ -" ++ formatRangeUnified s1 e1 ++
      toL " +" ++ formatRangeUnified s2 e2 ++ toL " @@") =
      some (if e1 - s1 = 0 then s1 else s1 + 1,
        (if e1 - s1 = 1 then none else some (e1 - s1)),
        (if e2 - s2 = 0 then s2 else s2 + 1),
        (if e2 - s2 = 1 then none else some (e2 - s2))) := by
  have hshape : toL "@@ -" ++ formatRangeUnified s1 e1 ++
      toL " +" ++ formatRangeUnified s2 e2 ++ toL " @@" =
      '@' :: '@' :: ' ' :: '-' :: (formatRangeUnified s1 e1 ++
        ' ' :: ('+' :: (formatRangeUnified s2 e2 ++ ' ' :: ['@', '@']))) := by
    rw [show toL "@@ -" = ['@', '@', ' ', '-'] from rfl,
      show toL " +" = [' ', '+'] from rfl,
      show toL " @@" = [' ', '@', '@'] from rfl]
    simp
  rw [hshape]
  have h1 := parseHunkNum_format s1 e1
    ('+' :: (formatRangeUnified s2 e2 ++ ' ' :: ['@', '@']))
  have h2 := parseHunkNum_format s2 e2 ['@', '@']
  simp only [matchUnifiedHunk, h1, h2]
  simp [isPySpace]

end HeaderRender


/-! The `apply_diff` simulation: stepping the hunk loop over the rendered
lines of a generated diff. -/

section ApplySim

theorem copyUntilGo_ok (src : List (List Char)) :
    ∀ (n ci : Nat) (dst : List (List Char)), ci + n ≤ src.length →
    copyUntilGo src n dst ci = .ok (dst ++ (src.drop ci).take n, ci + n) := by
  intro n
  induction n with
  | zero =>
    intro ci dst h
    simp [copyUntilGo]
  | succ n ih =>
    intro ci dst h
    have hget : src.get? ci = some (src.get ⟨ci, by omega⟩) := List.get?_eq_get (by omega)
    simp only [copyUntilGo, hget]
    rw [ih (ci + 1) (dst ++ [src.get ⟨ci, by omega⟩]) (by omega)]
    rw [show src.drop ci = src.get ⟨ci, by omega⟩ :: src.drop (ci + 1) from
      List.drop_eq_get_cons (by omega)]
    rw [List.take_succ_cons]
    rw [List.append_assoc]
    rw [show ci + 1 + n = ci + (n + 1) by omega]
    rfl

theorem copyUntil_ok (src dst : List (List Char)) (si ci : Nat)
    (hci : ci ≤ si) (hsi : si ≤ src.length) :
    copyUntil src dst (si : Int) ci = .ok (dst ++ (src.drop ci).take (si - ci), si) := by
  unfold copyUntil
  rw [show ((si : Int) - ci).toNat = si - ci by omega]
  rw [copyUntilGo_ok src (si - ci) ci dst (by omega)]
  rw [show ci + (si - ci) = si by omega]

theorem copyUntil_noop (src dst : List (List Char)) (s : Int) (ci : Nat)
    (h : s ≤ ci) :
    copyUntil src dst s ci = .ok (dst, ci) := by
  unfold copyUntil
  rw [show (s - ci).toNat = 0 by omega]
  rfl

theorem matchAt_take {α : Type} {a b : List α} {i j k : Nat}
    (h : MatchAt a b i j k) :
    (a.drop i).take k = (b.drop j).take k := by
  apply List.ext_get?
  intro m
  by_cases hm : m < k
  · obtain ⟨x, h1, h2⟩ := h m hm
    rw [List.get?_take hm, List.get?_take hm, List.get?_drop, List.get?_drop, h1, h2]
  · rw [List.get?_eq_none.mpr (by
        have := List.length_take k (a.drop i)
        omega),
      List.get?_eq_none.mpr (by
        have := List.length_take k (b.drop j)
        omega)]

theorem take_succ_of_get? {α : Type} {l : List α} {j : Nat} {x : α}
    (h : l.get? j = some x) :
    l.take (j + 1) = l.take j ++ [x] := by
  rw [List.take_succ]
  rw [show l[j]? = some x from by rw [← List.get?_eq_getElem?]; exact h]
  rfl

theorem startsHunkMarker_cons {c : Char} (hc : c ≠ '@') (q : List Char) :
    startsHunkMarker (c :: q) = false := by
  unfold startsHunkMarker
  cases q <;> simp [hc]

theorem applyBody_context_step (origLines : List (List Char)) (q : List Char)
    (rest : List (List Char)) (oi : Nat) (p : List (List Char))
    (h : oi < origLines.length) :
    applyBody origLines ((' ' :: q) :: rest) oi p =
      applyBody origLines rest (oi + 1) (p ++ [origLines.get ⟨oi, h⟩]) := by
  rw [applyBody]
  rw [startsHunkMarker_cons (by decide) q]
  rw [if_neg (by simp), if_neg (by simp),
    if_pos (show (' ' :: q).head? = some ' ' from rfl), dif_pos h]

theorem applyBody_removal_step (origLines : List (List Char)) (q : List Char)
    (rest : List (List Char)) (oi : Nat) (p : List (List Char)) :
    applyBody origLines (('-' :: q) :: rest) oi p =
      applyBody origLines rest (oi + 1) p := by
  rw [applyBody]
  rw [startsHunkMarker_cons (by decide) q]
  rw [if_neg (by simp), if_neg (by simp), if_neg (by simp),
    if_pos (show ('-' :: q).head? = some '-' from rfl)]

theorem applyBody_addition_step (origLines : List (List Char)) (q : List Char)
    (hq : sepFree q) (rest : List (List Char)) (oi : Nat) (p : List (List Char)) :
    applyBody origLines (('+' :: q) :: rest) oi p =
      applyBody origLines rest oi (p ++ [q ++ ['\n']]) := by
  have hend : pyEndsWith ('+' :: q) ['\n'] = false := by
    rw [Bool.eq_false_iff]
    intro hc
    obtain ⟨w, hw⟩ := (pyEndsWith_iff _ _).mp hc
    have hlast : ('+' :: q).getLast? = some '\n' := by
      rw [hw, List.getLast?_concat]
    have hmem := List.mem_of_mem_getLast? hlast
    rcases List.mem_cons.mp hmem with hh | hh
    · exact absurd hh (by decide)
    · have := hq '\n' hh
      simp [isLineSep] at this
  rw [applyBody]
  rw [startsHunkMarker_cons (by decide) q]
  rw [if_neg (by simp), if_neg (by simp), if_neg (by simp), if_neg (by simp),
    if_pos (show ('+' :: q).head? = some '+' from rfl)]
  rw [hend]
  rfl

theorem applyBody_spacer_step (origLines : List (List Char))
    (rest : List (List Char)) (oi : Nat) (p : List (List Char)) :
    applyBody origLines ([] :: rest) oi p = applyBody origLines rest oi p := by
  rw [applyBody]
  rw [show startsHunkMarker [] = false from rfl]
  rw [if_neg (by simp), if_pos rfl]

theorem applyBody_header_step (origLines : List (List Char)) (line : List Char)
    (rest : List (List Char)) (oi : Nat) (p : List (List Char))
    (os : Nat) (oc : Option Nat) (ms : Nat) (mc : Option Nat)
    (hsm : startsHunkMarker line = true)
    (hmm : matchUnifiedHunk line = some (os, oc, ms, mc))
    {p1 : List (List Char)} {oi1 : Nat}
    (hcopy : copyUntil origLines p ((os : Int) - 1) oi = .ok (p1, oi1)) :
    applyBody origLines (line :: rest) oi p = applyBody origLines rest oi1 p1 := by
  rw [applyBody]
  rw [if_pos hsm]
  simp only [hmm, hcopy]

theorem sepFree_marker_cons {m : Char} (hm : isLineSep m = false) {q : List Char}
    (hq : sepFree q) : sepFree (m :: q) := by
  intro x hx
  rcases List.mem_cons.mp hx with rfl | hx2
  · exact hm
  · exact hq x hx2

theorem lineChunks_marker (m : Char) (hm : isLineSep m = false) {l : List Char}
    (hl : LineShape l) :
    ∃ q spacer, lineChunks (m :: l) = (m :: q) :: spacer ∧ sepFree q ∧
      (spacer = [] ∨ spacer = [[]]) := by
  obtain ⟨q, hq, hcase⟩ := hl
  have hw : sepFree (m :: q) := sepFree_marker_cons hm hq
  rcases hcase with rfl | ⟨t, ht, htr, rfl⟩ | rfl | rfl
  · exact ⟨l, [], lineChunks_plain hw, hq, Or.inl rfl⟩
  · refine ⟨q, [[]], ?_, hq, Or.inr rfl⟩
    rw [show m :: (q ++ [t]) = (m :: q) ++ [t] from rfl]
    rw [lineChunks_sep hw ht htr]
  · refine ⟨q, [], ?_, hq, Or.inl rfl⟩
    rw [show m :: (q ++ ['\r']) = (m :: q) ++ ['\r'] from rfl]
    rw [lineChunks_cr hw]
  · refine ⟨q, [[]], ?_, hq, Or.inr rfl⟩
    rw [show m :: (q ++ ['\r', '\n']) = (m :: q) ++ ['\r', '\n'] from rfl]
    rw [lineChunks_crlf hw]

theorem applyBody_context_line (origLines : List (List Char)) {l : List Char}
    (hl : LineShape l) (rest : List (List Char)) (oi : Nat) (p : List (List Char))
    (h : oi < origLines.length) :
    applyBody origLines (lineChunks (' ' :: l) ++ rest) oi p =
      applyBody origLines rest (oi + 1) (p ++ [origLines.get ⟨oi, h⟩]) := by
  obtain ⟨q, spacer, hchunks, hq, hsp⟩ := lineChunks_marker ' ' (by decide) hl
  rw [hchunks]
  rcases hsp with rfl | rfl
  · exact applyBody_context_step origLines q rest oi p h
  · rw [show ((' ' :: q) :: [([] : List Char)]) ++ rest =
      (' ' :: q) :: ([] :: rest) from rfl]
    rw [applyBody_context_step origLines q ([] :: rest) oi p h]
    exact applyBody_spacer_step origLines rest (oi + 1) _

theorem applyBody_removal_line (origLines : List (List Char)) {l : List Char}
    (hl : LineShape l) (rest : List (List Char)) (oi : Nat) (p : List (List Char)) :
    applyBody origLines (lineChunks ('-' :: l) ++ rest) oi p =
      applyBody origLines rest (oi + 1) p := by
  obtain ⟨q, spacer, hchunks, hq, hsp⟩ := lineChunks_marker '-' (by decide) hl
  rw [hchunks]
  rcases hsp with rfl | rfl
  · exact applyBody_removal_step origLines q rest oi p
  · rw [show (('-' :: q) :: [([] : List Char)]) ++ rest =
      ('-' :: q) :: ([] :: rest) from rfl]
    rw [applyBody_removal_step origLines q ([] :: rest) oi p]
    exact applyBody_spacer_step origLines rest (oi + 1) _

theorem applyBody_addition_line (origLines : List (List Char)) {l q : List Char}
    (hq : sepFree q) (hl : l = q ++ ['\n'])
    (rest : List (List Char)) (oi : Nat) (p : List (List Char)) :
    applyBody origLines (lineChunks ('+' :: l) ++ rest) oi p =
      applyBody origLines rest oi (p ++ [l]) := by
  subst hl
  rw [show '+' :: (q ++ ['\n']) = ('+' :: q) ++ ['\n'] from rfl]
  rw [lineChunks_sep (sepFree_marker_cons (by decide) hq) (by decide) (by decide)]
  rw [show (('+' :: q) :: [([] : List Char)]) ++ rest =
    ('+' :: q) :: ([] :: rest) from rfl]
  rw [applyBody_addition_step origLines q hq ([] :: rest) oi p]
  exact applyBody_spacer_step origLines rest oi _

theorem applyBody_context_run (A B : List (List Char))
    (LA : ∀ l ∈ A, LineShape l) :
    ∀ (k i j : Nat) (R : List (List Char)),
    MatchAt A B i j k → i + k ≤ A.length → j + k ≤ B.length →
    applyBody A ((((A.drop i).take k).map (fun l => ' ' :: l)).flatMap lineChunks ++ R)
      i (B.take j) =
      applyBody A R (i + k) (B.take (j + k)) := by
  intro k
  induction k with
  | zero =>
    intro i j R _ _ _
    rfl
  | succ k ih =>
    intro i j R hm hia hjb
    have hiA : i < A.length := by omega
    rw [show A.drop i = A.get ⟨i, hiA⟩ :: A.drop (i + 1) from List.drop_eq_get_cons hiA]
    rw [List.take_succ_cons, List.map_cons, List.flatMap_cons, List.append_assoc]
    rw [applyBody_context_line A (LA _ (List.get_mem A i hiA)) _ i (B.take j) hiA]
    obtain ⟨x, hx1, hx2⟩ := hm 0 (by omega)
    rw [show i + 0 = i by omega] at hx1
    rw [show j + 0 = j by omega] at hx2
    have hgetx : A.get ⟨i, hiA⟩ = x := by
      have hg := List.get?_eq_get hiA
      rw [hx1] at hg
      injection hg with hg
      exact hg.symm
    rw [hgetx]
    rw [show B.take j ++ [x] = B.take (j + 1) from (take_succ_of_get? hx2).symm]
    rw [ih (i + 1) (j + 1) R (by
        have := matchAt_sub hm 1 k (by omega)
        simpa using this) (by omega) (by omega)]
    rw [show i + 1 + k = i + (k + 1) by omega, show j + 1 + k = j + (k + 1) by omega]

theorem applyBody_removal_run (A : List (List Char))
    (LA : ∀ l ∈ A, LineShape l) :
    ∀ (k i : Nat) (R : List (List Char)) (p : List (List Char)),
    i + k ≤ A.length →
    applyBody A ((((A.drop i).take k).map (fun l => '-' :: l)).flatMap lineChunks ++ R)
      i p = applyBody A R (i + k) p := by
  intro k
  induction k with
  | zero =>
    intro i R p _
    rfl
  | succ k ih =>
    intro i R p hia
    have hiA : i < A.length := by omega
    rw [show A.drop i = A.get ⟨i, hiA⟩ :: A.drop (i + 1) from List.drop_eq_get_cons hiA]
    rw [List.take_succ_cons, List.map_cons, List.flatMap_cons, List.append_assoc]
    rw [applyBody_removal_line A (LA _ (List.get_mem A i hiA)) _ i p]
    rw [ih (i + 1) R p (by omega)]
    rw [show i + 1 + k = i + (k + 1) by omega]

theorem applyBody_addition_run (A B : List (List Char))
    (LB : ∀ l ∈ B, ∃ q, sepFree q ∧ l = q ++ ['\n']) :
    ∀ (k j : Nat) (R : List (List Char)) (i : Nat),
    j + k ≤ B.length →
    applyBody A ((((B.drop j).take k).map (fun l => '+' :: l)).flatMap lineChunks ++ R)
      i (B.take j) = applyBody A R i (B.take (j + k)) := by
  intro k
  induction k with
  | zero =>
    intro j R i _
    rfl
  | succ k ih =>
    intro j R i hjb
    have hjB : j < B.length := by omega
    rw [show B.drop j = B.get ⟨j, hjB⟩ :: B.drop (j + 1) from List.drop_eq_get_cons hjB]
    rw [List.take_succ_cons, List.map_cons, List.flatMap_cons, List.append_assoc]
    obtain ⟨q, hq, hbq⟩ := LB _ (List.get_mem B j hjB)
    rw [applyBody_addition_line A hq hbq _ i (B.take j)]
    rw [show B.take j ++ [B.get ⟨j, hjB⟩] = B.take (j + 1) from
      (take_succ_of_get? (List.get?_eq_get hjB)).symm]
    rw [ih (j + 1) R i (by omega)]
    rw [show j + 1 + k = j + (k + 1) by omega]

theorem applyBody_ops (A B : List (List Char))
    (LA : ∀ l ∈ A, LineShape l)
    (LB : ∀ l ∈ B, ∃ q, sepFree q ∧ l = q ++ ['\n']) :
    ∀ (ops : List Opcode) (i j ei ej : Nat) (R : List (List Char)),
    OpsSeg A B i j ei ej ops →
    applyBody A (((ops.map (renderOpcode A B)).flatten).flatMap lineChunks ++ R)
      i (B.take j) = applyBody A R ei (B.take ej) := by
  intro ops
  induction ops with
  | nil =>
    intro i j ei ej R h
    obtain ⟨rfl, rfl⟩ := h
    rfl
  | cons o t ih =>
    intro i j ei ej R h
    obtain ⟨ho1, ho2, ho3, ho4, ho5, ho6, hoeq, hodel, hoins, hrest⟩ := h
    subst ho1
    subst ho2
    rw [List.map_cons, List.flatten_cons, List.flatMap_append, List.append_assoc]
    have hstep : applyBody A ((renderOpcode A B o).flatMap lineChunks ++
        (((t.map (renderOpcode A B)).flatten).flatMap lineChunks ++ R))
        o.i1 (B.take o.j1) =
        applyBody A (((t.map (renderOpcode A B)).flatten).flatMap lineChunks ++ R)
          o.i2 (B.take o.j2) := by
      rcases htag : o.tag with _ | _ | _ | _
      · -- replace
        rw [show renderOpcode A B o =
          ((A.drop o.i1).take (o.i2 - o.i1)).map (fun l => '-' :: l) ++
            ((B.drop o.j1).take (o.j2 - o.j1)).map (fun l => '+' :: l) from by
          unfold renderOpcode
          rw [htag]]
        rw [List.flatMap_append, List.append_assoc]
        rw [applyBody_removal_run A LA (o.i2 - o.i1) o.i1 _ _ (by omega)]
        rw [applyBody_addition_run A B LB (o.j2 - o.j1) o.j1 _ _ (by omega)]
        rw [show o.i1 + (o.i2 - o.i1) = o.i2 by omega,
          show o.j1 + (o.j2 - o.j1) = o.j2 by omega]
      · -- delete
        rw [show renderOpcode A B o =
          ((A.drop o.i1).take (o.i2 - o.i1)).map (fun l => '-' :: l) from by
          unfold renderOpcode
          rw [htag]]
        rw [applyBody_removal_run A LA (o.i2 - o.i1) o.i1 _ _ (by omega)]
        rw [show o.i1 + (o.i2 - o.i1) = o.i2 by omega, hodel htag]
      · -- insert
        rw [show renderOpcode A B o =
          ((B.drop o.j1).take (o.j2 - o.j1)).map (fun l => '+' :: l) from by
          unfold renderOpcode
          rw [htag]]
        rw [applyBody_addition_run A B LB (o.j2 - o.j1) o.j1 _ _ (by omega)]
        rw [show o.j1 + (o.j2 - o.j1) = o.j2 by omega, hoins htag]
      · -- equal
        obtain ⟨hww, hmm⟩ := hoeq htag
        rw [show renderOpcode A B o =
          ((A.drop o.i1).take (o.i2 - o.i1)).map (fun l => ' ' :: l) from by
          unfold renderOpcode
          rw [htag]]
        rw [applyBody_context_run A B LA (o.i2 - o.i1) o.i1 o.j1 _ hmm (by omega)
          (by omega)]
        rw [show o.i1 + (o.i2 - o.i1) = o.i2 by omega,
          show o.j1 + (o.i2 - o.i1) = o.j2 by omega]
    rw [hstep]
    exact ih o.i2 o.j2 ei ej R hrest

theorem opsSeg_ends (A B : List (List Char)) :
    ∀ (g : List Opcode) {i j e1 e2 : Nat}, OpsSeg A B i j e1 e2 g → g ≠ [] →
    (g.head?.getD ⟨.equal, 0, 0, 0, 0⟩).i1 = i ∧
    (g.head?.getD ⟨.equal, 0, 0, 0, 0⟩).j1 = j ∧
    (g.getLast?.getD ⟨.equal, 0, 0, 0, 0⟩).i2 = e1 ∧
    (g.getLast?.getD ⟨.equal, 0, 0, 0, 0⟩).j2 = e2 ∧
    e1 ≤ A.length ∧ e2 ≤ B.length := by
  intro g
  induction g with
  | nil =>
    intro i j e1 e2 _ hne
    exact absurd rfl hne
  | cons o t ih =>
    intro i j e1 e2 h _
    obtain ⟨ho1, ho2, ho3, ho4, ho5, ho6, hoeq, hodel, hoins, hrest⟩ := h
    cases t with
    | nil =>
      obtain ⟨he1, he2⟩ := hrest
      exact ⟨ho1, ho2, he1, he2, by omega, by omega⟩
    | cons o2 t2 =>
      obtain ⟨_, _, hl1, hl2, hb1, hb2⟩ := ih hrest (by simp)
      refine ⟨ho1, ho2, ?_, ?_, hb1, hb2⟩
      · rw [List.getLast?_cons_cons]
        exact hl1
      · rw [List.getLast?_cons_cons]
        exact hl2

theorem sepFree_append {x y : List Char} (hx : sepFree x) (hy : sepFree y) :
    sepFree (x ++ y) := by
  intro c hc
  rcases List.mem_append.mp hc with h | h
  · exact hx c h
  · exact hy c h

theorem formatRangeUnified_sepFree (s e : Nat) :
    sepFree (formatRangeUnified s e) := by
  unfold formatRangeUnified
  by_cases h1 : e - s = 1
  · rw [if_pos h1]
    exact natToChars_sepFree _
  · rw [if_neg h1]
    refine sepFree_append (natToChars_sepFree _) ?_
    intro c hc
    rcases List.mem_cons.mp hc with rfl | h
    · decide
    · exact natToChars_sepFree _ c h

theorem renderGroup_header_sepFree (s1 e1 s2 e2 : Nat) :
    sepFree (toL "@@ -" ++ formatRangeUnified s1 e1 ++
      toL " +" ++ formatRangeUnified s2 e2 ++ toL " @@") := by
  refine sepFree_append (sepFree_append (sepFree_append (sepFree_append ?_
    (formatRangeUnified_sepFree s1 e1)) ?_) (formatRangeUnified_sepFree s2 e2)) ?_
  · intro c hc
    rw [show toL "@@ -" = ['@', '@', ' ', '-'] from rfl] at hc
    fin_cases hc <;> decide
  · intro c hc
    rw [show toL " +" = [' ', '+'] from rfl] at hc
    fin_cases hc <;> decide
  · intro c hc
    rw [show toL " @@" = [' ', '@', '@'] from rfl] at hc
    fin_cases hc <;> decide

theorem applyBody_groups (A B : List (List Char))
    (LA : ∀ l ∈ A, LineShape l)
    (LB : ∀ l ∈ B, ∃ q, sepFree q ∧ l = q ++ ['\n']) :
    ∀ (gs : List (List Opcode)) (ci cj : Nat),
    GroupsOK A B ci cj gs →
    applyBody A (((gs.map (renderGroup A B)).flatten).flatMap lineChunks)
      ci (B.take cj) = .ok B := by
  intro gs
  induction gs with
  | nil =>
    intro ci cj h
    obtain ⟨hca, hcb, hw, hm⟩ := h
    show Except.ok (B.take cj ++ A.drop ci) = Except.ok B
    have hdrop : A.drop ci = B.drop cj := by
      have htake := matchAt_take hm
      rw [List.take_of_length_le (by rw [List.length_drop])] at htake
      rw [List.take_of_length_le (by rw [List.length_drop]; omega)] at htake
      exact htake
    rw [hdrop, List.take_append_drop]
  | cons g gs2 ih =>
    intro ci cj h
    obtain ⟨si, sj, ei, ej, hci, hcj, hw, hpre, hgne, hseg, hinv, hrest⟩ := h
    obtain ⟨hh1, hh2, hh3, hh4, hb1, hb2⟩ := opsSeg_ends A B g hseg hgne
    have hsiei := opsSeg_le g hseg
    rw [List.map_cons, List.flatten_cons, List.flatMap_append]
    rw [show renderGroup A B g =
      (toL "@@ -" ++ formatRangeUnified (g.head?.getD ⟨.equal, 0, 0, 0, 0⟩).i1
          (g.getLast?.getD ⟨.equal, 0, 0, 0, 0⟩).i2 ++
        toL " +" ++ formatRangeUnified (g.head?.getD ⟨.equal, 0, 0, 0, 0⟩).j1
          (g.getLast?.getD ⟨.equal, 0, 0, 0, 0⟩).j2 ++ toL " @@") ::
        (g.map (renderOpcode A B)).flatten from rfl]
    rw [hh1, hh2, hh3, hh4]
    rw [List.flatMap_cons]
    rw [lineChunks_plain (renderGroup_header_sepFree si ei sj ej)]
    rw [show (([toL "@@ -" ++ formatRangeUnified si ei ++
        toL " +" ++ formatRangeUnified sj ej ++ toL " @@"] ++
        ((g.map (renderOpcode A B)).flatten).flatMap lineChunks) ++
        ((gs2.map (renderGroup A B)).flatten).flatMap lineChunks) =
      (toL "@@ -" ++ formatRangeUnified si ei ++
        toL " +" ++ formatRangeUnified sj ej ++ toL " @@") ::
        (((g.map (renderOpcode A B)).flatten).flatMap lineChunks ++
        ((gs2.map (renderGroup A B)).flatten).flatMap lineChunks) from by simp]
    have hsm : startsHunkMarker (toL "@@ -" ++ formatRangeUnified si ei ++
        toL " +" ++ formatRangeUnified sj ej ++ toL " @@") = true := rfl
    have hmm := matchUnifiedHunk_render si ei sj ej
    by_cases hz : ei - si = 0
    · have hsieq : si = ei := by omega
      have hcieq : ci = si := hinv hsieq
      rw [if_pos hz] at hmm
      have hcopy : copyUntil A (B.take cj) ((si : Int) - 1) ci =
          .ok (B.take cj, ci) := copyUntil_noop A _ _ ci (by omega)
      rw [applyBody_header_step A _ _ ci (B.take cj) si _ _ _ hsm hmm hcopy]
      have hcjsj : cj = sj := by omega
      rw [show (B.take cj) = B.take sj from by rw [hcjsj]]
      rw [show ci = si from hcieq]
      rw [applyBody_ops A B LA LB g si sj ei ej _ hseg]
      exact ih ei ej hrest
    · rw [if_neg hz] at hmm
      have hcopy : copyUntil A (B.take cj) (((si + 1 : Nat) : Int) - 1) ci =
          .ok (B.take sj, si) := by
        rw [show (((si + 1 : Nat) : Int) - 1) = ((si : Nat) : Int) by omega]
        rw [copyUntil_ok A _ si ci hci (by omega)]
        rw [matchAt_take hpre]
        rw [show B.take cj ++ (B.drop cj).take (si - ci) = B.take (cj + (si - ci)) from
          (List.take_add B cj (si - ci)).symm]
        rw [show cj + (si - ci) = sj by omega]
      rw [applyBody_header_step A _ _ ci (B.take cj) (si + 1) _ _ _ hsm hmm hcopy]
      rw [applyBody_ops A B LA LB g si sj ei ej _ hseg]
      exact ih ei ej hrest

theorem intercalate_newline_chunksOf :
    ∀ (L : List (List Char)), L ≠ [] →
    List.intercalate ['\n'] L ++ ['\n'] = chunksOf L := by
  intro L
  induction L with
  | nil =>
    intro h
    exact absurd rfl h
  | cons x t ih =>
    intro _
    cases t with
    | nil =>
      rw [show List.intercalate ['\n'] [x] = x from by simp [List.intercalate]]
      simp [chunksOf]
    | cons y t2 =>
      rw [intercalate_newline_cons_cons, ih (by simp)]
      simp [chunksOf]

theorem applyDiff_eq_of_dropWhile (A diff : List Char) (line : List Char)
    (rest : List (List Char))
    (hdw : (pySplitlinesStrip diff).dropWhile isFileHeaderLine = line :: rest)
    (hsm : startsHunkMarker line = true) :
    applyDiff A diff =
      (applyBody (pySplitlines A) (line :: rest) 0 []).map List.flatten := by
  unfold applyDiff
  rw [hdw]
  show (if startsHunkMarker line = true then
      Except.map List.flatten (applyBody (pySplitlines A) (line :: rest) 0 [])
    else Except.error PatchErr.unexpectedContent) = _
  rw [if_pos hsm]

/-! Claim C1: the round trip `apply_diff(A, generate_diff(A, B)) = B`. -/

/-- C1 (corrected): the round trip holds whenever the two texts differ and
every line of `B` is terminated by exactly `\n` (no final unterminated
line, no `\r\n`); the unconditional claim fails on equal inputs, see
`applyDiff_generateDiff_self_fails`. -/
theorem applyDiff_generateDiff (A B : List Char) (hne : A ≠ B)
    (hB : lfTerminatedB B = true) :
    applyDiff A (generateDiff A B) = .ok B := by
  have hlne : pySplitlines A ≠ pySplitlines B :=
    fun h => hne (pySplitlines_injective h)
  have hgne := getGroupedOpcodes_ne_nil hlne
  have hgroups := getGroupedOpcodes_ok (pySplitlines A) (pySplitlines B)
  have hor : pySplitlines A ≠ [] ∨ pySplitlines B ≠ [] := by
    by_contra hq
    push_neg at hq
    exact hlne (hq.1.trans hq.2.symm)
  have hudl : unifiedDiffLines (pySplitlines A) (pySplitlines B) =
      toL "--- original" :: toL "+++ modified" ::
        ((getGroupedOpcodes (pySplitlines A) (pySplitlines B) 3).map
          (renderGroup (pySplitlines A) (pySplitlines B))).flatten := by
    show (if getGroupedOpcodes (pySplitlines A) (pySplitlines B) 3 = [] then []
      else toL "--- original" :: toL "+++ modified" ::
        ((getGroupedOpcodes (pySplitlines A) (pySplitlines B) 3).map
          (renderGroup (pySplitlines A) (pySplitlines B))).flatten) = _
    rw [if_neg hgne]
  have hdiff : generateDiff A B = chunksOf (toL "--- original" ::
      toL "+++ modified" ::
      ((getGroupedOpcodes (pySplitlines A) (pySplitlines B) 3).map
        (renderGroup (pySplitlines A) (pySplitlines B))).flatten) := by
    rw [show generateDiff A B =
      List.intercalate ['\n'] (unifiedDiffLines (pySplitlines A) (pySplitlines B)) ++
        (if pySplitlines A ≠ [] ∨ pySplitlines B ≠ [] then ['\n'] else []) from rfl]
    rw [if_pos hor, hudl]
    exact intercalate_newline_chunksOf _ (by simp)
  obtain ⟨g, gs2, hgs⟩ :=
    List.exists_cons_of_ne_nil hgne
  have hstrip : pySplitlinesStrip (generateDiff A B) =
      toL "--- original" :: toL "+++ modified" ::
      ((toL "@@ -" ++
          formatRangeUnified ((g.head?.getD ⟨.equal, 0, 0, 0, 0⟩).i1)
            ((g.getLast?.getD ⟨.equal, 0, 0, 0, 0⟩).i2) ++
          toL " +" ++
          formatRangeUnified ((g.head?.getD ⟨.equal, 0, 0, 0, 0⟩).j1)
            ((g.getLast?.getD ⟨.equal, 0, 0, 0, 0⟩).j2) ++ toL " @@") ::
        ((g.map (renderOpcode (pySplitlines A) (pySplitlines B))).flatten.flatMap
            lineChunks ++
          ((gs2.map (renderGroup (pySplitlines A) (pySplitlines B))).flatten).flatMap
            lineChunks)) := by
    rw [hdiff, strip_chunksOf, List.flatMap_cons, List.flatMap_cons]
    rw [lineChunks_plain (show ∀ ch ∈ toL "--- original", isLineSep ch = false
      from by decide)]
    rw [lineChunks_plain (show ∀ ch ∈ toL "+++ modified", isLineSep ch = false
      from by decide)]
    rw [hgs, List.map_cons, List.flatten_cons, List.flatMap_append]
    rw [show renderGroup (pySplitlines A) (pySplitlines B) g =
      (toL "@@ -" ++
          formatRangeUnified ((g.head?.getD ⟨.equal, 0, 0, 0, 0⟩).i1)
            ((g.getLast?.getD ⟨.equal, 0, 0, 0, 0⟩).i2) ++
          toL " +" ++
          formatRangeUnified ((g.head?.getD ⟨.equal, 0, 0, 0, 0⟩).j1)
            ((g.getLast?.getD ⟨.equal, 0, 0, 0, 0⟩).j2) ++ toL " @@") ::
        (g.map (renderOpcode (pySplitlines A) (pySplitlines B))).flatten from rfl]
    rw [List.flatMap_cons]
    rw [lineChunks_plain (renderGroup_header_sepFree _ _ _ _)]
    simp

  have hdw : (pySplitlinesStrip (generateDiff A B)).dropWhile isFileHeaderLine =
      (toL "@@ -" ++
          formatRangeUnified ((g.head?.getD ⟨.equal, 0, 0, 0, 0⟩).i1)
            ((g.getLast?.getD ⟨.equal, 0, 0, 0, 0⟩).i2) ++
          toL " +" ++
          formatRangeUnified ((g.head?.getD ⟨.equal, 0, 0, 0, 0⟩).j1)
            ((g.getLast?.getD ⟨.equal, 0, 0, 0, 0⟩).j2) ++ toL " @@") ::
        ((g.map (renderOpcode (pySplitlines A) (pySplitlines B))).flatten.flatMap
            lineChunks ++
          ((gs2.map (renderGroup (pySplitlines A) (pySplitlines B))).flatten).flatMap
            lineChunks) := by
    rw [hstrip]
    rw [List.dropWhile_cons, if_pos (show isFileHeaderLine (toL "--- original") = true
      from rfl)]
    rw [List.dropWhile_cons, if_pos (show isFileHeaderLine (toL "+++ modified") = true
      from rfl)]
    rw [List.dropWhile_cons, if_neg (by
      rw [show isFileHeaderLine (toL "@@ -" ++
          formatRangeUnified ((g.head?.getD ⟨.equal, 0, 0, 0, 0⟩).i1)
            ((g.getLast?.getD ⟨.equal, 0, 0, 0, 0⟩).i2) ++
          toL " +" ++
          formatRangeUnified ((g.head?.getD ⟨.equal, 0, 0, 0, 0⟩).j1)
            ((g.getLast?.getD ⟨.equal, 0, 0, 0, 0⟩).j2) ++ toL " @@") = false from rfl]
      simp)]
  rw [applyDiff_eq_of_dropWhile A (generateDiff A B) _ _ hdw rfl]
  have hback : ((toL "@@ -" ++
          formatRangeUnified ((g.head?.getD ⟨.equal, 0, 0, 0, 0⟩).i1)
            ((g.getLast?.getD ⟨.equal, 0, 0, 0, 0⟩).i2) ++
          toL " +" ++
          formatRangeUnified ((g.head?.getD ⟨.equal, 0, 0, 0, 0⟩).j1)
            ((g.getLast?.getD ⟨.equal, 0, 0, 0, 0⟩).j2) ++ toL " @@") ::
        ((g.map (renderOpcode (pySplitlines A) (pySplitlines B))).flatten.flatMap
            lineChunks ++
          ((gs2.map (renderGroup (pySplitlines A) (pySplitlines B))).flatten).flatMap
            lineChunks)) =
      (((getGroupedOpcodes (pySplitlines A) (pySplitlines B) 3).map
        (renderGroup (pySplitlines A) (pySplitlines B))).flatten).flatMap lineChunks := by
    rw [hgs, List.map_cons, List.flatten_cons, List.flatMap_append]
    rw [show renderGroup (pySplitlines A) (pySplitlines B) g =
      (toL "@@ -" ++
          formatRangeUnified ((g.head?.getD ⟨.equal, 0, 0, 0, 0⟩).i1)
            ((g.getLast?.getD ⟨.equal, 0, 0, 0, 0⟩).i2) ++
          toL " +" ++
          formatRangeUnified ((g.head?.getD ⟨.equal, 0, 0, 0, 0⟩).j1)
            ((g.getLast?.getD ⟨.equal, 0, 0, 0, 0⟩).j2) ++ toL " @@") ::
        (g.map (renderOpcode (pySplitlines A) (pySplitlines B))).flatten from rfl]
    rw [List.flatMap_cons]
    rw [lineChunks_plain (renderGroup_header_sepFree _ _ _ _)]
    simp
  rw [hback]
  rw [show ([] : List (List Char)) = (pySplitlines B).take 0 from rfl]
  rw [applyBody_groups (pySplitlines A) (pySplitlines B)
    (fun l hl => pySplitlines_shape l hl)
    (lfTerminated_line_shape hB) _ 0 0 hgroups]
  rw [show Except.map List.flatten (Except.ok (pySplitlines B)) =
    Except.ok (pySplitlines B).flatten from rfl]
  rw [pySplitlines_flatten]

/-- Closed instance of `applyDiff_generateDiff` at `A = "a\n"`,
`B = "b\n"`. -/
theorem applyDiff_generateDiff_witness :
    (toL "a\n" ≠ toL "b\n") ∧ lfTerminatedB (toL "b\n") = true ∧
    applyDiff (toL "a\n") (generateDiff (toL "a\n") (toL "b\n")) =
      .ok (toL "b\n") :=
  ⟨by decide, by decide, applyDiff_generateDiff _ _ (by decide) (by decide)⟩

/-- C1 counterexample: on equal inputs the generated diff is the single
newline `"\n"`, whose only (blank) line is not a hunk header, so
`apply_diff` raises the unexpected-content `ValueError` instead of
returning the second input. -/
theorem applyDiff_generateDiff_self_fails :
    applyDiff (toL "a\n") (generateDiff (toL "a\n") (toL "a\n")) =
      .error .unexpectedContent := by decide

end ApplySim


/-! Exact behaviour of the matcher on the self comparison `a` vs `a`: the
best match stays on the diagonal, so the widening loops stretch it to the
whole sequence and the diff of equal inputs has no hunks. -/

section SelfComparison

variable {α : Type} [DecidableEq α]

theorem b2j_bound {b : List α} {x : α} : ∀ j ∈ b2j b x, j < b.length := by
  intro j hj
  simp only [b2j] at hj
  split at hj
  · simp at hj
  · exact List.mem_range.mp (List.mem_filter.mp hj).1

theorem b2j_sorted (b : List α) (x : α) : List.Pairwise (· < ·) (b2j b x) := by
  simp only [b2j]
  split
  · exact List.Pairwise.nil
  · exact (List.pairwise_lt_range _).filter _

theorem b2j_mem_same {b : List α} {x : α} {j r : Nat} (hj : j ∈ b2j b x)
    (hr : b.get? r = some x) : r ∈ b2j b x := by
  simp only [b2j] at hj ⊢
  split at hj
  · simp at hj
  · next hcond =>
    rw [if_neg hcond]
    refine List.mem_filter.mpr ⟨?_, by simpa using hr⟩
    obtain ⟨hlt, _⟩ := List.get?_eq_some.mp hr
    exact List.mem_range.mpr hlt

theorem selfHit_elim {a : List α} {r j : Nat} (h : selfHit a r j = true) :
    ∃ x, a.get? r = some x ∧ j ∈ b2j a x := by
  unfold selfHit at h
  cases hx : a.get? r with
  | none => rw [hx] at h; simp at h
  | some x =>
    rw [hx] at h
    exact ⟨x, rfl, of_decide_eq_true h⟩

theorem selfHit_diag_col {a : List α} {r j : Nat} (h : selfHit a r j = true) :
    selfHit a j j = true := by
  obtain ⟨x, hx, hj⟩ := selfHit_elim h
  have hjx : a.get? j = some x := b2j_mem hj
  unfold selfHit
  rw [hjx]
  exact decide_eq_true hj

theorem selfHit_diag_row {a : List α} {r j : Nat} (h : selfHit a r j = true) :
    selfHit a r r = true := by
  obtain ⟨x, hx, hj⟩ := selfHit_elim h
  unfold selfHit
  rw [hx]
  exact decide_eq_true (b2j_mem_same hj hx)

theorem selfRun_le_diag_col (a : List α) :
    ∀ r j, j ≤ r → selfRun a r j ≤ selfRun a j j := by
  intro r
  induction r with
  | zero =>
    intro j hj
    have : j = 0 := by omega
    subst this
    exact le_refl _
  | succ r ih =>
    intro j hj
    by_cases hjr : j = r + 1
    · subst hjr
      exact le_refl _
    · rw [show selfRun a (r + 1) j =
        (if selfHit a (r + 1) j then (if j = 0 then 0 else selfRun a r (j - 1)) + 1
         else 0) from rfl]
      by_cases hhit : selfHit a (r + 1) j = true
      · rw [if_pos hhit]
        have hdiag := selfHit_diag_col hhit
        by_cases hj0 : j = 0
        · subst hj0
          rw [if_pos rfl]
          rw [show selfRun a 0 0 = if selfHit a 0 0 then 1 else 0 from rfl]
          rw [if_pos hdiag]
        · rw [if_neg hj0]
          have hih := ih (j - 1) (by omega)
          rw [show j = (j - 1) + 1 by omega]
          rw [show selfRun a (j - 1 + 1) (j - 1 + 1) =
            (if selfHit a (j - 1 + 1) (j - 1 + 1) then
              (if j - 1 + 1 = 0 then 0 else selfRun a (j - 1) (j - 1 + 1 - 1)) + 1
             else 0) from rfl]
          rw [if_pos (by rw [show j - 1 + 1 = j by omega]; exact hdiag)]
          rw [if_neg (by omega)]
          rw [show j - 1 + 1 - 1 = j - 1 by omega]
          omega
      · rw [if_neg hhit]
        exact Nat.zero_le _

theorem selfRun_le_diag_row (a : List α) :
    ∀ r j, r ≤ j → selfRun a r j ≤ selfRun a r r := by
  intro r
  induction r with
  | zero =>
    intro j hj
    rw [show selfRun a 0 j = (if selfHit a 0 j then 1 else 0) from rfl]
    by_cases hhit : selfHit a 0 j = true
    · rw [if_pos hhit]
      rw [show selfRun a 0 0 = (if selfHit a 0 0 then 1 else 0) from rfl]
      rw [if_pos (selfHit_diag_row hhit)]
    · rw [if_neg hhit]
      exact Nat.zero_le _
  | succ r ih =>
    intro j hj
    rw [show selfRun a (r + 1) j =
      (if selfHit a (r + 1) j then (if j = 0 then 0 else selfRun a r (j - 1)) + 1
       else 0) from rfl]
    by_cases hhit : selfHit a (r + 1) j = true
    · rw [if_pos hhit]
      have hdr := selfHit_diag_row hhit
      rw [if_neg (show ¬(j = 0) by omega)]
      have hih := ih (j - 1) (by omega)
      rw [show selfRun a (r + 1) (r + 1) =
        (if selfHit a (r + 1) (r + 1) then
          (if r + 1 = 0 then 0 else selfRun a r (r + 1 - 1)) + 1
         else 0) from rfl]
      rw [if_pos hdr, if_neg (by omega)]
      rw [show r + 1 - 1 = r by omega]
      omega
    · rw [if_neg hhit]
      exact Nat.zero_le _

theorem selfHit_iff_mem {a : List α} {i j : Nat} {x : α} (hx : a.get? i = some x) :
    selfHit a i j = true ↔ j ∈ b2j a x := by
  unfold selfHit
  rw [hx]
  simp

theorem selfHit_lt {a : List α} {r j : Nat} (h : selfHit a r j = true) : r < a.length := by
  obtain ⟨x, hx, _⟩ := selfHit_elim h
  exact (List.get?_eq_some.mp hx).1

theorem selfRun_eq_zero {a : List α} {r j : Nat} (h : selfHit a r j = false) :
    selfRun a r j = 0 := by
  cases r <;> simp [selfRun, h]

theorem selfRun_le (a : List α) : ∀ r j, selfRun a r j ≤ r + 1 := by
  intro r
  induction r with
  | zero =>
    intro j
    rw [show selfRun a 0 j = (if selfHit a 0 j then 1 else 0) from rfl]
    split <;> omega
  | succ r ih =>
    intro j
    rw [show selfRun a (r + 1) j =
      (if selfHit a (r + 1) j then (if j = 0 then 0 else selfRun a r (j - 1)) + 1
       else 0) from rfl]
    split
    · have := ih (j - 1)
      split <;> omega
    · omega

theorem flmJs_id (bhi : Nat) : ∀ l : List Nat, (∀ j ∈ l, j < bhi) → flmJs 0 bhi l = l := by
  intro l
  induction l with
  | nil => intro _; rfl
  | cons j t ih =>
    intro h
    have hj := h j (List.mem_cons_self _ _)
    rw [show flmJs 0 bhi (j :: t) =
      (if j < 0 then flmJs 0 bhi t else if bhi ≤ j then [] else j :: flmJs 0 bhi t)
      from rfl]
    rw [if_neg (by omega), if_neg (by omega),
      ih (fun y hy => h y (List.mem_cons_of_mem _ hy))]

theorem flmInner_table (prev : Nat → Nat) (i : Nat) :
    ∀ (L : List Nat) (newt : Nat → Nat) (best : Nat × Nat × Nat) (j : Nat),
    (flmInner prev i L newt best).1 j =
      if j ∈ L then (if j = 0 then 0 else prev (j - 1)) + 1 else newt j := by
  intro L
  induction L with
  | nil =>
    intro newt best j
    simp [flmInner]
  | cons j0 js ih =>
    intro newt best j
    rw [flmInner_cons, ih]
    by_cases hmem : j ∈ js
    · rw [if_pos hmem, if_pos (List.mem_cons_of_mem _ hmem)]
    · rw [if_neg hmem]
      by_cases hj0 : j = j0
      · subst hj0
        rw [if_pos rfl, if_pos (List.mem_cons_self _ _)]
      · rw [if_neg hj0, if_neg (by simp [hj0, hmem])]

theorem flmInner_best_self (a : List α) (prev : Nat → Nat) (i : Nat) :
    ∀ (L : List Nat) (newt : Nat → Nat) (best : Nat × Nat × Nat),
    List.Pairwise (· < ·) L →
    (∀ j ∈ L, selfHit a i j = true) →
    (∀ j ∈ L, (if j = 0 then 0 else prev (j - 1)) + 1 = selfRun a i j) →
    best.1 = best.2.1 →
    best.1 + best.2.2 ≤ a.length →
    (∀ r, r < i → selfHit a r r = true → selfRun a r r ≤ best.2.2) →
    (i ∈ L ∨ (selfHit a i i = true → selfRun a i i ≤ best.2.2)) →
    (flmInner prev i L newt best).2.1 = (flmInner prev i L newt best).2.2.1 ∧
      best.2.2 ≤ (flmInner prev i L newt best).2.2.2 ∧
      (flmInner prev i L newt best).2.1 + (flmInner prev i L newt best).2.2.2 ≤ a.length ∧
      (∀ r, r < i + 1 → selfHit a r r = true →
        selfRun a r r ≤ (flmInner prev i L newt best).2.2.2) := by
  intro L
  induction L with
  | nil =>
    intro newt best _ _ _ hdiag hbnd hdom hdisj
    refine ⟨hdiag, le_refl _, hbnd, ?_⟩
    intro r hr hhit
    rcases Nat.lt_or_ge r i with h | h
    · exact hdom r h hhit
    · have hri : r = i := by omega
      subst hri
      rcases hdisj with h | h
      · exact absurd h (List.not_mem_nil _)
      · exact h hhit
  | cons j0 js ih =>
    intro newt best hsorted hhits hk hdiag hbnd hdom hdisj
    have hh0 : selfHit a i j0 = true := hhits j0 (List.mem_cons_self _ _)
    have hk0 : (if j0 = 0 then 0 else prev (j0 - 1)) + 1 = selfRun a i j0 :=
      hk j0 (List.mem_cons_self _ _)
    have hsorted2 := (List.pairwise_cons.mp hsorted).2
    have hhits2 : ∀ j ∈ js, selfHit a i j = true :=
      fun j hj => hhits j (List.mem_cons_of_mem _ hj)
    have hk2 : ∀ j ∈ js, (if j = 0 then 0 else prev (j - 1)) + 1 = selfRun a i j :=
      fun j hj => hk j (List.mem_cons_of_mem _ hj)
    rw [flmInner_cons, hk0]
    rcases Nat.lt_trichotomy j0 i with hlt | heq | hgt
    · have hno : ¬ best.2.2 < selfRun a i j0 := by
        have h1 : selfRun a i j0 ≤ selfRun a j0 j0 :=
          selfRun_le_diag_col a i j0 (le_of_lt hlt)
        have h2 : selfRun a j0 j0 ≤ best.2.2 := hdom j0 hlt (selfHit_diag_col hh0)
        omega
      rw [if_neg hno]
      refine ih _ best hsorted2 hhits2 hk2 hdiag hbnd hdom ?_
      rcases hdisj with hmem | hP
      · rcases List.mem_cons.mp hmem with h | h
        · omega
        · exact Or.inl h
      · exact Or.inr hP
    · subst heq
      by_cases hfire : best.2.2 < selfRun a j0 j0
      · rw [if_pos hfire]
        have hhi : j0 < a.length := selfHit_lt hh0
        have hle : selfRun a j0 j0 ≤ j0 + 1 := selfRun_le a j0 j0
        obtain ⟨c1, c2, c3, c4⟩ := ih _
          (j0 + 1 - selfRun a j0 j0, j0 + 1 - selfRun a j0 j0, selfRun a j0 j0)
          hsorted2 hhits2 hk2 rfl (by dsimp only; omega)
          (by
            intro r hr hh
            have := hdom r hr hh
            dsimp only
            omega)
          (Or.inr (fun _ => by dsimp only; exact le_refl _))
        refine ⟨c1, ?_, c3, c4⟩
        dsimp only at c2
        omega
      · rw [if_neg hfire]
        exact ih _ best hsorted2 hhits2 hk2 hdiag hbnd hdom
          (Or.inr (fun _ => by omega))
    · have hP : selfHit a i i = true → selfRun a i i ≤ best.2.2 := by
        rcases hdisj with hmem | hP
        · exfalso
          rcases List.mem_cons.mp hmem with h | h
          · omega
          · have := (List.pairwise_cons.mp hsorted).1 i h
            omega
        · exact hP
      have hno : ¬ best.2.2 < selfRun a i j0 := by
        have h1 : selfRun a i j0 ≤ selfRun a i i :=
          selfRun_le_diag_row a i j0 (le_of_lt hgt)
        have h2 := hP (selfHit_diag_row hh0)
        omega
      rw [if_neg hno]
      exact ih _ best hsorted2 hhits2 hk2 hdiag hbnd hdom (Or.inr hP)

theorem flmRows_self_aux (a : List α) :
    ∀ (cnt i0 : Nat) (t : Nat → Nat) (best : Nat × Nat × Nat),
    i0 + cnt ≤ a.length →
    (∀ j, t j = selfRow a i0 j) →
    best.1 = best.2.1 →
    best.1 + best.2.2 ≤ a.length →
    (∀ r, r < i0 → selfHit a r r = true → selfRun a r r ≤ best.2.2) →
    (flmRows a (b2j a) 0 a.length (List.range' i0 cnt) t best).1 =
        (flmRows a (b2j a) 0 a.length (List.range' i0 cnt) t best).2.1 ∧
      (flmRows a (b2j a) 0 a.length (List.range' i0 cnt) t best).1 +
        (flmRows a (b2j a) 0 a.length (List.range' i0 cnt) t best).2.2 ≤ a.length := by
  intro cnt
  induction cnt with
  | zero =>
    intro i0 t best _ _ hdiag hbnd _
    exact ⟨hdiag, hbnd⟩
  | succ cnt ih =>
    intro i0 t best hlen ht hdiag hbnd hdom
    have hi0 : i0 < a.length := by omega
    obtain ⟨x, hx⟩ : ∃ x, a.get? i0 = some x := by
      cases hg : a.get? i0 with
      | none =>
        have := List.get?_eq_none.mp hg
        omega
      | some x => exact ⟨x, rfl⟩
    have hrange : List.range' i0 (cnt + 1) = i0 :: List.range' (i0 + 1) cnt :=
      List.range'_succ _ _ _
    have hjs : (match a.get? i0 with
        | some x => flmJs 0 a.length (b2j a x)
        | none => []) = b2j a x := by
      rw [hx]
      exact flmJs_id a.length (b2j a x) b2j_bound
    have hstep : flmRows a (b2j a) 0 a.length (List.range' i0 (cnt + 1)) t best =
        flmRows a (b2j a) 0 a.length (List.range' (i0 + 1) cnt)
          (flmInner t i0 (b2j a x) (fun _ => 0) best).1
          (flmInner t i0 (b2j a x) (fun _ => 0) best).2 := by
      rw [hrange]
      rw [show flmRows a (b2j a) 0 a.length (i0 :: List.range' (i0 + 1) cnt) t best =
        flmRows a (b2j a) 0 a.length (List.range' (i0 + 1) cnt)
          (flmInner t i0 (match a.get? i0 with
            | some x => flmJs 0 a.length (b2j a x)
            | none => []) (fun _ => 0) best).1
          (flmInner t i0 (match a.get? i0 with
            | some x => flmJs 0 a.length (b2j a x)
            | none => []) (fun _ => 0) best).2 from rfl]
      rw [hjs]
    have hkk : ∀ j ∈ b2j a x, (if j = 0 then 0 else t (j - 1)) + 1 = selfRun a i0 j := by
      intro j hj
      have hhit : selfHit a i0 j = true := (selfHit_iff_mem hx).mpr hj
      cases i0 with
      | zero =>
        rw [show selfRun a 0 j = (if selfHit a 0 j then 1 else 0) from rfl, if_pos hhit,
          ht (j - 1)]
        split <;> rfl
      | succ r =>
        rw [show selfRun a (r + 1) j =
          (if selfHit a (r + 1) j then (if j = 0 then 0 else selfRun a r (j - 1)) + 1
           else 0) from rfl, if_pos hhit, ht (j - 1)]
        rfl
    obtain ⟨c1, c2, c3, c4⟩ := flmInner_best_self a t i0 (b2j a x) (fun _ => 0) best
      (b2j_sorted a x) (fun j hj => (selfHit_iff_mem hx).mpr hj) hkk hdiag hbnd hdom
      (by
        by_cases hit : selfHit a i0 i0 = true
        · exact Or.inl ((selfHit_iff_mem hx).mp hit)
        · exact Or.inr (fun h => absurd h hit))
    have ht2 : ∀ j, (flmInner t i0 (b2j a x) (fun _ => 0) best).1 j =
        selfRow a (i0 + 1) j := by
      intro j
      rw [flmInner_table]
      by_cases hj : j ∈ b2j a x
      · rw [if_pos hj]
        exact hkk j hj
      · rw [if_neg hj]
        have hnh : selfHit a i0 j = false := by
          rcases Bool.eq_false_or_eq_true (selfHit a i0 j) with h | h
          · exact absurd ((selfHit_iff_mem hx).mp h) hj
          · exact h
        show (0 : Nat) = selfRun a i0 j
        rw [selfRun_eq_zero hnh]
    rw [hstep]
    exact ih (i0 + 1) _ _ (by omega) ht2 c1 c3 c4

theorem extendLeftGo_self (a : List α) :
    ∀ (fuel d k : Nat), d ≤ fuel → d + k ≤ a.length →
    extendLeftGo a a 0 0 fuel d d k = (0, 0, d + k) := by
  intro fuel
  induction fuel with
  | zero =>
    intro d k hd _
    have hd0 : d = 0 := by omega
    subst hd0
    rw [Nat.zero_add]
    rfl
  | succ fuel ih =>
    intro d k hd hk
    rw [show extendLeftGo a a 0 0 (fuel + 1) d d k =
      (if 0 < d ∧ 0 < d ∧ d - 1 < a.length ∧ a.get? (d - 1) = a.get? (d - 1) then
        extendLeftGo a a 0 0 fuel (d - 1) (d - 1) (k + 1) else (d, d, k)) from rfl]
    by_cases hd0 : 0 < d
    · rw [if_pos ⟨hd0, hd0, by omega, rfl⟩, ih (d - 1) (k + 1) (by omega) (by omega)]
      have : d - 1 + (k + 1) = d + k := by omega
      rw [this]
    · rw [if_neg (fun h => hd0 h.1)]
      have hd1 : d = 0 := by omega
      subst hd1
      rw [Nat.zero_add]

theorem extendRightGo_self (a : List α) :
    ∀ (fuel k : Nat), a.length - k ≤ fuel → k ≤ a.length →
    extendRightGo a a a.length a.length 0 0 fuel k = a.length := by
  intro fuel
  induction fuel with
  | zero =>
    intro k h1 h2
    have hk : k = a.length := by omega
    subst hk
    rfl
  | succ fuel ih =>
    intro k h1 h2
    rw [show extendRightGo a a a.length a.length 0 0 (fuel + 1) k =
      (if 0 + k < a.length ∧ 0 + k < a.length ∧ 0 + k < a.length ∧
          a.get? (0 + k) = a.get? (0 + k) then
        extendRightGo a a a.length a.length 0 0 fuel (k + 1) else k) from rfl]
    by_cases hk : 0 + k < a.length
    · rw [if_pos ⟨hk, hk, hk, rfl⟩]
      exact ih (k + 1) (by omega) (by omega)
    · rw [if_neg (fun h => hk h.1)]
      omega

theorem flm_expand_diag (a : List α) (best : Nat × Nat × Nat)
    (hdiag : best.1 = best.2.1) (hbnd : best.1 + best.2.2 ≤ a.length) :
    (fun m => (m.1, m.2.1, extendRightGo a a a.length a.length m.1 m.2.1 a.length m.2.2))
      (extendLeftGo a a 0 0 best.1 best.1 best.2.1 best.2.2) = (0, 0, a.length) := by
  obtain ⟨d, j, k⟩ := best
  dsimp only at hdiag hbnd ⊢
  subst hdiag
  rw [extendLeftGo_self a d d k (le_refl d) hbnd]
  dsimp only
  rw [extendRightGo_self a a.length (d + k) (by omega) hbnd]

theorem findLongestMatch_self (a : List α) :
    findLongestMatch a a 0 a.length 0 a.length = (0, 0, a.length) := by
  obtain ⟨hdiag, hbnd⟩ := flmRows_self_aux a a.length 0 (fun _ => 0) (0, 0, 0)
    (by omega) (fun j => rfl) rfl (by dsimp only; omega)
    (fun r hr _ => absurd hr (Nat.not_lt_zero r))
  exact flm_expand_diag a
    (flmRows a (b2j a) 0 a.length (List.range' 0 a.length) (fun _ => 0) (0, 0, 0))
    hdiag hbnd

theorem gmbLoop_self_step (a : List α) (fuel : Nat)
    (queue : List (Nat × Nat × Nat × Nat)) (acc : List (Nat × Nat × Nat)) :
    gmbLoop a a (fuel + 1) ((0, a.length, 0, a.length) :: queue) acc =
      if a.length = 0 then gmbLoop a a fuel queue acc
      else gmbLoop a a fuel queue (acc ++ [(0, 0, a.length)]) := by
  rw [show gmbLoop a a (fuel + 1) ((0, a.length, 0, a.length) :: queue) acc =
    (let m := findLongestMatch a a 0 a.length 0 a.length;
     if m.2.2 = 0 then gmbLoop a a fuel queue acc
     else gmbLoop a a fuel
       ((if m.1 + m.2.2 < a.length ∧ m.2.1 + m.2.2 < a.length then
          [(m.1 + m.2.2, a.length, m.2.1 + m.2.2, a.length)] else []) ++
        (if 0 < m.1 ∧ 0 < m.2.1 then [(0, m.1, 0, m.2.1)] else []) ++ queue)
       (acc ++ [(m.1, m.2.1, m.2.2)])) from rfl]
  rw [findLongestMatch_self a]
  dsimp only
  rw [if_neg (by omega : ¬((0 : Nat) + a.length < a.length ∧
    (0 : Nat) + a.length < a.length))]
  rw [if_neg (by omega : ¬((0 : Nat) < 0 ∧ (0 : Nat) < 0))]
  rw [List.nil_append, List.nil_append]

theorem gmbLoop_drained (a : List α) :
    ∀ (fuel : Nat) (acc : List (Nat × Nat × Nat)), gmbLoop a a fuel [] acc = acc := by
  intro fuel acc
  cases fuel <;> rfl

theorem getMatchingBlocks_self (a : List α) :
    getMatchingBlocks a a =
      if a.length = 0 then [(0, 0, 0)]
      else [(0, 0, a.length), (a.length, a.length, 0)] := by
  rw [show getMatchingBlocks a a =
    mergeAdj 0 0 0 (List.insertionSort matchLE
      (gmbLoop a a (2 * a.length + 1) [(0, a.length, 0, a.length)] [])) ++
      [(a.length, a.length, 0)] from rfl]
  rw [gmbLoop_self_step, gmbLoop_drained]
  by_cases h : a.length = 0
  · rw [if_pos h, if_pos h, h]
    rfl
  · rw [if_neg h, if_neg h]
    rw [show gmbLoop a a (2 * a.length) [] ([] ++ [(0, 0, a.length)]) =
      [] ++ [(0, 0, a.length)] from gmbLoop_drained a _ _]
    rw [List.nil_append]
    show mergeAdj 0 0 0 [(0, 0, a.length)] ++ [(a.length, a.length, 0)] = _
    rw [show mergeAdj 0 0 0 [(0, 0, a.length)] =
      (if 0 + a.length ≠ 0 then [(0, 0, 0 + a.length)] else []) from rfl]
    rw [Nat.zero_add, if_pos h]
    rfl

theorem opcodesLoop_sentinel (i j : Nat) : opcodesLoop i j [(i, j, 0)] = [] := by
  rw [show opcodesLoop i j [(i, j, 0)] =
    (if i < i ∧ j < j then [⟨DTag.replace, i, i, j, j⟩]
     else if i < i then [⟨DTag.delete, i, i, j, j⟩]
     else if j < j then [⟨DTag.insert, i, i, j, j⟩]
     else []) ++
      (if (0 : Nat) ≠ 0 then [⟨DTag.equal, i, i + 0, j, j + 0⟩] else []) ++
      opcodesLoop (i + 0) (j + 0) [] from rfl]
  rw [if_neg (show ¬(i < i ∧ j < j) by omega), if_neg (show ¬ i < i by omega),
    if_neg (show ¬ j < j by omega)]
  rfl

theorem getOpcodes_self (a : List α) :
    getOpcodes a a =
      if a.length = 0 then []
      else [⟨DTag.equal, 0, a.length, 0, a.length⟩] := by
  unfold getOpcodes
  rw [getMatchingBlocks_self]
  by_cases h : a.length = 0
  · rw [if_pos h, if_pos h]
    rfl
  · rw [if_neg h, if_neg h]
    rw [show opcodesLoop 0 0 [(0, 0, a.length), (a.length, a.length, 0)] =
      (if (0 : Nat) < 0 ∧ (0 : Nat) < 0 then [⟨DTag.replace, 0, 0, 0, 0⟩]
       else if (0 : Nat) < 0 then [⟨DTag.delete, 0, 0, 0, 0⟩]
       else if (0 : Nat) < 0 then [⟨DTag.insert, 0, 0, 0, 0⟩]
       else []) ++
        (if a.length ≠ 0 then [⟨DTag.equal, 0, 0 + a.length, 0, 0 + a.length⟩] else []) ++
        opcodesLoop (0 + a.length) (0 + a.length) [(a.length, a.length, 0)] from rfl]
    rw [if_neg (show ¬((0 : Nat) < 0 ∧ (0 : Nat) < 0) by omega),
      if_neg (show ¬(0 : Nat) < 0 by omega), if_neg (show ¬(0 : Nat) < 0 by omega),
      if_pos h, Nat.zero_add, opcodesLoop_sentinel]
    rfl

theorem getGroupedOpcodes_self (a : List α) : getGroupedOpcodes a a 3 = [] := by
  rw [show getGroupedOpcodes a a 3 =
    ggoLoop 3 [] (trimLastOpcode 3 (trimFirstOpcode 3
      (if getOpcodes a a = [] then [⟨DTag.equal, 0, 1, 0, 1⟩] else getOpcodes a a)))
    from rfl]
  rw [getOpcodes_self]
  by_cases h : a.length = 0
  · rw [if_pos h]
    rfl
  · rw [if_neg h]
    rw [if_neg (by simp :
      ¬([(⟨DTag.equal, 0, a.length, 0, a.length⟩ : Opcode)] = []))]
    rw [show trimFirstOpcode 3 [(⟨DTag.equal, 0, a.length, 0, a.length⟩ : Opcode)] =
      [⟨DTag.equal, max 0 (a.length - 3), a.length, max 0 (a.length - 3), a.length⟩]
      from rfl]
    rw [Nat.zero_max]
    rw [show trimLastOpcode 3
        [(⟨DTag.equal, a.length - 3, a.length, a.length - 3, a.length⟩ : Opcode)] =
      [⟨DTag.equal, a.length - 3, min a.length (a.length - 3 + 3),
        a.length - 3, min a.length (a.length - 3 + 3)⟩] from rfl]
    have hmin : min a.length (a.length - 3 + 3) = a.length := by omega
    rw [hmin]
    rw [show ggoLoop 3 []
        [(⟨DTag.equal, a.length - 3, a.length, a.length - 3, a.length⟩ : Opcode)] =
      (if DTag.equal = DTag.equal ∧ 2 * 3 < a.length - (a.length - 3) then
        ([] ++ [(⟨DTag.equal, a.length - 3, min a.length (a.length - 3 + 3),
          a.length - 3, min a.length (a.length - 3 + 3)⟩ : Opcode)]) ::
          ggoLoop 3 [⟨DTag.equal, max (a.length - 3) (a.length - 3), a.length,
            max (a.length - 3) (a.length - 3), a.length⟩] []
      else ggoLoop 3
        ([] ++ [⟨DTag.equal, a.length - 3, a.length, a.length - 3, a.length⟩]) [])
      from rfl]
    rw [if_neg (fun hc => absurd hc.2 (by omega))]
    have hsingle : isSingleEqual
        [(⟨DTag.equal, a.length - 3, a.length, a.length - 3, a.length⟩ : Opcode)] =
      true := rfl
    rw [show ggoLoop 3
        ([] ++ [(⟨DTag.equal, a.length - 3, a.length, a.length - 3, a.length⟩ : Opcode)])
        [] =
      (if [(⟨DTag.equal, a.length - 3, a.length, a.length - 3, a.length⟩ : Opcode)] ≠ [] ∧
          isSingleEqual
            [(⟨DTag.equal, a.length - 3, a.length, a.length - 3, a.length⟩ : Opcode)] =
            false then
        [[(⟨DTag.equal, a.length - 3, a.length, a.length - 3, a.length⟩ : Opcode)]]
      else []) from rfl]
    rw [if_neg (fun hc => Bool.noConfusion (hsingle ▸ hc.2))]

theorem generateDiff_self (A : List Char) :
    generateDiff A A = if A = [] then [] else ['
'] := by
  by_cases hA : A = []
  · subst hA
    decide
  · rw [if_neg hA]
    have hsp : pySplitlines A ≠ [] := fun h => hA (pySplitlines_injective h)
    rw [show generateDiff A A =
      List.intercalate ['
'] (unifiedDiffLines (pySplitlines A) (pySplitlines A)) ++
        (if pySplitlines A ≠ [] ∨ pySplitlines A ≠ [] then ['
'] else []) from rfl]
    have hudl : unifiedDiffLines (pySplitlines A) (pySplitlines A) = [] := by
      show (if getGroupedOpcodes (pySplitlines A) (pySplitlines A) 3 = [] then []
        else toL "--- original" :: toL "+++ modified" ::
          ((getGroupedOpcodes (pySplitlines A) (pySplitlines A) 3).map
            (renderGroup (pySplitlines A) (pySplitlines A))).flatten) = []
      rw [if_pos (getGroupedOpcodes_self _)]
    rw [hudl, if_pos (Or.inl hsp)]
    rfl

end SelfComparison


/-! Claim C4: presence of the `---`/`+++` file-header pair in generated
diffs. -/

/-- C4 (corrected): the generated diff begins with the `--- original` /
`+++ modified` header pair exactly when the two input texts differ; for
equal inputs difflib yields no opcode groups and the diff carries no
headers at all. -/
theorem generateDiff_headers (A B : List Char) :
    (∃ rest, generateDiff A B =
      toL "--- original" ++ '
' :: (toL "+++ modified" ++ '
' :: rest)) ↔ A ≠ B := by
  constructor
  · rintro ⟨rest, h⟩ hAB
    subst hAB
    rw [generateDiff_self] at h
    by_cases hA : A = []
    · rw [if_pos hA] at h
      exact List.noConfusion h
    · rw [if_neg hA] at h
      have h2 : ('
' : Char) :: ([] : List Char) =
          '-' :: (toL "-- original" ++ '
' :: (toL "+++ modified" ++ '
' :: rest)) := h
      injection h2 with h3 _
      exact absurd h3 (by decide)
  · exact generateDiff_headers_of_ne A B

end AiEdit
